import Mathlib

/-!
Verification of the treelet-partitioned BVH subsystem (CloudBVH /
TreeletDumpBVH) of a distributed ray tracer.

The development shallowly embeds the C++ code of
`src/accelerators/cloud.cpp` and `src/cloud/treeletdumpbvh.cpp`:

* pure helpers (`ComputeRayDir`, `ComputeIdx`, parameter defaults) become
  Lean functions over `ℚ`/`ℤ`/`ℕ`;
* the stateful traversal (`CloudBVH::Trace`, `CloudBVH::Intersect`) becomes
  an explicit state machine over a scene datatype, with the floating-point
  geometric predicates (box tests, triangle tests) abstracted into a
  deterministic oracle structure;
* the treelet partitioner (`ComputeTreeletsTopological`,
  `MergeDisjointTreelets`, the coverage check of `AllocateTreelets`) becomes
  fuel-indexed functional programs whose `CHECK_*` macros are `Option`
  guards.

Machine floats are modelled by `ℚ` (exact arithmetic); machine integers by
`ℕ`/`ℤ`.
-/

namespace PbrtCloud

/-! ## Octant encoding (`src/accelerators/cloud.cpp`, lines 954-969)

`Vector3f` components are modelled as rationals. -/

structure Vec3 where
  x : ℚ
  y : ℚ
  z : ℚ
deriving DecidableEq

/-- Embedding of `pbrt::ComputeRayDir` (cloud.cpp:954-960):
`x = idx & (1<<0); y = idx & (1<<1); z = idx & (1<<2);
return Vector3f(x ? 1 : -1, y ? 1 : -1, z ? 1 : -1)`. -/
def ComputeRayDir (idx : ℕ) : Vec3 :=
  ⟨if idx &&& 1 ≠ 0 then 1 else -1,
   if idx &&& 2 ≠ 0 then 1 else -1,
   if idx &&& 4 ≠ 0 then 1 else -1⟩

/-- Embedding of `pbrt::ComputeIdx` (cloud.cpp:962-969); the boolean
argument is the process-wide `PbrtOptions.directionalTreelets` flag. -/
def ComputeIdx (directionalTreelets : Bool) (dir : Vec3) : ℕ :=
  if directionalTreelets then
    (if dir.x ≥ 0 then 1 else 0) + ((if dir.y ≥ 0 then 1 else 0) <<< 1) +
      ((if dir.z ≥ 0 then 1 else 0) <<< 2)
  else 0

/-! ## Constructor configuration check (`cloud.cpp`, lines 36-44)

`CloudBVH::CloudBVH` throws before doing anything else when
`MaxThreadIndex() > 1 && !preload_all`. -/

/-- Embedding of the guard at the top of `CloudBVH::CloudBVH`
(cloud.cpp:41-44).  `maxThreadIndex` is the value of `MaxThreadIndex()`;
the check precedes every treelet load in the constructor body. -/
def cloudBVHConstructorCheck (maxThreadIndex : ℕ) (preload_all : Bool) :
    Except String Unit :=
  if maxThreadIndex > 1 ∧ preload_all = false then
    .error "Cannot use lazy-loading CloudBVH with multiple threads"
  else
    .ok ()

/-! ## Scene-description defaults (`treeletdumpbvh.cpp`, lines 61-85)

`CreateTreeletDumpBVH` reads `maxtreeletbytes` (default `1'000'000'000`)
and `copyablethreshold` (default `maxTreeletBytes / 2`); the constructor
marks a non-root sub-BVH copyable exactly when its estimated byte total is
strictly below the threshold. -/

/-- Scene-description parameters relevant to the treelet dumper; a `none`
field models an option omitted from the scene description, mirroring
`ParamSet::FindOneInt(name, default)`. -/
structure DumpParamSet where
  maxtreeletbytes : Option ℤ := none
  copyablethreshold : Option ℤ := none

/-- Embedding of `ParamSet::FindOneInt`: the stored value when present,
the supplied default otherwise. -/
def findOneInt (stored : Option ℤ) (deflt : ℤ) : ℤ :=
  stored.getD deflt

/-- Embedding of `CreateTreeletDumpBVH` (treeletdumpbvh.cpp:82):
`maxTreeletBytes = ps.FindOneInt("maxtreeletbytes", 1'000'000'000)`. -/
def paramMaxTreeletBytes (ps : DumpParamSet) : ℤ :=
  findOneInt ps.maxtreeletbytes 1000000000

/-- Embedding of `CreateTreeletDumpBVH` (treeletdumpbvh.cpp:83-84):
`copyableThreshold = ps.FindOneInt("copyablethreshold", maxTreeletBytes / 2)`. -/
def paramCopyableThreshold (ps : DumpParamSet) : ℤ :=
  findOneInt ps.copyablethreshold (paramMaxTreeletBytes ps / 2)

/-- Embedding of the per-node byte estimate of the non-root branch of
`TreeletDumpBVH::TreeletDumpBVH` (treeletdumpbvh.cpp:65-69):
`totalBytes += nodeSize + node.nPrimitives * triSize` over all flat-BVH
nodes.  `nPrims` lists `node.nPrimitives` for each node; the two size
constants (`SizeEstimates::nodeSize`, `SizeEstimates::triSize`) are
parameters because they are `sizeof`-derived. -/
def instanceTotalBytes (nodeSizeEst triSizeEst : ℕ) (nPrims : List ℕ) : ℕ :=
  (nPrims.map (fun np => nodeSizeEst + np * triSizeEst)).sum

/-- Embedding of the copyability decision (treeletdumpbvh.cpp:71-76): a
non-root sub-BVH is copyable iff `totalBytes < copyableThreshold`
(strictly); otherwise it is partitioned into its own treelets. -/
def instanceCopyable (nodeSizeEst triSizeEst : ℕ) (nPrims : List ℕ)
    (copyableThreshold : ℤ) : Bool :=
  (instanceTotalBytes nodeSizeEst triSizeEst nPrims : ℤ) < copyableThreshold

/-! ## The flat BVH of the dump side (`BVHAccel` / `TreeletDumpBVH`)

`LinearBVHNode` (from pbrt's `bvh.h`): an interior node (`nPrimitives = 0`)
has children `nodeIdx + 1` and `secondChildOffset`; a leaf owns
`nPrimitives` primitives starting at `primitivesOffset`.  `sa` models
`bounds.SurfaceArea()` as an exact rational. -/

structure LinearBVHNode where
  sa : ℚ := 0
  axis : ℕ := 0
  nPrimitives : ℕ := 0
  primitivesOffset : ℕ := 0
  secondChildOffset : ℕ := 0
deriving DecidableEq

/-- A primitive of the dump-side BVH, as far as the partitioner inspects
it: a geometric primitive (triangle), or a `TransformedPrimitive` whose
inner `TreeletDumpBVH` instance has an `instanceID` and a `copyable`
flag (the instance's `totalBytes` are recovered through a separate
`instanceSizes` map, exactly as `SetNodeInfo` records them). -/
inductive DPrim where
  | geom : DPrim
  | inst (instanceID : ℕ) (copyable : Bool) : DPrim
deriving DecidableEq

/-- The dump-side flat BVH: node array plus primitive array. -/
structure DumpBVH where
  nodes : List LinearBVHNode
  prims : List DPrim
deriving DecidableEq

/-- Primitives owned by a leaf node, in order (`primitives[node.primitivesOffset
+ i]` for `i < node.nPrimitives`). -/
def nodePrimList (bvh : DumpBVH) (node : LinearBVHNode) : List DPrim :=
  (List.range node.nPrimitives).map
    (fun i => (bvh.prims.getD (node.primitivesOffset + i) .geom))

/-- Whether the last primitive of a leaf is a non-copyable instance
(treeletdumpbvh.cpp:669-679): such a leaf suppresses its next-miss edge. -/
def lastPrimNonCopyableInstance (bvh : DumpBVH) (node : LinearBVHNode) : Bool :=
  match bvh.prims.getD (node.primitivesOffset + node.nPrimitives - 1) .geom with
  | .inst _ copyable => !copyable
  | .geom => false

/-- Component-wise `dirIsNeg` array of a ray direction
(`{invDir.x < 0, invDir.y < 0, invDir.z < 0}`; the sign of `1/x` is the
sign of `x`). -/
def dirIsNeg (d : Vec3) : ℕ → Bool
  | 0 => d.x < 0
  | 1 => d.y < 0
  | _ => d.z < 0

/-! ## SendCheck traversal-graph construction
(`TreeletDumpBVH::CreateTraversalGraphSendCheck`, treeletdumpbvh.cpp:588-695) -/

/-- A weighted traversal-graph edge. -/
structure Edge where
  src : ℕ
  dst : ℕ
  weight : ℚ
deriving DecidableEq

/-- State of the `CreateTraversalGraphSendCheck` loop: the
`IntermediateTraversalGraph` under construction plus the explicit
`traversalStack` (top of stack = head of list). -/
structure SendCheckState where
  edges : List Edge := []
  outgoing : List (ℕ × ℕ) := []
  incomingProb : List ℚ := []
  depthFirst : List ℕ := []
  stack : List ℕ := []
deriving DecidableEq

/-- Value at index `i` of a `ℚ` vector (0 outside the vector, matching a
vector sized `nodeCount` indexed in range). -/
def probAt (l : List ℚ) (i : ℕ) : ℚ :=
  l.getD i 0

/-- Add `v` into slot `i` of a `ℚ` vector (`incomingProb[dst] += prob`). -/
def probAdd (l : List ℚ) (i : ℕ) (v : ℚ) : List ℚ :=
  l.set i (probAt l i + v)

/-- Embedding of the `addEdge` lambda (treeletdumpbvh.cpp:599-608): append
the edge, extend the source's `(first, count)` outgoing slot, and
accumulate `incomingProb[dst]`. -/
def scAddEdge (g : SendCheckState) (src dst : ℕ) (prob : ℚ) : SendCheckState :=
  let edges := g.edges ++ [⟨src, dst, prob⟩]
  let slot := g.outgoing.getD src (0, 0)
  let slot' := if slot.2 = 0 then (edges.length - 1, 1) else (slot.1, slot.2 + 1)
  { g with
    edges := edges
    outgoing := g.outgoing.set src slot'
    incomingProb := probAdd g.incomingProb dst prob }

/-- One iteration of the `while (traversalStack.size() > 0)` loop of
`CreateTraversalGraphSendCheck` (treeletdumpbvh.cpp:614-692).  The
`CHECK_*` macros become `none` (an aborted construction).  `dirNeg` is the
`dirIsNeg` array of the chosen ray direction. -/
def sendCheckStep (bvh : DumpBVH) (dirNeg : ℕ → Bool) (g : SendCheckState) :
    Option SendCheckState :=
  match g.stack with
  | [] => none
  | curIdx :: rest =>
    let node := bvh.nodes.getD curIdx {}
    let curProb := probAt g.incomingProb curIdx
    if ¬ (0 < curProb ∧ curProb ≤ 1.0001) then none else
    let g0 := { g with depthFirst := g.depthFirst ++ [curIdx], stack := rest }
    let nextMiss : ℕ := match rest with | [] => 0 | m :: _ => m
    if node.nPrimitives = 0 then
      let stack' :=
        if dirNeg node.axis then
          node.secondChildOffset :: (curIdx + 1) :: rest
        else
          (curIdx + 1) :: node.secondChildOffset :: rest
      let nextHit := stack'.headD 0
      let g1 := { g0 with stack := stack' }
      if nextMiss = 0 then
        if ¬ (0.99 < curProb) then none else
        some (scAddEdge g1 curIdx nextHit curProb)
      else
        let curSA := node.sa
        let nextSA := (bvh.nodes.getD nextHit {}).sa
        let condHitProb := nextSA / curSA
        if ¬ (condHitProb ≤ 1) then none else
        let condMissProb := 1 - condHitProb
        some (scAddEdge (scAddEdge g1 curIdx nextHit (curProb * condHitProb))
          curIdx nextMiss (curProb * condMissProb))
    else
      if nextMiss ≠ 0 then
        if lastPrimNonCopyableInstance bvh node then
          some { g0 with incomingProb := probAdd g0.incomingProb nextMiss curProb }
        else
          some (scAddEdge g0 curIdx nextMiss curProb)
      else
        if ¬ (rest = [] ∧ 0.99 < curProb) then none else
        some g0

/-- The full `CreateTraversalGraphSendCheck` loop, fuel-indexed: starts
from stack `[0]` with `incomingProb[0] = 1.0` and iterates `sendCheckStep`
until the stack empties. -/
def sendCheckRun (bvh : DumpBVH) (dirNeg : ℕ → Bool) :
    ℕ → SendCheckState → Option SendCheckState
  | 0, g => if g.stack = [] then some g else none
  | fuel + 1, g =>
    if g.stack = [] then some g
    else
      match sendCheckStep bvh dirNeg g with
      | none => none
      | some g' => sendCheckRun bvh dirNeg fuel g'

/-- Entry state of `CreateTraversalGraphSendCheck`: empty graph over
`nodeCount` vertices, `incomingProb[0] = 1.0`, stack `{0}`. -/
def sendCheckInit (nodeCount : ℕ) : SendCheckState :=
  { edges := []
    outgoing := List.replicate nodeCount (0, 0)
    incomingProb := (List.replicate nodeCount (0 : ℚ)).set 0 1
    depthFirst := []
    stack := [0] }

/-- Embedding of `CreateTraversalGraphSendCheck` itself. -/
def createTraversalGraphSendCheck (bvh : DumpBVH) (rayDir : Vec3) (fuel : ℕ) :
    Option SendCheckState :=
  sendCheckRun bvh (dirIsNeg rayDir) fuel (sendCheckInit bvh.nodes.length)

/-! ## Treelet info and the final allocation pass
(`TreeletDumpBVH::OrderTreeletNodesDepthFirst` and the coverage check of
`AllocateDirectionalTreelets` / `AllocateUnspecializedTreelets`,
treeletdumpbvh.cpp:372-421, 490-502, 556-576)

`TreeletInfo` is declared in `treeletdumpbvh.h`, which is not among the
sources; its fields are reconstructed from every use in
`treeletdumpbvh.cpp` (`nodes`, `dirIdx`, `instanceMask`, `instanceSize`,
`noInstanceSize`, `totalProb`). -/

structure TreeletInfo where
  nodes : List ℕ := []
  dirIdx : ℕ := 0
  instanceMask : Finset ℕ := ∅
  instanceSize : ℕ := 0
  noInstanceSize : ℕ := 0
  totalProb : ℚ := 0
deriving DecidableEq

/-- Read `treeletAllocations[dir][node]` (the per-direction label array). -/
def allocGet (a : List (List ℕ)) (dir node : ℕ) : ℕ :=
  (a.getD dir []).getD node 0

/-- Write `treeletAllocations[dir][node] = v`. -/
def allocSet (a : List (List ℕ)) (dir node v : ℕ) : List (List ℕ) :=
  a.set dir ((a.getD dir []).set node v)

/-- Phase 1 of `OrderTreeletNodesDepthFirst` (treeletdumpbvh.cpp:375-381):
`treeletAllocations[treelet.dirIdx][nodeIdx] = treeletID` for every node of
every treelet, in treelet order. -/
def markTreeletAllocations (treelets : List TreeletInfo) (alloc : List (List ℕ)) :
    List (List ℕ) :=
  treelets.enum.foldl
    (fun a p => p.2.nodes.foldl (fun a' n => allocSet a' p.2.dirIdx n p.1) a)
    alloc

/-- Phase 1 also clears every treelet's node list (`treelet.nodes.clear()`). -/
def clearTreeletNodes (treelets : List TreeletInfo) : List TreeletInfo :=
  treelets.map (fun t => { t with nodes := [] })

/-- Append `nodeIdx` to treelet `tid`'s node list (`info.nodes.push_back`). -/
def pushNodeToTreelet (ts : List TreeletInfo) (tid nodeIdx : ℕ) : List TreeletInfo :=
  match ts.get? tid with
  | none => ts
  | some t => ts.set tid { t with nodes := t.nodes ++ [nodeIdx] }

/-- The inner `while (!depthFirstInTreelet.empty())` loop of
`OrderTreeletNodesDepthFirst` (treeletdumpbvh.cpp:396-418): pop a node,
append it to the current treelet, and route each child to the in-treelet
stack or to the outer stack according to its label.  Returns the final
outer stack and treelet list; `none` models fuel exhaustion. -/
def innerTreeletWalk (bvh : DumpBVH) (alloc : List (List ℕ)) (dirIdx treeletID : ℕ) :
    ℕ → List ℕ → List ℕ → List TreeletInfo → Option (List ℕ × List TreeletInfo)
  | 0, _, _, _ => none
  | fuel + 1, inner, outer, ts =>
    match inner with
    | [] => some (outer, ts)
    | nodeIdx :: innerRest =>
      let ts' := pushNodeToTreelet ts treeletID nodeIdx
      let node := bvh.nodes.getD nodeIdx {}
      if node.nPrimitives = 0 then
        let right := node.secondChildOffset
        let p1 : List ℕ × List ℕ :=
          if allocGet alloc dirIdx right = treeletID then (right :: innerRest, outer)
          else (innerRest, right :: outer)
        let left := nodeIdx + 1
        let p2 : List ℕ × List ℕ :=
          if allocGet alloc dirIdx left = treeletID then (left :: p1.1, p1.2)
          else (p1.1, left :: p1.2)
        innerTreeletWalk bvh alloc dirIdx treeletID fuel p2.1 p2.2 ts'
      else
        innerTreeletWalk bvh alloc dirIdx treeletID fuel innerRest outer ts'

/-- The outer `while (!depthFirst.empty())` loop of
`OrderTreeletNodesDepthFirst` (treeletdumpbvh.cpp:387-419) for one
direction, starting from stack `{0}`. -/
def outerTreeletWalk (bvh : DumpBVH) (alloc : List (List ℕ)) (dirIdx : ℕ) :
    ℕ → List ℕ → List TreeletInfo → Option (List TreeletInfo)
  | 0, _, _ => none
  | fuel + 1, outer, ts =>
    match outer with
    | [] => some ts
    | start :: outerRest =>
      let tid := allocGet alloc dirIdx start
      match innerTreeletWalk bvh alloc dirIdx tid fuel [start] outerRest ts with
      | none => none
      | some (outer', ts') => outerTreeletWalk bvh alloc dirIdx fuel outer' ts'

/-- Embedding of `OrderTreeletNodesDepthFirst(numDirs, treelets)`
(treeletdumpbvh.cpp:372-421). -/
def orderTreeletNodesDepthFirst (bvh : DumpBVH) (numDirs fuel : ℕ)
    (treelets : List TreeletInfo) (alloc : List (List ℕ)) :
    Option (List TreeletInfo) :=
  let alloc' := markTreeletAllocations treelets alloc
  (List.range numDirs).foldlM
    (fun ts dirIdx => outerTreeletWalk bvh alloc' dirIdx fuel [0] ts)
    (clearTreeletNodes treelets)

/-- Increment `nodeCheck[dir][node]` by one. -/
def bumpCount (acc : List (List ℕ)) (dir node : ℕ) : List (List ℕ) :=
  acc.set dir ((acc.getD dir []).set node ((acc.getD dir []).getD node 0 + 1))

/-- The `nodeCheck` counters of the post-allocation check
(treeletdumpbvh.cpp:557-567 directional, 491-496 unspecialized; in the
unspecialized variant every `dirIdx` is 0 and there is a single
counter vector). -/
def coverageCounts (numDirs nodeCount : ℕ) (ts : List TreeletInfo) :
    List (List ℕ) :=
  ts.foldl (fun acc t => t.nodes.foldl (fun a n => bumpCount a t.dirIdx n) acc)
    (List.replicate numDirs (List.replicate nodeCount 0))

/-- The `CHECK_EQ(count, 1)` sweep (treeletdumpbvh.cpp:569-573, 498-500). -/
def coverageCheck (numDirs nodeCount : ℕ) (ts : List TreeletInfo) : Bool :=
  (coverageCounts numDirs nodeCount ts).all (fun row => row.all (fun c => c = 1))

/-- The tail of both `AllocateDirectionalTreelets` (`numDirs = 8`) and
`AllocateUnspecializedTreelets` (`numDirs = 1`): reorder each treelet's
node list depth-first and then run the build-time coverage check; a failed
`CHECK_EQ` aborts (`none`). -/
def allocateFinalize (bvh : DumpBVH) (numDirs fuel : ℕ)
    (treelets : List TreeletInfo) (alloc : List (List ℕ)) :
    Option (List TreeletInfo) :=
  match orderTreeletNodesDepthFirst bvh numDirs fuel treelets alloc with
  | none => none
  | some ts => if coverageCheck numDirs bvh.nodes.length ts then some ts else none

/-! ## Topological treelet partitioning and the merge pass
(`TreeletDumpBVH::ComputeTreeletsTopological`, treeletdumpbvh.cpp:984-1129;
`TreeletDumpBVH::MergeDisjointTreelets`, treeletdumpbvh.cpp:220-370)

The context bundles the per-node byte table (`nodeSizes` from
`SetNodeInfo`), the per-instance byte table (`instanceSizes`), the
instance count, the budget, and `sizeof(CloudBVH::TreeletNode)`. -/

structure TopoCtx where
  bvh : DumpBVH
  nodeSizes : ℕ → ℕ
  instSize : ℕ → ℕ
  numInstances : ℕ
  maxTreeletBytes : ℕ
  sizeofTreeletNode : ℕ

/-- A traversal graph as the partitioner consumes it: the depth-first
vertex order and the outgoing adjacency (`graph.outgoing[n]`), plus
`incomingProb` (used by the merge pass for instance probabilities). -/
structure TGraph where
  depthFirst : List ℕ
  outgoing : ℕ → List Edge
  incomingProb : ℕ → ℚ

/-- Ids of the copyable instances among a node's primitives, in primitive
order (`SetNodeInfo` sets `nodeInstanceMasks` bits only for copyable
instances, treeletdumpbvh.cpp:161-174). -/
def copyableIds (bvh : DumpBVH) (nodeIdx : ℕ) : List ℕ :=
  (nodePrimList bvh (bvh.nodes.getD nodeIdx {})).filterMap
    (fun p => match p with
      | .inst id c => if c then some id else none
      | .geom => none)

/-- The copyable-instance mask of a node (`nodeInstanceMasks[nodeIdx]`). -/
def nodeMask (bvh : DumpBVH) (nodeIdx : ℕ) : Finset ℕ :=
  (copyableIds bvh nodeIdx).toFinset

/-- Embedding of `TreeletDumpBVH::GetInstancesBytes`
(treeletdumpbvh.cpp:201-218): total bytes of the instances whose bit is
set, summed over `instanceIdx < numInstances`. -/
def getInstancesBytes (ctx : TopoCtx) (mask : Finset ℕ) : ℕ :=
  ((List.range ctx.numInstances).map
    (fun i => if i ∈ mask then ctx.instSize i else 0)).sum

/-- Embedding of the `getAdditionalSize` lambda of
`ComputeTreeletsTopological` (treeletdumpbvh.cpp:1027-1049): the node's
byte size plus the bytes of each copyable instance of the node not yet
included in the treelet. -/
def getAdditionalSize (ctx : TopoCtx) (included : Finset ℕ) (nodeIdx : ℕ) : ℕ :=
  ctx.nodeSizes nodeIdx +
    ((copyableIds ctx.bvh nodeIdx).map
      (fun id => if id ∈ included then 0 else ctx.instSize id)).sum

/-- The strict order of the cut's `EdgeCmp` (treeletdumpbvh.cpp:993-1005):
greater weight first, ties by smaller destination. -/
def cutEdgeBefore (a b : ℚ × ℕ) : Bool :=
  if a.1 > b.1 then true
  else if a.1 < b.1 then false
  else a.2 < b.2

/-- Ordered insertion into the cut (`std::set<OutEdge, EdgeCmp>`). -/
def cutInsertSorted (cut : List (ℚ × ℕ)) (e : ℚ × ℕ) : List (ℚ × ℕ) :=
  match cut with
  | [] => [e]
  | c :: rest => if cutEdgeBefore e c then e :: c :: rest else c :: cutInsertSorted rest e

/-- Embedding of the edge-accumulation step of `ComputeTreeletsTopological`
(treeletdumpbvh.cpp:1059-1082): skip destinations that cannot fit, insert
new destinations, and merge duplicate destinations by summing weights. -/
def cutAddEdges (ctx : TopoCtx) (included : Finset ℕ) (remaining : ℕ)
    (cut : List (ℚ × ℕ)) (edges : List Edge) : List (ℚ × ℕ) :=
  edges.foldl
    (fun cut e =>
      if getAdditionalSize ctx included e.dst > remaining then cut
      else
        match cut.find? (fun c => c.2 = e.dst) with
        | none => cutInsertSorted cut (e.weight, e.dst)
        | some c =>
          cutInsertSorted (cut.eraseP (fun c => c.2 = e.dst)) (c.1 + e.weight, e.dst))
    cut

/-- Embedding of the best-edge scan (treeletdumpbvh.cpp:1084-1106): walk
the cut in order, dropping destinations that are already assigned or no
longer fit, and return the first fitting edge together with its
incremental byte cost and the remaining cut. -/
def cutSelect (ctx : TopoCtx) (included : Finset ℕ) (assignment : List ℕ)
    (remaining : ℕ) : List (ℚ × ℕ) → Option ((ℚ × ℕ) × ℕ × List (ℚ × ℕ))
  | [] => none
  | e :: rest =>
    let curBytes := getAdditionalSize ctx included e.2
    if assignment.getD e.2 0 ≠ 0 ∨ curBytes > remaining then
      cutSelect ctx included assignment remaining rest
    else
      some (e, curBytes, rest)

/-- The treelet-growing loop of `ComputeTreeletsTopological`
(treeletdumpbvh.cpp:1058-1123), fuel-indexed.  Returns the updated
assignment and global depth-first deque. -/
def growTreelet (ctx : TopoCtx) (outgoing : ℕ → List Edge) (curTreelet : ℕ) :
    ℕ → ℕ → ℕ → Finset ℕ → List (ℚ × ℕ) → List ℕ → List ℕ →
    Option (List ℕ × List ℕ)
  | 0, _, _, _, _, _, _ => none
  | fuel + 1, curNode, remaining, included, cut, assignment, depthFirst =>
    if remaining < ctx.sizeofTreeletNode then some (assignment, depthFirst)
    else
      let cut1 := cutAddEdges ctx included remaining cut (outgoing curNode)
      match cutSelect ctx included assignment remaining cut1 with
      | none => some (assignment, depthFirst)
      | some (best, used, cut2) =>
        growTreelet ctx outgoing curTreelet fuel best.2 (remaining - used)
          (included ∪ nodeMask ctx.bvh best.2) cut2
          (assignment.set best.2 curTreelet) (depthFirst.erase best.2)

/-- The outer seed loop of `ComputeTreeletsTopological`
(treeletdumpbvh.cpp:1016-1126): pop the next unassigned node from the
depth-first deque, start a treelet with it (the `CHECK_LE(rootSize,
maxTreeletBytes)` guard becomes `none`), grow it, and continue with the
next treelet id. -/
def topoOuter (ctx : TopoCtx) (outgoing : ℕ → List Edge) :
    ℕ → List ℕ → List ℕ → ℕ → Option (List ℕ)
  | 0, _, _, _ => none
  | fuel + 1, depthFirst, assignment, curTreelet =>
    match depthFirst with
    | [] => some assignment
    | curNode :: dfRest =>
      let assignment1 := assignment.set curNode curTreelet
      let rootSize := getAdditionalSize ctx ∅ curNode
      if rootSize > ctx.maxTreeletBytes then none
      else
        match growTreelet ctx outgoing curTreelet fuel curNode
          (ctx.maxTreeletBytes - rootSize) (nodeMask ctx.bvh curNode) []
          assignment1 dfRest with
        | none => none
        | some (assignment2, df2) =>
          topoOuter ctx outgoing fuel df2 assignment2 (curTreelet + 1)

/-- Embedding of `ComputeTreeletsTopological` (treeletdumpbvh.cpp:984-1129):
assignment vector initialised to 0 (unassigned), treelet ids from 1. -/
def computeTreeletsTopological (ctx : TopoCtx) (graph : TGraph) (fuel : ℕ) :
    Option (List ℕ) :=
  topoOuter ctx graph.outgoing fuel graph.depthFirst
    (List.replicate ctx.bvh.nodes.length 0) 1

/-! ### The merge pass (`MergeDisjointTreelets`) -/

/-- Update (or default-construct, as `unordered_map::operator[]`) the
entry of treelet `k` in the association list. -/
def updateAssoc (m : List (ℕ × TreeletInfo)) (k : ℕ)
    (f : TreeletInfo → TreeletInfo) : List (ℕ × TreeletInfo) :=
  match m.find? (fun p => p.1 = k) with
  | some _ => m.map (fun p => if p.1 = k then (p.1, f p.2) else p)
  | none => m ++ [(k, f {})]

/-- Accumulate an instance probability
(`instanceProbabilities[dirIdx][instanceID] += incomingProb`). -/
def bumpProb (ip : List (ℕ × ℚ)) (id : ℕ) (v : ℚ) : List (ℕ × ℚ) :=
  match ip.find? (fun p => p.1 = id) with
  | some _ => ip.map (fun p => if p.1 = id then (p.1, p.2 + v) else p)
  | none => ip ++ [(id, v)]

/-- Absorb one primitive's copyable instance into a treelet summary
(treeletdumpbvh.cpp:241-245): set the mask bit and add the instance bytes
the first time the instance is seen. -/
def instAbsorb (ctx : TopoCtx) (t : TreeletInfo) (p : DPrim) : TreeletInfo :=
  match p with
  | .geom => t
  | .inst id c =>
    if c then
      if id ∈ t.instanceMask then t
      else
        { t with
            instanceMask := insert id t.instanceMask
            instanceSize := t.instanceSize + ctx.instSize id }
    else t

/-- The per-node body of the build scan: append the node, absorb its
copyable instances, record non-copyable probabilities, credit
cross-treelet edge weights (treeletdumpbvh.cpp:224-262). -/
def mergeBuildStep (ctx : TopoCtx) (graph : TGraph) (dirIdx : ℕ)
    (assignment : List ℕ) (st : List (ℕ × TreeletInfo) × List (ℕ × ℚ))
    (nodeIdx : ℕ) : List (ℕ × TreeletInfo) × List (ℕ × ℚ) :=
  let tid := assignment.getD nodeIdx 0
  let prims := nodePrimList ctx.bvh (ctx.bvh.nodes.getD nodeIdx {})
  let m1 := updateAssoc st.1 tid (fun t =>
    prims.foldl (instAbsorb ctx)
      { t with
          dirIdx := dirIdx
          nodes := t.nodes ++ [nodeIdx]
          noInstanceSize := t.noInstanceSize + ctx.nodeSizes nodeIdx })
  let ip1 := prims.foldl
    (fun ip p =>
      match p with
      | .inst id false => bumpProb ip id (graph.incomingProb nodeIdx)
      | _ => ip)
    st.2
  let m2 := (graph.outgoing nodeIdx).foldl
    (fun m e =>
      let dstTid := assignment.getD e.dst 0
      if tid ≠ dstTid then updateAssoc m dstTid (fun t => { t with totalProb := t.totalProb + e.weight })
      else m)
    m1
  (m2, ip1)

/-- The candidate scan of the merge loop (treeletdumpbvh.cpp:308-347):
try to merge each later treelet into the current one; a merge needs the
combined node bytes plus the union instance bytes within budget; scanning
stops early once the current size is within one node of the budget. -/
def mergeScan (ctx : TopoCtx) (info : TreeletInfo) :
    List (ℕ × TreeletInfo) → TreeletInfo × List (ℕ × TreeletInfo)
  | [] => (info, [])
  | c :: rest =>
    let noInstSize := info.noInstanceSize + c.2.noInstanceSize
    if noInstSize > ctx.maxTreeletBytes then
      let r := mergeScan ctx info rest
      (r.1, c :: r.2)
    else
      let mergedMask := info.instanceMask ∪ c.2.instanceMask
      let unionInstanceSize := getInstancesBytes ctx mergedMask
      let totalSize := noInstSize + unionInstanceSize
      if totalSize ≤ ctx.maxTreeletBytes then
        let newNodes :=
          if info.nodes.headD 0 < c.2.nodes.headD 0 then info.nodes ++ c.2.nodes
          else c.2.nodes ++ info.nodes
        let info1 : TreeletInfo :=
          { nodes := newNodes
            dirIdx := info.dirIdx
            instanceMask := mergedMask
            instanceSize := unionInstanceSize
            noInstanceSize := noInstSize
            totalProb := info.totalProb + c.2.totalProb }
        if ctx.maxTreeletBytes - ctx.sizeofTreeletNode ≤ totalSize then (info1, rest)
        else mergeScan ctx info1 rest
      else
        if ctx.maxTreeletBytes - ctx.sizeofTreeletNode ≤ totalSize then (info, c :: rest)
        else
          let r := mergeScan ctx info rest
          (r.1, c :: r.2)

/-- The outer merge loop (treeletdumpbvh.cpp:304-356): repeatedly take the
smallest remaining treelet, scan the rest for merge partners, and move the
result into the output map keyed by the original treelet id. -/
def mergeOuter (ctx : TopoCtx) :
    ℕ → List (ℕ × TreeletInfo) → List (ℕ × TreeletInfo) →
    Option (List (ℕ × TreeletInfo))
  | 0, _, _ => none
  | fuel + 1, sorted, acc =>
    match sorted with
    | [] => some acc
    | (tid, info) :: rest =>
      let r := mergeScan ctx info rest
      mergeOuter ctx fuel r.2 (acc ++ [(tid, r.1)])

/-- The `std::multimap` key order of the merge loop
(treeletdumpbvh.cpp:296-302): total treelet size, with the original
treelet id breaking ties. -/
abbrev treeletSizeLE (a b : ℕ × TreeletInfo) : Prop :=
  a.2.noInstanceSize + a.2.instanceSize < b.2.noInstanceSize + b.2.instanceSize ∨
    (a.2.noInstanceSize + a.2.instanceSize = b.2.noInstanceSize + b.2.instanceSize ∧
      a.1 ≤ b.1)

/-- Embedding of `MergeDisjointTreelets` (treeletdumpbvh.cpp:220-370):
build the per-treelet summaries from the assignment, credit the root
treelet probability, run the `CHECK_NE(id, 0)` and
`CHECK_LE(noInstanceSize + instanceSize, maxTreeletBytes)` guards, sort by
(total size, id), and merge.  Returns the merged map and the non-copyable
instance probabilities. -/
def mergeDisjointTreelets (ctx : TopoCtx) (graph : TGraph) (dirIdx : ℕ)
    (assignment : List ℕ) (fuel : ℕ) :
    Option (List (ℕ × TreeletInfo) × List (ℕ × ℚ)) :=
  let built := (List.range ctx.bvh.nodes.length).foldl
    (mergeBuildStep ctx graph dirIdx assignment) ([], [])
  let rootTid := assignment.getD 0 0
  match built.1.find? (fun p => p.1 = rootTid) with
  | none => none
  | some _ =>
    let m := updateAssoc built.1 rootTid (fun t => { t with totalProb := t.totalProb + 1 })
    if m.all (fun p =>
        decide (p.1 ≠ 0) &&
          decide (p.2.noInstanceSize + p.2.instanceSize ≤ ctx.maxTreeletBytes)) then
      let sorted := List.insertionSort treeletSizeLE m
      match mergeOuter ctx fuel sorted [] with
      | none => none
      | some out => some (out, built.2)
    else none

/-! ## Material dumping (`TreeletDumpBVH::DumpMaterials`,
treeletdumpbvh.cpp:2449-2682)

Abstracted inputs: `texSize m` is `getTotalTextureSize(m)`, `fileSize m`
is `roost::file_size` of the material file, `splitFn m` is the list of
partition-material ids produced by `generateTexturePartitions` (its ptex
face walk is outside this claim's scope). -/

/-- The material-treelet budget (treeletdumpbvh.cpp:2456):
`3 * maxTreeletBytes / 4` in integer arithmetic. -/
def maxMaterialTreeletBytes (maxTreeletBytes : ℕ) : ℕ :=
  3 * maxTreeletBytes / 4

/-- Embedding of the classification loop of `DumpMaterials`
(treeletdumpbvh.cpp:2458-2475): materials whose texture bytes exceed the
budget are replaced by their texture partitions; textured materials within
budget pass through with their texture size; materials with no textures go
to the untextured list with their file size. -/
def classifyStep (budget : ℕ) (texSize fileSize : ℕ → ℕ) (splitFn : ℕ → List ℕ)
    (acc : List (ℕ × ℕ) × List (ℕ × ℕ)) (m : ℕ) :
    List (ℕ × ℕ) × List (ℕ × ℕ) :=
  let s := texSize m
  if s > budget then
    (acc.1 ++ (splitFn m).map (fun i => (i, texSize i)), acc.2)
  else if s ≠ 0 then
    (acc.1 ++ [(m, s)], acc.2)
  else
    (acc.1, acc.2 ++ [(m, fileSize m)])

/-- The classification loop of `DumpMaterials` (treeletdumpbvh.cpp:2458-2475)
as a fold of `classifyStep` from empty lists. -/
def classifyMaterials (budget : ℕ) (mats : List ℕ) (texSize fileSize : ℕ → ℕ)
    (splitFn : ℕ → List ℕ) : List (ℕ × ℕ) × List (ℕ × ℕ) :=
  mats.foldl (classifyStep budget texSize fileSize splitFn) ([], [])

/-- A material treelet under construction (the local `MaterialTreelet`
struct of `DumpMaterials`, treeletdumpbvh.cpp:2552-2559). -/
structure MaterialTreelet where
  id : ℕ := 0
  materials : List ℕ := []
  textureKeys : List (List String) := []
  size : ℕ := 0
deriving DecidableEq, Inhabited

/-- First-fit placement of one texture key (treeletdumpbvh.cpp:2569-2580):
the key goes into the first treelet whose size stays within the budget and
which holds fewer than 150 keys; `none` when no treelet fits. -/
def ffInsert (budget : ℕ) (ts : List MaterialTreelet) (tk : List String × ℕ) :
    Option (List MaterialTreelet) :=
  match ts with
  | [] => none
  | t :: rest =>
    if t.size + tk.2 ≤ budget ∧ t.textureKeys.length < 150 then
      some
        ({ t with
            textureKeys := t.textureKeys ++ [tk.1]
            size := t.size + tk.2 } :: rest)
    else
      match ffInsert budget rest tk with
      | none => none
      | some rest' => some (t :: rest')

/-- One step of the texture-key packing loop: place the key first-fit, or
open a fresh treelet holding just this key (treeletdumpbvh.cpp:2582-2586);
the counter models `_manager.getNextId(ObjectType::Treelet)`. -/
def packStep (budget : ℕ) (st : List MaterialTreelet × ℕ)
    (tk : List String × ℕ) : List MaterialTreelet × ℕ :=
  match ffInsert budget st.1 tk with
  | some ts' => (ts', st.2)
  | none =>
    (st.1 ++ [{ id := st.2, textureKeys := [tk.1], size := tk.2 }], st.2 + 1)

/-- Embedding of the texture-key packing of `DumpMaterials`
(treeletdumpbvh.cpp:2561-2587): one initial empty treelet, keys sorted by
size in decreasing order (`a.second > b.second`), then first-fit. -/
def packTextureKeys (budget firstId : ℕ) (keys : List (List String × ℕ)) :
    List MaterialTreelet × ℕ :=
  (keys.mergeSort (fun a b => decide (b.2 ≤ a.2))).foldl (packStep budget)
    ([{ id := firstId }], firstId + 1)

/-- Index selected by
`min_element(treelets.begin(), treelets.end(), [](x, y){ return x.size < y.size; })`
(treeletdumpbvh.cpp:2599-2601): the first treelet of minimal size. -/
def minSizeIdx (ts : List MaterialTreelet) : ℕ :=
  ts.enum.foldl
    (fun best p => if p.2.size < (ts.getD best default).size then p.1 else best) 0

/-- Embedding of the untextured-material append
(treeletdumpbvh.cpp:2597-2605): every material with no textures is pushed
into the minimal-size material treelet. -/
def appendNoTextureMaterials (ts : List MaterialTreelet)
    (ntx : List (ℕ × ℕ)) : List MaterialTreelet :=
  let idx := minSizeIdx ts
  match ts.get? idx with
  | none => ts
  | some t => ts.set idx { t with materials := t.materials ++ ntx.map (·.1) }

/-! ## The traverser (`CloudBVH::Trace`, cloud.cpp:515-674, and
`CloudBVH::Intersect`, cloud.cpp:676-740)

The machines are parametrised by a geometric oracle instead of modelling
floating-point ray arithmetic: both the suspendable `Trace` state machine
and the recursive `Intersect` call the same C++ geometry routines
(`Bounds3f::IntersectP`, `Primitive::Intersect`) on the same ray, so each
test is keyed by the coordinate space of the current object-space ray (the
chain of instance transforms applied, world = `[]`), the current `tMax`,
and the treelet/node/primitive being tested.  `Primitive::Intersect`
shrinks `tMax` on a hit, so the oracle returns the new `tMax` together
with the hit record. -/

/-- A coordinate space: the chain of instance-to-world transform ids whose
inverses have been applied to the world ray (world space = `[]`). -/
abbrev Space := List ℕ

/-- What a successful `Primitive::Intersect` reports: the material type and
key of `isect.primitive->GetMaterial()`, its area light id, and an opaque
identifier for the rest of the `SurfaceInteraction`. -/
structure HitData where
  matPlaceholder : Bool := true
  matKey : ℕ := 0
  areaLight : ℕ := 0
  isectId : ℕ := 0
  deriving DecidableEq

/-- A recorded hit: the interaction data together with the space it was
found in (the world interaction is the space's transform applied to it). -/
abbrev THit := HitData × Space

/-- The geometric oracle: `axisNeg sp a` is `dirIsNeg[a]` of the ray in
space `sp`; `boundsHit sp tMax t n` is `node.bounds.IntersectP(ray,
invDir, dirIsNeg)` for node `n` of treelet `t`; `primHit sp tMax t i`
is `primitives[i]->Intersect(ray, &isect)` in treelet `t` (returning the
shrunk `tMax`); `octant sp` is `ComputeIdx(ray.d)`. -/
structure Geom where
  axisNeg : Space → ℕ → Bool
  boundsHit : Space → ℚ → ℕ → ℕ → Bool
  primHit : Space → ℚ → ℕ → ℕ → Option (ℚ × HitData)
  octant : Space → ℕ

/-- A treelet primitive as `Trace`/`Intersect` distinguish them:
`geom` is anything tested in place (`GeometricPrimitive`, or a
`TransformedPrimitive` over an `IncludedInstance`); `ext root xfm` is a
`TransformedPrimitive` over an `ExternalInstance` with root treelet
`root`, whose interpolated transform is identity when `xfm = none`. -/
inductive TPrim where
  | geom
  | ext (root : ℕ) (xfm : Option ℕ)
  deriving DecidableEq

/-- A `CloudBVH::TreeletNode` as traversal reads it: leaf flag, split
axis, primitive range, and the `(child_treelet, child_node)` pairs. -/
structure TNode where
  leaf : Bool := true
  axis : ℕ := 0
  primOff : ℕ := 0
  primCount : ℕ := 0
  childTL : ℕ := 0
  childNL : ℕ := 0
  childTR : ℕ := 0
  childNR : ℕ := 0
  deriving DecidableEq

/-- The loaded scene: `node t n` is `treelets_[t]->nodes[n]` and
`prim t i` is `treelets_[t]->primitives[i]`. -/
structure TScene where
  node : ℕ → ℕ → TNode
  prim : ℕ → ℕ → TPrim

/-- Space composition when descending into a `TransformedPrimitive`:
`TransformedPrimitive::Intersect` applies the interpolated inverse
transform to the current ray (a no-op for the identity). -/
def spCompose (xfm : Option ℕ) (sp : Space) : Space :=
  match xfm with
  | none => sp
  | some k => k :: sp

/-- The space of the ray `Inverse(rayState.rayTransform)(rayState.ray)`
(cloud.cpp:546): `rayTransform` is default-initialised to the identity. -/
def xfmSpace : Option ℕ → Space
  | none => []
  | some k => [k]

/-- Near/far child ordering by `dirIsNeg[node.axis]` (cloud.cpp:662-668,
723-729): the near child (visited first) is the right one when the ray
direction is negative along the split axis. -/
def childOrder {α : Type} (b : Bool) (l r : α) : α × α :=
  if b then (r, l) else (l, r)

/-- The object-space ray used for the popped frame (cloud.cpp:542-553):
re-derived from the ray state when the frame's `transformed` bit differs
from the previous iteration's, otherwise the cached ray is kept. -/
def traceSp (hasX : Bool) (cache : Space) (transformed : Bool)
    (rx : Option ℕ) : Space :=
  if transformed = hasX then cache
  else if transformed then xfmSpace rx else []

/-- `RayState::TreeletNode` (raystate.h:19-24): one frame of the ray's
own traversal stack. -/
structure CFrame where
  treelet : ℕ := 0
  node : ℕ := 0
  primitive : ℕ := 0
  transformed : Bool := false
  deriving DecidableEq

/-- The slice of `RayState` that `Trace` reads and writes: the `toVisit`
stack (head = top), the ray's `tMax`, the hit flag and stored hit
(raystate.h:76-80), the single `rayTransform` slot (as a transform id),
and an error flag standing for a thrown `runtime_error`. -/
structure TState where
  stack : List CFrame
  tMax : ℚ
  hit : Bool := false
  lastHit : Option THit := none
  rayXfm : Option ℕ := none
  err : Bool := false
  deriving DecidableEq

/-- The result triple of `CloudBVH::Intersect`: final `tMax`, the return
flag, and the last successful hit (what `*isect` holds, tagged with the
space it was found in). -/
structure IRes where
  tMax : ℚ
  hit : Bool
  last : Option THit
  deriving DecidableEq

/-- The primitive loop of a `Trace` leaf (cloud.cpp:562-651), scanning
relative indices `rel, rel+1, ...` (`n` entries remain).  A geometric hit
whose material is not a placeholder throws (`.error` carries the
accumulator at the throw, since earlier hits were already recorded); a
placeholder hit updates `tMax` and the stored hit and the scan continues.
An external instance pushes a continuation frame for the next primitive
(if any) and a frame for the external root — transformed iff the
interpolated transform is not the identity, updating `rayTransform` in
that case — and the scan stops (`break`).  Returns the updated
accumulator, the new `rayTransform`, and the frames to push (head =
new stack top). -/
def traceLeaf (ts : TScene) (g : Geom) (sp : Space) (t off count : ℕ)
    (cur : CFrame) :
    ℕ → ℕ → ℚ → Bool → Option THit → Option ℕ →
    Except (ℚ × Bool × Option THit)
      (ℚ × Bool × Option THit × Option ℕ × List CFrame)
  | 0, _, tM, hit, last, rx => .ok (tM, hit, last, rx, [])
  | n + 1, rel, tM, hit, last, rx =>
    match ts.prim t (off + rel) with
    | .geom =>
      match g.primHit sp tM t (off + rel) with
      | none => traceLeaf ts g sp t off count cur n (rel + 1) tM hit last rx
      | some (t2, hd) =>
        if hd.matPlaceholder then
          traceLeaf ts g sp t off count cur n (rel + 1) t2 true
            (some (hd, sp)) rx
        else .error (tM, hit, last)
    | .ext root xfm =>
      let cont : List CFrame :=
        if rel + 1 < count then [{ cur with primitive := rel + 1 }] else []
      let extF : CFrame :=
        { treelet := root, node := 0, primitive := 0,
          transformed := xfm.isSome }
      let rx2 : Option ℕ := match xfm with | none => rx | some k => some k
      .ok (tM, hit, last, rx2, extF :: cont)

/-- The `while (true)` loop of `CloudBVH::Trace` (cloud.cpp:528-673),
fuel-indexed.  `cur` is the treelet loaded at entry; `hasX`/`cache` are
the locals `hasTransform` and the cached object-space ray (the code
re-derives the ray only when the popped frame's `transformed` bit differs
from `hasTransform`; `transformChanged` is initialised `false` and never
set, so it is dropped).  Returns the final `RayState` and the list of
frames processed; the empty-stack case is unreachable from `traceCall`
(the C++ would read `toVisitTop()` out of bounds there) and is totalised
as an immediate break. -/
def traceInner (ts : TScene) (g : Geom) (cur : ℕ) :
    ℕ → Bool → Space → TState → Option (TState × List CFrame)
  | 0, _, _, _ => none
  | _ + 1, _, _, ⟨[], tM, hit, last, rx, err⟩ =>
    some (⟨[], tM, hit, last, rx, err⟩, [])
  | fuel + 1, hasX, cache, ⟨f :: rest, tM, hit, last, rx, err⟩ =>
    if f.treelet ≠ cur then some (⟨f :: rest, tM, hit, last, rx, err⟩, [])
    else
      let sp := traceSp hasX cache f.transformed rx
      let nd := ts.node f.treelet f.node
      if g.boundsHit sp tM f.treelet f.node then
        if nd.leaf then
          match traceLeaf ts g sp f.treelet nd.primOff nd.primCount f
              (nd.primCount - f.primitive) f.primitive tM hit last rx with
          | .error (tM2, hit2, last2) =>
            some (⟨rest, tM2, hit2, last2, rx, true⟩, [f])
          | .ok (tM2, hit2, last2, rx2, pushes) =>
            if pushes ++ rest = [] then
              some (⟨[], tM2, hit2, last2, rx2, err⟩, [f])
            else
              match traceInner ts g cur fuel f.transformed sp
                  ⟨pushes ++ rest, tM2, hit2, last2, rx2, err⟩ with
              | none => none
              | some (stF, log) => some (stF, f :: log)
        else
          let childL : CFrame :=
            { treelet := nd.childTL
              node := nd.childNL
              primitive := 0
              transformed := f.transformed }
          let childR : CFrame :=
            { treelet := nd.childTR
              node := nd.childNR
              primitive := 0
              transformed := f.transformed }
          let nf := childOrder (g.axisNeg sp nd.axis) childL childR
          match traceInner ts g cur fuel f.transformed sp
              ⟨nf.1 :: nf.2 :: rest, tM, hit, last, rx, err⟩ with
          | none => none
          | some (stF, log) => some (stF, f :: log)
      else
        if rest = [] then some (⟨[], tM, hit, last, rx, err⟩, [f])
        else
          match traceInner ts g cur fuel f.transformed sp
              ⟨rest, tM, hit, last, rx, err⟩ with
          | none => none
          | some (stF, log) => some (stF, f :: log)

/-- One call to `CloudBVH::Trace` (cloud.cpp:515-527): fix the current
treelet from the top frame, start with the world ray
(`ray = rayState.ray`, `hasTransform = false`), and run the loop. -/
def traceCall (ts : TScene) (g : Geom) (fuel : ℕ) (st : TState) :
    Option (TState × List CFrame) :=
  match st.stack with
  | [] => some (st, [])
  | f :: _ => traceInner ts g f.treelet fuel false [] st

/-- The scheduler's driver implied by claim C1: repeatedly call `Trace`
until the to-visit stack is empty (or an exception escapes). -/
def traceDrive (ts : TScene) (g : Geom) : ℕ → TState → Option TState
  | 0, _ => none
  | fuel + 1, st =>
    if st.stack = [] then some st
    else
      match traceCall ts g fuel st with
      | none => none
      | some (st2, _) =>
        if st2.err then some st2 else traceDrive ts g fuel st2

/-! ### The closest-hit `Intersect` (cloud.cpp:676-740)

`Intersect` recurses through `TransformedPrimitive::Intersect` (modelled
from the spec, §4.7: transform the ray into instance space, recurse into
`intersect(ray, root_id)` for an `ExternalInstance`, copy back the shrunk
`tMax` on a hit).  All three functions are indexed by a shared fuel,
decremented at every call so the mutual recursion is structural. -/

mutual

/-- The leaf primitive loop of `CloudBVH::Intersect` (cloud.cpp:708-712):
`i` is the absolute primitive index, `n` the remaining count.  A
geometric hit sets the hit flag and shrinks `tMax`; a
`TransformedPrimitive` over an `ExternalInstance` recurses into the full
`Intersect` at the external root in the composed space, merging the
result as `TransformedPrimitive::Intersect` does (on a miss the outer
accumulator is untouched). -/
def isectPrims (ts : TScene) (g : Geom) :
    ℕ → Space → ℕ → ℕ → ℕ → IRes → Option IRes
  | 0, _, _, _, _, _ => none
  | _ + 1, _, _, _, 0, acc => some acc
  | fuel + 1, sp, t, i, n + 1, acc =>
    match ts.prim t i with
    | .geom =>
      match g.primHit sp acc.tMax t i with
      | none => isectPrims ts g fuel sp t (i + 1) n acc
      | some (t2, hd) =>
        isectPrims ts g fuel sp t (i + 1) n ⟨t2, true, some (hd, sp)⟩
    | .ext root xfm =>
      match isectRoot ts g fuel (spCompose xfm sp) root acc.tMax with
      | none => none
      | some r =>
        isectPrims ts g fuel sp t (i + 1) n
          (if r.hit then ⟨r.tMax, true, r.last⟩ else acc)

/-- The traversal loop of `CloudBVH::Intersect` (cloud.cpp:700-737): the
head of the list is `current`, the tail is the `toVisit` stack.  Every
node is bounds-tested when it becomes current; an interior node pushes
the far child and descends into the near one (by `dirIsNeg[node.axis]`). -/
def isectLoop (ts : TScene) (g : Geom) :
    ℕ → Space → List (ℕ × ℕ) → IRes → Option IRes
  | 0, _, _, _ => none
  | _ + 1, _, [], acc => some acc
  | fuel + 1, sp, (t, nidx) :: rest, acc =>
    let nd := ts.node t nidx
    if g.boundsHit sp acc.tMax t nidx then
      if nd.leaf then
        match isectPrims ts g fuel sp t nd.primOff nd.primCount acc with
        | none => none
        | some acc2 => isectLoop ts g fuel sp rest acc2
      else
        let nf := childOrder (g.axisNeg sp nd.axis)
          (nd.childTL, nd.childNL) (nd.childTR, nd.childNR)
        isectLoop ts g fuel sp (nf.1 :: nf.2 :: rest) acc
    else isectLoop ts g fuel sp rest acc

/-- Entry of `CloudBVH::Intersect(ray, isect, bvh_root)`
(cloud.cpp:680-699): when `bvh_root` is 0 the start treelet is redirected
to the octant of the ray direction; traversal starts at node 0 of the
start treelet with no hit recorded. -/
def isectRoot (ts : TScene) (g : Geom) :
    ℕ → Space → ℕ → ℚ → Option IRes
  | 0, _, _, _ => none
  | fuel + 1, sp, root, t0 =>
    let start := if root = 0 then g.octant sp else root
    isectLoop ts g fuel sp [(start, 0)] ⟨t0, false, none⟩

end

/-! ### The canonical single-step machine

A reference machine with the granularity of one `Trace` loop iteration,
whose frames carry their coordinate space directly (composed as
`Intersect` composes transforms).  Both the driven `Trace` and the
recursive `Intersect` are related to runs of this machine. -/

/-- A canonical frame: a `Trace` frame with its space made explicit. -/
structure AFrame where
  treelet : ℕ
  node : ℕ
  primitive : ℕ
  sp : Space
  deriving DecidableEq

/-- A canonical configuration: the flattened traversal stack (head =
top) and the current `tMax`. -/
structure ACfg where
  stack : List AFrame
  tMax : ℚ
  deriving DecidableEq

/-- Canonical leaf scan: like `traceLeaf` but with explicit spaces, no
material check, and the hits emitted as a log (in test order); `nidx` is
the leaf's node index, used for the continuation frame. -/
def aLeaf (ts : TScene) (g : Geom) (sp : Space) (t nidx off count : ℕ) :
    ℕ → ℕ → ℚ → ℚ × List THit × List AFrame
  | 0, _, tM => (tM, [], [])
  | n + 1, rel, tM =>
    match ts.prim t (off + rel) with
    | .geom =>
      match g.primHit sp tM t (off + rel) with
      | none => aLeaf ts g sp t nidx off count n (rel + 1) tM
      | some (t2, hd) =>
        let r := aLeaf ts g sp t nidx off count n (rel + 1) t2
        (r.1, (hd, sp) :: r.2.1, r.2.2)
    | .ext root xfm =>
      let cont : List AFrame :=
        if rel + 1 < count then [⟨t, nidx, rel + 1, sp⟩] else []
      (tM, [], ⟨root, 0, 0, spCompose xfm sp⟩ :: cont)

/-- One canonical step: pop the top frame, bounds-test it, and process it
as one `Trace` loop iteration does, emitting the hits recorded. `none`
iff the stack is empty (terminal). -/
def stepA (ts : TScene) (g : Geom) (c : ACfg) : Option (ACfg × List THit) :=
  match c.stack with
  | [] => none
  | f :: rest =>
    let nd := ts.node f.treelet f.node
    some (
      if g.boundsHit f.sp c.tMax f.treelet f.node then
        if nd.leaf then
          let r := aLeaf ts g f.sp f.treelet f.node nd.primOff nd.primCount
            (nd.primCount - f.primitive) f.primitive c.tMax
          (⟨r.2.2 ++ rest, r.1⟩, r.2.1)
        else
          let nf := childOrder (g.axisNeg f.sp nd.axis)
            (⟨nd.childTL, nd.childNL, 0, f.sp⟩ : AFrame)
            (⟨nd.childTR, nd.childNR, 0, f.sp⟩ : AFrame)
          (⟨nf.1 :: nf.2 :: rest, c.tMax⟩, [])
      else (⟨rest, c.tMax⟩, []))

/-- A length-indexed run of the canonical machine, collecting the hit
log in order. -/
inductive ARunN (ts : TScene) (g : Geom) : ℕ → ACfg → ACfg → List THit → Prop
  | refl (c : ACfg) : ARunN ts g 0 c c []
  | step {c c2 c3 : ACfg} {l1 l2 : List THit} {n : ℕ} :
      stepA ts g c = some (c2, l1) → ARunN ts g n c2 c3 l2 →
      ARunN ts g (n + 1) c c3 (l1 ++ l2)

/-- The last element of a hit log, defaulting to an earlier value: how a
sequence of `SetHit` overwrites combines with a previous stored hit. -/
def lastOr (log : List THit) (last : Option THit) : Option THit :=
  match log.getLast? with
  | some h => some h
  | none => last

/-- Folding a hit log into an `Intersect` accumulator: the final `tMax`,
the or-ed hit flag, and the last hit recorded. -/
def accPlus (acc : IRes) (tM : ℚ) (log : List THit) : IRes :=
  ⟨tM, acc.hit || !log.isEmpty, lastOr log acc.last⟩

/-- The abstraction of a `Trace` frame to a canonical frame: a
transformed frame's ray is `Inverse(rayTransform)(rayState.ray)`, an
untransformed frame's ray is the world ray. -/
def absFrame (rx : Option ℕ) (f : CFrame) : AFrame :=
  ⟨f.treelet, f.node, f.primitive, if f.transformed then xfmSpace rx else []⟩

/-- The abstraction of a `Trace` ray state to a canonical configuration. -/
def absCfg (st : TState) : ACfg :=
  ⟨st.stack.map (absFrame st.rayXfm), st.tMax⟩

/-- The stack-shape invariant of `Trace`: transformed frames form a
contiguous segment on top of the stack (an external subtree is fully
traversed before the frame below it resumes). -/
def XfmShape (fs : List CFrame) : Prop :=
  ∃ a b, fs = a ++ b ∧ (∀ f ∈ a, f.transformed = true) ∧
    ∀ f ∈ b, f.transformed = false

/-- The full `Trace` invariant: transformed frames are on top, and they
live in instance treelets (`main t = false`), which by hypothesis contain
no external-instance primitives. -/
def TraceINV (main : ℕ → Bool) (st : TState) : Prop :=
  XfmShape st.stack ∧
    ∀ f ∈ st.stack, f.transformed = true → main f.treelet = false

/-- Two-treelet scene for the boundary-suspension witness: the root node
of treelet 7 is interior with its left child in treelet 8 and its right
child in treelet 7. -/
def c4Scene : TScene :=
  { node := fun t n =>
      if t = 7 ∧ n = 0 then
        { leaf := false, axis := 0, childTL := 8, childNL := 0,
          childTR := 7, childNR := 1 }
      else { leaf := true, primOff := 0, primCount := 0 }
    prim := fun _ _ => .geom }

/-- Oracle for the boundary-suspension witness: all bounds hit, no
primitive hits. -/
def c4Geom : Geom :=
  { axisNeg := fun _ _ => false
    boundsHit := fun _ _ _ _ => true
    primHit := fun _ _ _ _ => none
    octant := fun _ => 0 }

/-- Single-leaf scene for the refinement witness: treelet 5 holds one
geometric primitive. -/
def c1Scene : TScene :=
  { node := fun _ _ => { leaf := true, primOff := 0, primCount := 1 }
    prim := fun _ _ => .geom }

/-- Oracle for the refinement witness: every bounds test passes and the
primitive is hit at `tMax = 1` with a placeholder material. -/
def c1Geom : Geom :=
  { axisNeg := fun _ _ => false
    boundsHit := fun _ _ _ _ => true
    primHit := fun _ _ _ _ => some (1, {})
    octant := fun _ => 0 }

/-- Treelet marking for the refinement witness: treelet 5 is the only
top-level treelet. -/
def c1Main : ℕ → Bool := fun t => decide (t = 5)

/-- Single-leaf scene for the placeholder-material witness. -/
def c10Scene : TScene :=
  { node := fun _ _ => { leaf := true, primOff := 0, primCount := 1 }
    prim := fun _ _ => .geom }

/-- Oracle for the placeholder-material witness: primitive 0 is hit with
a non-placeholder material, every other primitive with a placeholder. -/
def c10Geom : Geom :=
  { axisNeg := fun _ _ => false
    boundsHit := fun _ _ _ _ => true
    primHit := fun _ _ _ i =>
      if i = 0 then some (2, { matPlaceholder := false, matKey := 9 })
      else some (3, {})
    octant := fun _ => 0 }

/-! ### Lazy-load materials (`CloudBVH::LoadTreelet`, cloud.cpp:184-189) -/

/-- A material's type as `Trace` checks it
(`GetMaterial()->GetType() != MaterialType::Placeholder`). -/
inductive MatType where
  | placeholder
  | real
  deriving DecidableEq

/-- The material-fill loop of the lazy `LoadTreelet` (cloud.cpp:186-189):
every required material key of the loaded treelet is bound to a
`PlaceholderMaterial` for that key. -/
def loadTreeletMaterials (required : List ℕ) (mats : ℕ → Option MatType) :
    ℕ → Option MatType :=
  fun k => if k ∈ required then some .placeholder else mats k

end PbrtCloud

namespace PbrtCloud

/-! ## Theorems for the octant encoding (claim C6) -/

/-- C6: the octant encoding functions are mutually inverse and respect the
directional-treelets flag: with directional treelets enabled,
`ComputeIdx (ComputeRayDir i) = i` for every `i < 8`; with the flag
disabled `ComputeIdx` is constantly `0`, so traversal always starts at
root treelet 0. -/
theorem computeIdx_computeRayDir_octant :
    (∀ i : Fin 8, ComputeIdx true (ComputeRayDir i) = i) ∧
      (∀ dir : Vec3, ComputeIdx false dir = 0) := by
  constructor
  · decide
  · intro dir
    rfl

/-! ## Theorems for the constructor configuration check (claim C7) -/

/-- C7: constructing a `CloudBVH` in lazy-loading mode (`preload_all =
false`) with more than one worker thread raises the configuration error at
construction time, while a single-threaded lazy construction passes the
check. -/
theorem lazy_load_multithread_fatal (n : ℕ) (h : 1 < n) :
    (∃ msg, cloudBVHConstructorCheck n false = .error msg) ∧
      cloudBVHConstructorCheck 1 false = .ok () := by
  refine ⟨⟨"Cannot use lazy-loading CloudBVH with multiple threads", ?_⟩, rfl⟩
  simp [cloudBVHConstructorCheck, h]

/-- Witness for `lazy_load_multithread_fatal` at `n = 2`. -/
theorem lazy_load_multithread_fatal_witness :
    (∃ msg, cloudBVHConstructorCheck 2 false = .error msg) ∧
      cloudBVHConstructorCheck 1 false = .ok () :=
  lazy_load_multithread_fatal 2 (by decide)

/-! ## Theorems for allocation coverage (claim C2) -/

/-- Entry `nodeCheck[d][i]` of a counter matrix. -/
def countEntry (acc : List (List ℕ)) (d i : ℕ) : ℕ :=
  (acc.getD d []).getD i 0

theorem bumpCount_length (acc : List (List ℕ)) (dir n : ℕ) :
    (bumpCount acc dir n).length = acc.length := by
  simp [bumpCount]

theorem bumpCount_row_length (acc : List (List ℕ)) (dir n d : ℕ) :
    ((bumpCount acc dir n).getD d []).length = (acc.getD d []).length := by
  unfold bumpCount
  rcases eq_or_ne dir d with h | h
  · subst h
    by_cases hlt : dir < acc.length
    · simp [List.getD_eq_getElem?_getD, List.getElem?_set, hlt]
    · simp [List.getD_eq_getElem?_getD, List.getElem?_set, hlt,
        List.getElem?_eq_none (le_of_not_lt hlt)]
  · simp [List.getD_eq_getElem?_getD, List.getElem?_set, h]

theorem countEntry_bumpCount (acc : List (List ℕ)) (dir n d i : ℕ)
    (hd : d < acc.length) (hi : i < (acc.getD d []).length) :
    countEntry (bumpCount acc dir n) d i =
      countEntry acc d i + (if dir = d ∧ n = i then 1 else 0) := by
  unfold countEntry bumpCount
  rcases eq_or_ne dir d with h | h
  · subst h
    have hi' : n = i → i < acc[dir].length := by
      intro hn
      subst hn
      rw [List.getD_eq_getElem?_getD, List.getElem?_eq_getElem hd] at hi
      simpa using hi
    rcases eq_or_ne n i with hn | hn
    · subst hn
      simp [List.getD_eq_getElem?_getD, List.getElem?_set, hd, hi' rfl]
    · simp [List.getD_eq_getElem?_getD, List.getElem?_set, hd, hn]
  · simp [List.getD_eq_getElem?_getD, List.getElem?_set, h]

theorem nodesFold_length (nodes : List ℕ) (acc : List (List ℕ)) (dir : ℕ) :
    (nodes.foldl (fun a n => bumpCount a dir n) acc).length = acc.length := by
  induction nodes generalizing acc with
  | nil => rfl
  | cons n rest ih => rw [List.foldl_cons, ih, bumpCount_length]

theorem nodesFold_row_length (nodes : List ℕ) (acc : List (List ℕ)) (dir d : ℕ) :
    ((nodes.foldl (fun a n => bumpCount a dir n) acc).getD d []).length =
      ((acc.getD d []).length) := by
  induction nodes generalizing acc with
  | nil => rfl
  | cons n rest ih => rw [List.foldl_cons, ih, bumpCount_row_length]

theorem countEntry_nodesFold (nodes : List ℕ) (acc : List (List ℕ)) (dir d i : ℕ)
    (hd : d < acc.length) (hi : i < (acc.getD d []).length) :
    countEntry (nodes.foldl (fun a n => bumpCount a dir n) acc) d i =
      countEntry acc d i + (if dir = d then nodes.count i else 0) := by
  induction nodes generalizing acc with
  | nil => simp
  | cons n rest ih =>
    rw [List.foldl_cons,
      ih (bumpCount acc dir n) (by rw [bumpCount_length]; exact hd)
        (by rw [bumpCount_row_length]; exact hi),
      countEntry_bumpCount acc dir n d i hd hi]
    rcases eq_or_ne dir d with hdir | hdir
    · subst hdir
      rcases eq_or_ne n i with hn | hn <;> simp [List.count_cons, hn] <;> omega
    · simp [hdir]

theorem countEntry_tsFold (ts : List TreeletInfo) (acc : List (List ℕ)) (d i : ℕ)
    (hd : d < acc.length) (hi : i < (acc.getD d []).length) :
    countEntry
        (ts.foldl
          (fun acc t => t.nodes.foldl (fun a n => bumpCount a t.dirIdx n) acc) acc)
        d i =
      countEntry acc d i +
        ((ts.map fun t => if t.dirIdx = d then t.nodes.count i else 0).sum) := by
  induction ts generalizing acc with
  | nil => simp
  | cons t rest ih =>
    rw [List.foldl_cons,
      ih _ (by rw [nodesFold_length]; exact hd)
        (by rw [nodesFold_row_length]; exact hi),
      countEntry_nodesFold t.nodes acc t.dirIdx d i hd hi]
    simp [add_assoc]

theorem tsFold_length (ts : List TreeletInfo) (acc : List (List ℕ)) :
    (ts.foldl
      (fun acc t => t.nodes.foldl (fun a n => bumpCount a t.dirIdx n) acc)
      acc).length = acc.length := by
  induction ts generalizing acc with
  | nil => rfl
  | cons t rest ih => rw [List.foldl_cons, ih, nodesFold_length]

theorem tsFold_row_length (ts : List TreeletInfo) (acc : List (List ℕ)) (d : ℕ) :
    ((ts.foldl
      (fun acc t => t.nodes.foldl (fun a n => bumpCount a t.dirIdx n) acc)
      acc).getD d []).length = (acc.getD d []).length := by
  induction ts generalizing acc with
  | nil => rfl
  | cons t rest ih => rw [List.foldl_cons, ih, nodesFold_row_length]

theorem coverage_of_check (numDirs nodeCount : ℕ) (ts : List TreeletInfo)
    (h : coverageCheck numDirs nodeCount ts = true) (d i : ℕ)
    (hd : d < numDirs) (hi : i < nodeCount) :
    ((ts.map fun t => if t.dirIdx = d then t.nodes.count i else 0).sum) = 1 := by
  have hrepl : (List.replicate numDirs (List.replicate nodeCount (0 : ℕ))).getD d [] =
      List.replicate nodeCount (0 : ℕ) := by
    rw [List.getD_eq_getElem?_getD, List.getElem?_replicate, if_pos hd]
    rfl
  have hentry := countEntry_tsFold ts
    (List.replicate numDirs (List.replicate nodeCount 0)) d i
    (by simpa using hd) (by rw [hrepl]; simpa using hi)
  rw [show countEntry (List.replicate numDirs (List.replicate nodeCount 0)) d i = 0 by
      unfold countEntry
      rw [hrepl, List.getD_eq_getElem?_getD, List.getElem?_replicate, if_pos hi]
      rfl,
    zero_add] at hentry
  have hcc : countEntry (coverageCounts numDirs nodeCount ts) d i =
      ((ts.map fun t => if t.dirIdx = d then t.nodes.count i else 0).sum) := by
    unfold coverageCounts
    exact hentry
  unfold coverageCheck at h
  rw [List.all_eq_true] at h
  have hlen : (coverageCounts numDirs nodeCount ts).length = numDirs := by
    unfold coverageCounts
    rw [tsFold_length, List.length_replicate]
  have hrowlen : ((coverageCounts numDirs nodeCount ts).getD d []).length = nodeCount := by
    unfold coverageCounts
    rw [tsFold_row_length, hrepl, List.length_replicate]
  have hdc : d < (coverageCounts numDirs nodeCount ts).length := by
    rw [hlen]; exact hd
  have hmem : (coverageCounts numDirs nodeCount ts).getD d [] ∈
      coverageCounts numDirs nodeCount ts := by
    rw [List.getD_eq_getElem?_getD, List.getElem?_eq_getElem hdc]
    simp [List.getElem_mem]
  have hrow := h _ hmem
  rw [List.all_eq_true] at hrow
  have hic : i < ((coverageCounts numDirs nodeCount ts).getD d []).length := by
    rw [hrowlen]; exact hi
  have hmem2 : ∀ row : List ℕ, i < row.length → row.getD i 0 ∈ row := by
    intro row hrow'
    rw [List.getD_eq_getElem?_getD, List.getElem?_eq_getElem hrow']
    simp [List.getElem_mem]
  have hone := hrow _ (hmem2 _ hic)
  rw [decide_eq_true_eq] at hone
  rw [← hcc]
  exact hone

/-- C2: after the final allocation pass completes (the depth-first
reordering plus the build-time `CHECK_EQ(count, 1)` sweep shared by
`AllocateDirectionalTreelets` and `AllocateUnspecializedTreelets`), for
every node index `i` of the flat BVH and every traversal direction
`d < numDirs`, exactly one treelet whose `dirIdx` equals `d` contains `i`
in its `nodes` list, and it contains it exactly once. -/
theorem allocate_treelets_coverage (bvh : DumpBVH) (numDirs fuel : ℕ)
    (treelets : List TreeletInfo) (alloc : List (List ℕ))
    (ts : List TreeletInfo)
    (hrun : allocateFinalize bvh numDirs fuel treelets alloc = some ts)
    (d i : ℕ) (hd : d < numDirs) (hi : i < bvh.nodes.length) :
    ((ts.map fun t => if t.dirIdx = d then t.nodes.count i else 0).sum) = 1 := by
  unfold allocateFinalize at hrun
  split at hrun
  · exact absurd hrun (by simp)
  split at hrun
  · rw [Option.some_inj] at hrun
    subst hrun
    next hchk => exact coverage_of_check _ _ _ hchk d i hd hi
  · exact absurd hrun (by simp)

/-- Three-node BVH (root plus two leaves) for the coverage witness. -/
def c2WitBVH : DumpBVH :=
  { nodes :=
      [ { sa := 1, axis := 0, nPrimitives := 0, primitivesOffset := 0, secondChildOffset := 2 }
      , { sa := 1, axis := 0, nPrimitives := 1, primitivesOffset := 0, secondChildOffset := 0 }
      , { sa := 1, axis := 0, nPrimitives := 1, primitivesOffset := 1, secondChildOffset := 0 } ]
    prims := [.geom, .geom] }

/-- Witness for `allocate_treelets_coverage`: a single treelet holding all
three nodes of `c2WitBVH` passes the final pass, and node 1 is covered
exactly once. -/
theorem allocate_treelets_coverage_witness :
    ((([ { nodes := [0, 1, 2] } ] : List TreeletInfo).map
      fun t => if t.dirIdx = 0 then t.nodes.count 1 else 0).sum) = 1 :=
  allocate_treelets_coverage c2WitBVH 1 10 [{ nodes := [0, 1, 2] }] [[0, 0, 0]]
    [{ nodes := [0, 1, 2] }] (by rfl) 0 1 (by decide) (by decide)

/-! ## Theorems for the partitioner byte budget (claim C3) -/

/-- Copyable-instance ids of a primitive list (the generic form of
`copyableIds`). -/
def primCopyIds (l : List DPrim) : List ℕ :=
  l.filterMap
    (fun p => match p with
      | .inst id c => if c then some id else none
      | .geom => none)

theorem copyableIds_eq_primCopyIds (bvh : DumpBVH) (n : ℕ) :
    copyableIds bvh n = primCopyIds (nodePrimList bvh (bvh.nodes.getD n {})) := rfl

/-- Union of the node masks of a treelet's nodes: the quantity the claim
calls the union of copyable instances referenced by the treelet. -/
def infoUnionMask (ctx : TopoCtx) (info : TreeletInfo) : Finset ℕ :=
  info.nodes.foldl (fun s n => s ∪ nodeMask ctx.bvh n) ∅

/-- Bookkeeping exactness of a treelet summary: the incrementally
maintained fields equal the recomputed quantities. -/
def infoExact (ctx : TopoCtx) (info : TreeletInfo) : Prop :=
  info.noInstanceSize = (info.nodes.map ctx.nodeSizes).sum ∧
    info.instanceMask = infoUnionMask ctx info ∧
    info.instanceSize = getInstancesBytes ctx info.instanceMask

theorem getInstancesBytes_empty (ctx : TopoCtx) : getInstancesBytes ctx ∅ = 0 := by
  simp [getInstancesBytes]

theorem rangeSum_insert (instSize : ℕ → ℕ) (mask : Finset ℕ) (id n : ℕ)
    (hid : id < n) (hni : id ∉ mask) :
    ((List.range n).map (fun i => if i ∈ insert id mask then instSize i else 0)).sum =
      ((List.range n).map (fun i => if i ∈ mask then instSize i else 0)).sum +
        instSize id := by
  induction n with
  | zero => omega
  | succ n ih =>
    rw [List.range_succ]
    simp only [List.map_append, List.sum_append, List.map_cons, List.map_nil,
      List.sum_cons, List.sum_nil]
    rcases Nat.lt_or_ge id n with hlt | hge
    · rw [ih hlt]
      have hne : n ≠ id := by omega
      have hif : (if n ∈ insert id mask then instSize n else 0) =
          (if n ∈ mask then instSize n else 0) := by
        simp [Finset.mem_insert, hne]
      rw [hif]
      omega
    · have hidn : id = n := by omega
      subst hidn
      have heq : ((List.range id).map fun i => if i ∈ insert id mask then instSize i else 0) =
          ((List.range id).map fun i => if i ∈ mask then instSize i else 0) := by
        apply List.map_congr_left
        intro i hi
        rw [List.mem_range] at hi
        have hiff : i ∈ insert id mask ↔ i ∈ mask := by
          simp only [Finset.mem_insert]
          constructor
          · rintro (h | h)
            · omega
            · exact h
          · exact Or.inr
        rw [if_congr hiff rfl rfl]
      rw [heq]
      simp [hni]

theorem getInstancesBytes_insert (ctx : TopoCtx) (mask : Finset ℕ) (id : ℕ)
    (hid : id < ctx.numInstances) (hni : id ∉ mask) :
    getInstancesBytes ctx (insert id mask) =
      getInstancesBytes ctx mask + ctx.instSize id := by
  unfold getInstancesBytes
  exact rangeSum_insert ctx.instSize mask id ctx.numInstances hid hni

theorem infoExact_empty (ctx : TopoCtx) : infoExact ctx {} := by
  refine ⟨rfl, rfl, ?_⟩
  rw [getInstancesBytes_empty]

theorem primCopyIds_cons_geom (l : List DPrim) :
    primCopyIds (.geom :: l) = primCopyIds l := rfl

theorem primCopyIds_cons_false (id : ℕ) (l : List DPrim) :
    primCopyIds (.inst id false :: l) = primCopyIds l := rfl

theorem primCopyIds_cons_true (id : ℕ) (l : List DPrim) :
    primCopyIds (.inst id true :: l) = id :: primCopyIds l := rfl

theorem primFold_spec (ctx : TopoCtx) (l : List DPrim) (t : TreeletInfo)
    (hsz : t.instanceSize = getInstancesBytes ctx t.instanceMask)
    (hids : ∀ id ∈ primCopyIds l, id < ctx.numInstances) :
    (l.foldl (instAbsorb ctx) t).instanceMask =
        t.instanceMask ∪ (primCopyIds l).toFinset ∧
      (l.foldl (instAbsorb ctx) t).instanceSize =
        getInstancesBytes ctx (t.instanceMask ∪ (primCopyIds l).toFinset) ∧
      (l.foldl (instAbsorb ctx) t).nodes = t.nodes ∧
      (l.foldl (instAbsorb ctx) t).noInstanceSize = t.noInstanceSize ∧
      (l.foldl (instAbsorb ctx) t).dirIdx = t.dirIdx ∧
      (l.foldl (instAbsorb ctx) t).totalProb = t.totalProb := by
  induction l generalizing t with
  | nil => exact ⟨by simp [primCopyIds], by simpa [primCopyIds] using hsz, rfl, rfl, rfl, rfl⟩
  | cons p rest ih =>
    rcases p with _ | ⟨id, c⟩
    · rw [primCopyIds_cons_geom] at hids ⊢
      have := ih t hsz hids
      simpa [List.foldl_cons, instAbsorb] using this
    · rcases c with _ | _
      · rw [primCopyIds_cons_false] at hids ⊢
        have := ih t hsz hids
        simpa [List.foldl_cons, instAbsorb] using this
      · rw [primCopyIds_cons_true] at hids ⊢
        have hidlt : id < ctx.numInstances := hids id (List.mem_cons_self _ _)
        have hids' : ∀ i ∈ primCopyIds rest, i < ctx.numInstances :=
          fun i hi => hids i (List.mem_cons_of_mem _ hi)
        rw [List.toFinset_cons]
        rw [List.foldl_cons]
        by_cases hmem : id ∈ t.instanceMask
        · have hstep : instAbsorb ctx t (.inst id true) = t := by
            simp [instAbsorb, hmem]
          rw [hstep]
          have hunion : t.instanceMask ∪ insert id (primCopyIds rest).toFinset =
              t.instanceMask ∪ (primCopyIds rest).toFinset := by
            rw [Finset.union_insert, Finset.insert_eq_self.mpr
              (Finset.mem_union_left _ hmem)]
          rw [hunion]
          exact ih t hsz hids'
        · have hstep : instAbsorb ctx t (.inst id true) =
              { t with
                  instanceMask := insert id t.instanceMask
                  instanceSize := t.instanceSize + ctx.instSize id } := by
            simp [instAbsorb, hmem]
          rw [hstep]
          have hsz' :
              ({ t with
                  instanceMask := insert id t.instanceMask
                  instanceSize := t.instanceSize + ctx.instSize id } :
                TreeletInfo).instanceSize =
                getInstancesBytes ctx
                  ({ t with
                      instanceMask := insert id t.instanceMask
                      instanceSize := t.instanceSize + ctx.instSize id } :
                    TreeletInfo).instanceMask := by
            simp only
            rw [getInstancesBytes_insert ctx t.instanceMask id hidlt hmem, hsz]
          have hrec := ih _ hsz' hids'
          have hunion : insert id t.instanceMask ∪ (primCopyIds rest).toFinset =
              t.instanceMask ∪ insert id (primCopyIds rest).toFinset := by
            rw [Finset.insert_union, Finset.union_insert]
          refine ⟨?_, ?_, hrec.2.2.1, hrec.2.2.2.1, hrec.2.2.2.2.1, hrec.2.2.2.2.2⟩
          · rw [hrec.1, hunion]
          · rw [hrec.2.1, hunion]

theorem updateAssoc_forall (P : TreeletInfo → Prop) (m : List (ℕ × TreeletInfo))
    (k : ℕ) (f : TreeletInfo → TreeletInfo)
    (hm : ∀ p ∈ m, P p.2) (hf : ∀ t, P t → P (f t)) (hd : P {}) :
    ∀ p ∈ updateAssoc m k f, P p.2 := by
  unfold updateAssoc
  split
  · intro p hp
    rw [List.mem_map] at hp
    obtain ⟨q, hq, rfl⟩ := hp
    by_cases hk : q.1 = k
    · rw [if_pos hk]
      exact hf _ (hm q hq)
    · rw [if_neg hk]
      exact hm q hq
  · intro p hp
    rcases List.mem_append.mp hp with h | h
    · exact hm p h
    · rw [List.mem_singleton] at h
      subst h
      exact hf _ hd

theorem foldl_union_start (bvh : DumpBVH) (l : List ℕ) (s : Finset ℕ) :
    l.foldl (fun acc n => acc ∪ nodeMask bvh n) s =
      s ∪ l.foldl (fun acc n => acc ∪ nodeMask bvh n) ∅ := by
  induction l generalizing s with
  | nil => simp
  | cons a l ih =>
    rw [List.foldl_cons, List.foldl_cons, ih (s ∪ nodeMask bvh a),
      ih (∅ ∪ nodeMask bvh a)]
    simp [Finset.union_assoc]

theorem infoUnionMask_nodes (ctx : TopoCtx) (a b : TreeletInfo)
    (h : a.nodes = b.nodes) : infoUnionMask ctx a = infoUnionMask ctx b := by
  unfold infoUnionMask
  rw [h]

theorem infoUnionMask_append (ctx : TopoCtx) (a b : List ℕ) :
    (List.foldl (fun s n => s ∪ nodeMask ctx.bvh n) ∅ (a ++ b)) =
      (List.foldl (fun s n => s ∪ nodeMask ctx.bvh n) ∅ a) ∪
        (List.foldl (fun s n => s ∪ nodeMask ctx.bvh n) ∅ b) := by
  rw [List.foldl_append, foldl_union_start]

/-- Exactness is preserved by the per-treelet updater of the build scan. -/
theorem buildUpdater_exact (ctx : TopoCtx) (dirIdx nodeIdx : ℕ)
    (hids : ∀ id ∈ copyableIds ctx.bvh nodeIdx, id < ctx.numInstances)
    (t : TreeletInfo) (ht : infoExact ctx t) :
    infoExact ctx
      ((nodePrimList ctx.bvh (ctx.bvh.nodes.getD nodeIdx {})).foldl (instAbsorb ctx)
        { t with
            dirIdx := dirIdx
            nodes := t.nodes ++ [nodeIdx]
            noInstanceSize := t.noInstanceSize + ctx.nodeSizes nodeIdx }) := by
  obtain ⟨hno, hmask, hsz⟩ := ht
  set t' : TreeletInfo :=
    { t with
        dirIdx := dirIdx
        nodes := t.nodes ++ [nodeIdx]
        noInstanceSize := t.noInstanceSize + ctx.nodeSizes nodeIdx } with ht'
  have hsz' : t'.instanceSize = getInstancesBytes ctx t'.instanceMask := hsz
  have hids' : ∀ id ∈ primCopyIds (nodePrimList ctx.bvh (ctx.bvh.nodes.getD nodeIdx {})),
      id < ctx.numInstances := by
    intro id hid
    exact hids id (by rw [copyableIds_eq_primCopyIds]; exact hid)
  obtain ⟨hm, hs, hn, hni, _, _⟩ :=
    primFold_spec ctx (nodePrimList ctx.bvh (ctx.bvh.nodes.getD nodeIdx {})) t' hsz' hids'
  refine ⟨?_, ?_, ?_⟩
  · rw [hni]
    show t'.noInstanceSize = _
    rw [hn]
    show t.noInstanceSize + ctx.nodeSizes nodeIdx = _
    rw [hno, List.map_append, List.sum_append]
    simp
  · rw [hm]
    show t'.instanceMask ∪ _ = _
    unfold infoUnionMask
    rw [hn]
    show t.instanceMask ∪ _ = _
    rw [hmask]
    unfold infoUnionMask
    show List.foldl (fun s n => s ∪ nodeMask ctx.bvh n) ∅ t.nodes ∪
        (primCopyIds (nodePrimList ctx.bvh (ctx.bvh.nodes.getD nodeIdx {}))).toFinset =
      List.foldl (fun s n => s ∪ nodeMask ctx.bvh n) ∅ (t.nodes ++ [nodeIdx])
    rw [infoUnionMask_append]
    congr 1
  · rw [hs, hm]

/-- Exactness is preserved by the cross-treelet probability credits. -/
theorem edgeFold_exact (ctx : TopoCtx) (assignment : List ℕ) (tid : ℕ)
    (es : List Edge) (m1 : List (ℕ × TreeletInfo))
    (hm1 : ∀ p ∈ m1, infoExact ctx p.2) :
    ∀ p ∈ es.foldl
      (fun m e =>
        if tid ≠ assignment.getD e.dst 0 then
          updateAssoc m (assignment.getD e.dst 0)
            (fun t => { t with totalProb := t.totalProb + e.weight })
        else m) m1, infoExact ctx p.2 := by
  induction es generalizing m1 with
  | nil => exact hm1
  | cons e rest ih =>
    rw [List.foldl_cons]
    apply ih
    split
    · exact updateAssoc_forall _ _ _ _ hm1 (fun t ht => ht) (infoExact_empty ctx)
    · exact hm1

/-- Exactness is preserved by one node of the build scan. -/
theorem mergeBuildStep_exact (ctx : TopoCtx) (graph : TGraph) (dirIdx : ℕ)
    (assignment : List ℕ) (st : List (ℕ × TreeletInfo) × List (ℕ × ℚ))
    (nodeIdx : ℕ)
    (hids : ∀ n id, id ∈ copyableIds ctx.bvh n → id < ctx.numInstances)
    (hm : ∀ p ∈ st.1, infoExact ctx p.2) :
    ∀ p ∈ (mergeBuildStep ctx graph dirIdx assignment st nodeIdx).1,
      infoExact ctx p.2 := by
  unfold mergeBuildStep
  simp only
  apply edgeFold_exact
  refine updateAssoc_forall _ _ _ _ hm ?_ (infoExact_empty ctx)
  intro t ht
  exact buildUpdater_exact ctx dirIdx nodeIdx (hids nodeIdx) t ht

theorem mergeBuild_exact (ctx : TopoCtx) (graph : TGraph) (dirIdx : ℕ)
    (assignment : List ℕ) (l : List ℕ)
    (st : List (ℕ × TreeletInfo) × List (ℕ × ℚ))
    (hids : ∀ n id, id ∈ copyableIds ctx.bvh n → id < ctx.numInstances)
    (hm : ∀ p ∈ st.1, infoExact ctx p.2) :
    ∀ p ∈ (l.foldl (mergeBuildStep ctx graph dirIdx assignment) st).1,
      infoExact ctx p.2 := by
  induction l generalizing st with
  | nil => exact hm
  | cons n rest ih =>
    rw [List.foldl_cons]
    exact ih _ (mergeBuildStep_exact ctx graph dirIdx assignment st n hids hm)

/-- The invariant carried through the merge pass: bookkeeping exactness
plus the byte bound. -/
def infoOk (ctx : TopoCtx) (info : TreeletInfo) : Prop :=
  infoExact ctx info ∧
    info.noInstanceSize + info.instanceSize ≤ ctx.maxTreeletBytes

theorem mergeScan_ok (ctx : TopoCtx) (rest : List (ℕ × TreeletInfo))
    (info : TreeletInfo) (hinfo : infoOk ctx info)
    (hrest : ∀ p ∈ rest, infoOk ctx p.2) :
    infoOk ctx (mergeScan ctx info rest).1 ∧
      ∀ p ∈ (mergeScan ctx info rest).2, infoOk ctx p.2 := by
  induction rest generalizing info with
  | nil =>
    constructor
    · simpa [mergeScan] using hinfo
    · simp [mergeScan]
  | cons c rest ih =>
    have hc : infoOk ctx c.2 := hrest c (List.mem_cons_self _ _)
    have hrest' : ∀ p ∈ rest, infoOk ctx p.2 :=
      fun p hp => hrest p (List.mem_cons_of_mem _ hp)
    rw [mergeScan.eq_def]
    simp only
    by_cases h1 : info.noInstanceSize + c.2.noInstanceSize > ctx.maxTreeletBytes
    · rw [if_pos h1]
      have := ih info hinfo hrest'
      refine ⟨this.1, ?_⟩
      intro p hp
      rcases List.mem_cons.mp hp with hp | hp
      · rw [hp]; exact hc
      · exact this.2 p hp
    · rw [if_neg h1]
      by_cases h2 : info.noInstanceSize + c.2.noInstanceSize +
          getInstancesBytes ctx (info.instanceMask ∪ c.2.instanceMask) ≤ ctx.maxTreeletBytes
      · rw [if_pos h2]
        have hmerged : infoOk ctx
            { nodes :=
                if info.nodes.headD 0 < c.2.nodes.headD 0 then info.nodes ++ c.2.nodes
                else c.2.nodes ++ info.nodes
              dirIdx := info.dirIdx
              instanceMask := info.instanceMask ∪ c.2.instanceMask
              instanceSize := getInstancesBytes ctx (info.instanceMask ∪ c.2.instanceMask)
              noInstanceSize := info.noInstanceSize + c.2.noInstanceSize
              totalProb := info.totalProb + c.2.totalProb } := by
          obtain ⟨⟨ano, amask, asz⟩, abound⟩ := hinfo
          obtain ⟨⟨bno, bmask, bsz⟩, bbound⟩ := hc
          refine ⟨⟨?_, ?_, rfl⟩, h2⟩
          · show info.noInstanceSize + c.2.noInstanceSize = _
            rw [ano, bno]
            split <;>
              rw [List.map_append, List.sum_append] <;> omega
          · show info.instanceMask ∪ c.2.instanceMask = _
            rw [amask, bmask]
            unfold infoUnionMask
            split
            · rw [infoUnionMask_append]
            · rw [infoUnionMask_append]
              exact Finset.union_comm _ _
        by_cases h3 : ctx.maxTreeletBytes - ctx.sizeofTreeletNode ≤
            info.noInstanceSize + c.2.noInstanceSize +
              getInstancesBytes ctx (info.instanceMask ∪ c.2.instanceMask)
        · rw [if_pos h3]
          exact ⟨hmerged, hrest'⟩
        · rw [if_neg h3]
          exact ih _ hmerged hrest'
      · rw [if_neg h2]
        by_cases h3 : ctx.maxTreeletBytes - ctx.sizeofTreeletNode ≤
            info.noInstanceSize + c.2.noInstanceSize +
              getInstancesBytes ctx (info.instanceMask ∪ c.2.instanceMask)
        · rw [if_pos h3]
          refine ⟨hinfo, ?_⟩
          intro p hp
          rcases List.mem_cons.mp hp with hp | hp
          · rw [hp]; exact hc
          · exact hrest' p hp
        · rw [if_neg h3]
          have := ih info hinfo hrest'
          refine ⟨this.1, ?_⟩
          intro p hp
          rcases List.mem_cons.mp hp with hp | hp
          · rw [hp]; exact hc
          · exact this.2 p hp

theorem mergeOuter_ok (ctx : TopoCtx) (fuel : ℕ)
    (sorted acc out : List (ℕ × TreeletInfo))
    (hs : ∀ p ∈ sorted, infoOk ctx p.2) (ha : ∀ p ∈ acc, infoOk ctx p.2)
    (h : mergeOuter ctx fuel sorted acc = some out) :
    ∀ p ∈ out, infoOk ctx p.2 := by
  induction fuel generalizing sorted acc with
  | zero => exact absurd h (by simp [mergeOuter])
  | succ fuel ih =>
    rw [mergeOuter.eq_def] at h
    rcases sorted with _ | ⟨⟨tid, info⟩, rest⟩
    · simp only [Option.some_inj] at h
      subst h
      exact ha
    · simp only at h
      have hscan := mergeScan_ok ctx rest info
        (hs _ (List.mem_cons_self _ _))
        (fun p hp => hs p (List.mem_cons_of_mem _ hp))
      refine ih _ _ hscan.2 ?_ h
      intro p hp
      rcases List.mem_append.mp hp with hp | hp
      · exact ha p hp
      · rw [List.mem_singleton.mp hp]
        exact hscan.1

/-- C3: after the one-by-one topological partitioning and the
size-ascending merge pass complete, every treelet of the final allocation
satisfies the byte budget: the sum of its nodes' byte sizes plus the bytes
of the union of the copyable instances its nodes reference is at most
`maxTreeletBytes`.  (The embedded `CHECK_LE` guards model the source's
build-time aborts; `hids` states that instance ids are within
`numInstances`, as `CHECK_LT(instanceID, ...)` enforces at
construction.) -/
theorem topological_merge_budget (ctx : TopoCtx) (graph : TGraph)
    (dirIdx fuel₁ fuel₂ : ℕ) (asg : List ℕ)
    (out : List (ℕ × TreeletInfo)) (ip : List (ℕ × ℚ))
    (hids : ∀ n id, id ∈ copyableIds ctx.bvh n → id < ctx.numInstances)
    (htopo : computeTreeletsTopological ctx graph fuel₁ = some asg)
    (hmerge : mergeDisjointTreelets ctx graph dirIdx asg fuel₂ = some (out, ip)) :
    ∀ p ∈ out,
      (p.2.nodes.map ctx.nodeSizes).sum +
        getInstancesBytes ctx (infoUnionMask ctx p.2) ≤ ctx.maxTreeletBytes := by
  unfold mergeDisjointTreelets at hmerge
  simp only at hmerge
  split at hmerge
  · exact absurd hmerge (by simp)
  split at hmerge
  · rename_i hall
    split at hmerge
    · exact absurd hmerge (by simp)
    · rename_i mout hmout
      rw [Option.some_inj] at hmerge
      rw [Prod.mk.injEq] at hmerge
      obtain ⟨hout, hip⟩ := hmerge
      subst hout
      have hbuilt : ∀ p ∈ ((List.range ctx.bvh.nodes.length).foldl
          (mergeBuildStep ctx graph dirIdx asg) ([], [])).1, infoExact ctx p.2 :=
        mergeBuild_exact ctx graph dirIdx asg _ ([], []) hids (by simp)
      have hroot : ∀ p ∈ updateAssoc ((List.range ctx.bvh.nodes.length).foldl
          (mergeBuildStep ctx graph dirIdx asg) ([], [])).1 (asg.getD 0 0)
          (fun t => { t with totalProb := t.totalProb + 1 }), infoExact ctx p.2 :=
        updateAssoc_forall _ _ _ _ hbuilt (fun t ht => ht) (infoExact_empty ctx)
      rw [List.all_eq_true] at hall
      have hok : ∀ p ∈ updateAssoc ((List.range ctx.bvh.nodes.length).foldl
          (mergeBuildStep ctx graph dirIdx asg) ([], [])).1 (asg.getD 0 0)
          (fun t => { t with totalProb := t.totalProb + 1 }), infoOk ctx p.2 := by
        intro p hp
        have := hall p hp
        simp only [Bool.and_eq_true, decide_eq_true_eq] at this
        exact ⟨hroot p hp, this.2⟩
      have hsortmem : ∀ p ∈ List.insertionSort treeletSizeLE
          (updateAssoc ((List.range ctx.bvh.nodes.length).foldl
            (mergeBuildStep ctx graph dirIdx asg) ([], [])).1 (asg.getD 0 0)
            (fun t => { t with totalProb := t.totalProb + 1 })), infoOk ctx p.2 := by
        intro p hp
        exact hok p ((List.perm_insertionSort treeletSizeLE _).mem_iff.mp hp)
      have hfinal := mergeOuter_ok ctx fuel₂ _ [] _ hsortmem (by simp) hmout
      intro p hp
      obtain ⟨⟨hno, hmask, hsz⟩, hbound⟩ := hfinal p hp
      rw [← hno, ← hmask, ← hsz]
      exact hbound
  · exact absurd hmerge (by simp)

/-- Three-node BVH (interior root, two geometric leaves) for the budget
witness. -/
def c3BVH : DumpBVH :=
  { nodes :=
      [ { sa := 4, axis := 0, nPrimitives := 0, primitivesOffset := 0, secondChildOffset := 2 }
      , { sa := 2, axis := 0, nPrimitives := 1, primitivesOffset := 0, secondChildOffset := 0 }
      , { sa := 2, axis := 0, nPrimitives := 1, primitivesOffset := 1, secondChildOffset := 0 } ]
    prims := [.geom, .geom] }

/-- Partitioner context for the budget witness: 10-byte nodes, 100-byte
budget, no instances. -/
def c3Ctx : TopoCtx :=
  { bvh := c3BVH
    nodeSizes := fun _ => 10
    instSize := fun _ => 0
    numInstances := 0
    maxTreeletBytes := 100
    sizeofTreeletNode := 1 }

/-- Traversal graph of `c3BVH` for the budget witness. -/
def c3Graph : TGraph :=
  { depthFirst := [0, 1, 2]
    outgoing := fun n =>
      match n with
      | 0 => [⟨0, 1, 2⟩, ⟨0, 2, 1⟩]
      | _ => []
    incomingProb := fun _ => 1 }

/-- The expected merged output on `c3BVH`: one treelet holding all three
nodes, 30 bytes. -/
def c3Out : List (ℕ × TreeletInfo) :=
  [(1, { nodes := [0, 1, 2], dirIdx := 0, instanceMask := ∅, instanceSize := 0,
         noInstanceSize := 30, totalProb := 0 + 1 })]

/-- Witness for `topological_merge_budget`: the full pipeline on `c3BVH`
completes and every final treelet is within the 100-byte budget. -/
theorem topological_merge_budget_witness :
    computeTreeletsTopological c3Ctx c3Graph 10 = some [1, 1, 1] ∧
      mergeDisjointTreelets c3Ctx c3Graph 0 [1, 1, 1] 10 = some (c3Out, []) ∧
      ∀ p ∈ c3Out,
        (p.2.nodes.map c3Ctx.nodeSizes).sum +
          getInstancesBytes c3Ctx (infoUnionMask c3Ctx p.2) ≤
          c3Ctx.maxTreeletBytes :=
  ⟨by rfl, by rfl,
    topological_merge_budget c3Ctx c3Graph 0 10 10 [1, 1, 1] c3Out []
      (by
        intro n id h
        exfalso
        have hnil : copyableIds c3Ctx.bvh n = [] := by
          unfold copyableIds nodePrimList
          match n with
          | 0 => rfl
          | 1 => rfl
          | 2 => rfl
          | (k + 3) => rfl
        rw [hnil] at h
        exact absurd h (List.not_mem_nil id))
      (by rfl) (by rfl)⟩

/-! ## Theorems for material dumping (claim C9) -/

theorem classifyStep_mono (budget : ℕ) (texSize fileSize : ℕ → ℕ)
    (splitFn : ℕ → List ℕ) (acc : List (ℕ × ℕ) × List (ℕ × ℕ)) (m : ℕ) :
    (∀ x ∈ acc.1, x ∈ (classifyStep budget texSize fileSize splitFn acc m).1) ∧
      (∀ x ∈ acc.2, x ∈ (classifyStep budget texSize fileSize splitFn acc m).2) := by
  refine ⟨fun x hx => ?_, fun x hx => ?_⟩ <;>
  · unfold classifyStep
    by_cases h1 : texSize m > budget
    · simp [h1, hx]
    · by_cases h2 : texSize m ≠ 0 <;> simp [h1, h2, hx]

theorem classifyFold_mono (budget : ℕ) (texSize fileSize : ℕ → ℕ)
    (splitFn : ℕ → List ℕ) (mats : List ℕ) (acc : List (ℕ × ℕ) × List (ℕ × ℕ)) :
    (∀ x ∈ acc.1,
      x ∈ (mats.foldl (classifyStep budget texSize fileSize splitFn) acc).1) ∧
      (∀ x ∈ acc.2,
        x ∈ (mats.foldl (classifyStep budget texSize fileSize splitFn) acc).2) := by
  induction mats generalizing acc with
  | nil => exact ⟨fun x hx => hx, fun x hx => hx⟩
  | cons m rest ih =>
    rw [List.foldl_cons]
    refine ⟨fun x hx => (ih _).1 x ?_, fun x hx => (ih _).2 x ?_⟩
    · exact (classifyStep_mono budget texSize fileSize splitFn acc m).1 x hx
    · exact (classifyStep_mono budget texSize fileSize splitFn acc m).2 x hx

theorem classifyFold_routes (budget : ℕ) (texSize fileSize : ℕ → ℕ)
    (splitFn : ℕ → List ℕ) (mats : List ℕ) (acc : List (ℕ × ℕ) × List (ℕ × ℕ)) :
    ∀ m ∈ mats,
      (texSize m > budget → ∀ i ∈ splitFn m,
        (i, texSize i) ∈ (mats.foldl (classifyStep budget texSize fileSize splitFn) acc).1) ∧
      (0 < texSize m → texSize m ≤ budget →
        (m, texSize m) ∈ (mats.foldl (classifyStep budget texSize fileSize splitFn) acc).1) ∧
      (texSize m = 0 →
        (m, fileSize m) ∈ (mats.foldl (classifyStep budget texSize fileSize splitFn) acc).2) := by
  induction mats generalizing acc with
  | nil => intro m hm; cases hm
  | cons hd rest ih =>
    intro m hm
    rw [List.foldl_cons]
    rcases List.mem_cons.mp hm with hm | hm
    · subst hm
      refine ⟨fun hbig i hi => ?_, fun hpos hle => ?_, fun hzero => ?_⟩
      · refine (classifyFold_mono budget texSize fileSize splitFn rest _).1 _ ?_
        unfold classifyStep
        rw [if_pos hbig]
        simp only [List.mem_append]
        exact Or.inr (List.mem_map.mpr ⟨i, hi, rfl⟩)
      · refine (classifyFold_mono budget texSize fileSize splitFn rest _).1 _ ?_
        unfold classifyStep
        rw [if_neg (by omega), if_pos (by omega)]
        simp
      · refine (classifyFold_mono budget texSize fileSize splitFn rest _).2 _ ?_
        unfold classifyStep
        rw [if_neg (by omega), if_neg (by omega)]
        simp
    · exact ih _ m hm

/-- Every treelet of an `ffInsert` result is an untouched input treelet or
the first-fit-updated one, whose guard held. -/
theorem ffInsert_mem (budget : ℕ) (ts ts' : List MaterialTreelet)
    (tk : List String × ℕ) (h : ffInsert budget ts tk = some ts') :
    ∀ t' ∈ ts', t' ∈ ts ∨
      ∃ t ∈ ts, t.size + tk.2 ≤ budget ∧ t.textureKeys.length < 150 ∧
        t' = { t with textureKeys := t.textureKeys ++ [tk.1], size := t.size + tk.2 } := by
  induction ts generalizing ts' with
  | nil => simp [ffInsert] at h
  | cons t rest ih =>
    rw [ffInsert.eq_def] at h
    simp only at h
    split at h
    · rename_i hguard
      rw [Option.some_inj] at h
      subst h
      intro t' ht'
      rcases List.mem_cons.mp ht' with ht' | ht'
      · exact Or.inr ⟨t, List.mem_cons_self _ _, hguard.1, hguard.2, ht'⟩
      · exact Or.inl (List.mem_cons_of_mem _ ht')
    · split at h
      · exact absurd h (by simp)
      · rename_i rest' hrest
        rw [Option.some_inj] at h
        subst h
        intro t' ht'
        rcases List.mem_cons.mp ht' with ht' | ht'
        · exact Or.inl (by rw [ht']; exact List.mem_cons_self _ _)
        · rcases ih _ hrest t' ht' with hin | ⟨t0, ht0, h1, h2, h3⟩
          · exact Or.inl (List.mem_cons_of_mem _ hin)
          · exact Or.inr ⟨t0, List.mem_cons_of_mem _ ht0, h1, h2, h3⟩

/-- The packing invariant: every material treelet holds at most 150
texture keys, and its size respects the budget unless it consists of a
single (oversized) key. -/
def packedOk (budget : ℕ) (t : MaterialTreelet) : Prop :=
  t.textureKeys.length ≤ 150 ∧ (t.size ≤ budget ∨ t.textureKeys.length = 1)

theorem packStep_ok (budget : ℕ) (st : List MaterialTreelet × ℕ)
    (tk : List String × ℕ) (hst : ∀ t ∈ st.1, packedOk budget t) :
    ∀ t ∈ (packStep budget st tk).1, packedOk budget t := by
  unfold packStep
  split
  · next ts' hff =>
      intro t ht
      rcases ffInsert_mem budget st.1 ts' tk hff t ht with hin | ⟨t0, ht0, h1, h2, h3⟩
      · exact hst t hin
      · subst h3
        exact ⟨by simpa using Nat.succ_le_of_lt h2, Or.inl h1⟩
  · intro t ht
    rcases List.mem_append.mp ht with hin | hnew
    · exact hst t hin
    · rw [List.mem_singleton.mp hnew]
      exact ⟨by simp, Or.inr (by simp)⟩

theorem packFold_ok (budget : ℕ) (keys : List (List String × ℕ))
    (st : List MaterialTreelet × ℕ) (hst : ∀ t ∈ st.1, packedOk budget t) :
    ∀ t ∈ (keys.foldl (packStep budget) st).1, packedOk budget t := by
  induction keys generalizing st with
  | nil => exact hst
  | cons k rest ih =>
    rw [List.foldl_cons]
    exact ih _ (packStep_ok budget st k hst)

theorem minFold_spec (ts : List MaterialTreelet) (l : List (ℕ × MaterialTreelet))
    (acc : ℕ) (hl : ∀ p ∈ l, p.2 = ts.getD p.1 default) :
    (ts.getD
        (l.foldl
          (fun best p => if p.2.size < (ts.getD best default).size then p.1 else best)
          acc) default).size ≤ (ts.getD acc default).size ∧
      ∀ p ∈ l,
        (ts.getD
          (l.foldl
            (fun best p => if p.2.size < (ts.getD best default).size then p.1 else best)
            acc) default).size ≤ p.2.size := by
  induction l generalizing acc with
  | nil => exact ⟨le_refl _, fun p hp => absurd hp (List.not_mem_nil p)⟩
  | cons q rest ih =>
    have hq : q.2 = ts.getD q.1 default := hl q (List.mem_cons_self _ _)
    have hrest : ∀ p ∈ rest, p.2 = ts.getD p.1 default :=
      fun p hp => hl p (List.mem_cons_of_mem _ hp)
    rw [List.foldl_cons]
    by_cases hlt : q.2.size < (ts.getD acc default).size
    · rw [if_pos hlt]
      have := ih q.1 hrest
      refine ⟨le_trans this.1 (by rw [← hq]; omega), fun p hp => ?_⟩
      rcases List.mem_cons.mp hp with hp | hp
      · subst hp
        exact le_trans this.1 (by rw [← hq])
      · exact this.2 p hp
    · rw [if_neg hlt]
      have := ih acc hrest
      refine ⟨this.1, fun p hp => ?_⟩
      rcases List.mem_cons.mp hp with hp | hp
      · subst hp
        omega
      · exact this.2 p hp

theorem minFold_lt_length (ts : List MaterialTreelet)
    (l : List (ℕ × MaterialTreelet)) (acc : ℕ) (hacc : acc < ts.length)
    (hl : ∀ p ∈ l, p.1 < ts.length) :
    l.foldl
      (fun best p => if p.2.size < (ts.getD best default).size then p.1 else best)
      acc < ts.length := by
  induction l generalizing acc with
  | nil => exact hacc
  | cons q rest ih =>
    rw [List.foldl_cons]
    refine ih _ ?_ (fun p hp => hl p (List.mem_cons_of_mem _ hp))
    split
    · exact hl q (List.mem_cons_self _ _)
    · exact hacc

theorem minSizeIdx_spec (ts : List MaterialTreelet) (hne : ts ≠ []) :
    minSizeIdx ts < ts.length ∧
      ∀ t ∈ ts, (ts.getD (minSizeIdx ts) default).size ≤ t.size := by
  have henum : ∀ p ∈ ts.enum, p.2 = ts.getD p.1 default := by
    intro p hp
    obtain ⟨i, x⟩ := p
    obtain ⟨hlt, hx⟩ := List.mem_enum (by simpa using hp)
    rw [hx, List.getD_eq_getElem?_getD, List.getElem?_eq_getElem hlt]
    rfl
  constructor
  · exact minFold_lt_length ts ts.enum 0
      (by cases ts with | nil => exact absurd rfl hne | cons a l => simp)
      (fun p hp => (List.mem_enum (by simpa using hp)).1)
  · intro t ht
    obtain ⟨i, hi, hgi⟩ := List.getElem_of_mem ht
    have hpmem : (i, t) ∈ ts.enum := by
      rw [List.mem_enum_iff_getElem?]
      rw [List.getElem?_eq_getElem hi]
      rw [hgi]
    have := (minFold_spec ts ts.enum 0 henum).2 (i, t) hpmem
    exact this

/-- C9: material dumping (a) replaces any material whose texture bytes
exceed the material budget `3 * maxTreeletBytes / 4` by its partition
materials, passes through textured materials within budget, and routes
untextured materials separately; (b) packs texture keys first-fit over a
size-decreasing ordering, so every material treelet holds at most 150
keys and stays within the budget unless it consists of a single oversized
key; and (c) appends every untextured material to a material treelet of
minimal size. -/
theorem dump_materials_packing (maxTreeletBytes firstId : ℕ) (mats : List ℕ)
    (texSize fileSize : ℕ → ℕ) (splitFn : ℕ → List ℕ)
    (keys : List (List String × ℕ)) (ts : List MaterialTreelet)
    (ntx : List (ℕ × ℕ)) (hne : ts ≠ []) :
    (∀ m ∈ mats,
      (texSize m > maxMaterialTreeletBytes maxTreeletBytes → ∀ i ∈ splitFn m,
        (i, texSize i) ∈
          (classifyMaterials (maxMaterialTreeletBytes maxTreeletBytes) mats
            texSize fileSize splitFn).1) ∧
      (0 < texSize m → texSize m ≤ maxMaterialTreeletBytes maxTreeletBytes →
        (m, texSize m) ∈
          (classifyMaterials (maxMaterialTreeletBytes maxTreeletBytes) mats
            texSize fileSize splitFn).1) ∧
      (texSize m = 0 →
        (m, fileSize m) ∈
          (classifyMaterials (maxMaterialTreeletBytes maxTreeletBytes) mats
            texSize fileSize splitFn).2)) ∧
    (∃ sorted : List (List String × ℕ),
      sorted.Perm keys ∧
        sorted.Pairwise (fun a b => b.2 ≤ a.2) ∧
        packTextureKeys (maxMaterialTreeletBytes maxTreeletBytes) firstId keys =
          sorted.foldl (packStep (maxMaterialTreeletBytes maxTreeletBytes))
            ([{ id := firstId }], firstId + 1)) ∧
    (∀ t ∈ (packTextureKeys (maxMaterialTreeletBytes maxTreeletBytes) firstId keys).1,
      packedOk (maxMaterialTreeletBytes maxTreeletBytes) t) ∧
    ((∀ t ∈ ts, (ts.getD (minSizeIdx ts) default).size ≤ t.size) ∧
      appendNoTextureMaterials ts ntx =
        ts.set (minSizeIdx ts)
          { ts.getD (minSizeIdx ts) default with
            materials :=
              (ts.getD (minSizeIdx ts) default).materials ++ ntx.map (·.1) }) := by
  refine ⟨?_, ?_, ?_, ?_⟩
  · intro m hm
    exact classifyFold_routes _ texSize fileSize splitFn mats ([], []) m hm
  · refine ⟨keys.mergeSort (fun a b => decide (b.2 ≤ a.2)), List.mergeSort_perm _ _, ?_, rfl⟩
    have := @List.sorted_mergeSort (List String × ℕ)
      (fun a b => decide (b.2 ≤ a.2))
      (fun a b c hab hbc => by
        simp only [decide_eq_true_eq] at hab hbc ⊢
        omega)
      (fun a b => by
        simp only [Bool.or_eq_true, decide_eq_true_eq]
        omega)
      keys
    exact this.imp (by simp +contextual)
  · refine packFold_ok _ _ _ ?_
    intro t ht
    rw [List.mem_singleton.mp ht]
    exact ⟨by simp, Or.inl (by simp)⟩
  · obtain ⟨hlt, hmin⟩ := minSizeIdx_spec ts hne
    refine ⟨hmin, ?_⟩
    have hget : ts.get? (minSizeIdx ts) = some (ts.getD (minSizeIdx ts) default) := by
      rw [List.get?_eq_getElem?, List.getElem?_eq_getElem hlt,
        List.getD_eq_getElem?_getD, List.getElem?_eq_getElem hlt]
      rfl
    simp only [appendNoTextureMaterials, hget]

/-- Two concrete material treelets for the dump-materials witness. -/
def c9WitTs : List MaterialTreelet :=
  [{ id := 5, size := 3 }, { id := 6, size := 1 }]

/-- Witness for `dump_materials_packing`: with two treelets of sizes 3 and
1, the untextured material 7 is appended to the smaller treelet. -/
theorem dump_materials_packing_witness :
    (∀ t ∈ c9WitTs, (c9WitTs.getD (minSizeIdx c9WitTs) default).size ≤ t.size) ∧
      appendNoTextureMaterials c9WitTs [(7, 9)] =
        c9WitTs.set (minSizeIdx c9WitTs)
          { c9WitTs.getD (minSizeIdx c9WitTs) default with
            materials :=
              (c9WitTs.getD (minSizeIdx c9WitTs) default).materials ++
                ([((7 : ℕ), (9 : ℕ))].map (·.1)) } :=
  (dump_materials_packing 8 0 [] (fun _ => 0) (fun _ => 0) (fun _ => []) []
    c9WitTs [(7, 9)] (by simp [c9WitTs])).2.2.2

/-! ## Theorems for the SendCheck traversal graph (claim C5) -/

/-- Reading back the slot just added by `probAdd` (index in range). -/
theorem probAt_probAdd_self (l : List ℚ) (i : ℕ) (v : ℚ) (h : i < l.length) :
    probAt (probAdd l i v) i = probAt l i + v := by
  simp [probAt, probAdd, List.getD_eq_getElem?_getD, List.getElem?_set_self, h]

/-- C5: in the SendCheck traversal-graph construction, an interior node
with a non-empty next-miss stack entry emits exactly two outgoing edges,
to next-hit with weight `incoming_prob(cur) * SA(next_hit)/SA(cur)` and to
next-miss with weight `incoming_prob(cur) * (1 - SA(next_hit)/SA(cur))`,
whose weights sum to the node's incoming probability; and a leaf whose
last primitive is a non-copyable instance emits no edge to next-miss while
still adding the leaf's incoming probability to
`incoming_prob[next_miss]`. -/
theorem sendCheck_edge_probabilities (bvh : DumpBVH) (dirNeg : ℕ → Bool)
    (g g' : SendCheckState) (curIdx nextMiss nextHit : ℕ) (rest : List ℕ)
    (node : LinearBVHNode) (curProb condHit : ℚ)
    (hstack : g.stack = curIdx :: rest)
    (hnode : node = bvh.nodes.getD curIdx {})
    (hprob : curProb = probAt g.incomingProb curIdx)
    (hmiss : nextMiss = rest.headD 0)
    (hhit : nextHit = if dirNeg node.axis then node.secondChildOffset else curIdx + 1)
    (hcond : condHit = (bvh.nodes.getD nextHit {}).sa / node.sa)
    (hrun : sendCheckStep bvh dirNeg g = some g')
    (hmiss0 : nextMiss ≠ 0) :
    (node.nPrimitives = 0 →
      g'.edges = g.edges ++ [⟨curIdx, nextHit, curProb * condHit⟩,
          ⟨curIdx, nextMiss, curProb * (1 - condHit)⟩] ∧
        curProb * condHit + curProb * (1 - condHit) = curProb) ∧
    (node.nPrimitives ≠ 0 → lastPrimNonCopyableInstance bvh node = true →
      nextMiss < g.incomingProb.length →
      g'.edges = g.edges ∧
        probAt g'.incomingProb nextMiss = probAt g.incomingProb nextMiss + curProb) := by
  rcases rest with _ | ⟨m, rest'⟩
  · exact absurd hmiss hmiss0
  rw [sendCheckStep.eq_def, hstack] at hrun
  simp only [List.headD] at hmiss
  subst hmiss
  simp only at hrun
  rw [← hnode, ← hprob] at hrun
  constructor
  · intro hint
    rw [if_pos hint, if_neg hmiss0] at hrun
    cases hdn : dirNeg node.axis
    · rw [hdn] at hhit
      simp only [hdn, Bool.false_eq_true, if_false, ite_false, List.headD] at hrun hhit
      rw [← hhit, ← hcond] at hrun
      split at hrun
      · exact absurd hrun (by simp)
      split at hrun
      · exact absurd hrun (by simp)
      rw [Option.some_inj] at hrun
      subst hrun
      exact ⟨by simp [scAddEdge], by ring⟩
    · rw [hdn] at hhit
      simp only [hdn, if_true, ite_true, List.headD] at hrun hhit
      rw [← hhit, ← hcond] at hrun
      split at hrun
      · exact absurd hrun (by simp)
      split at hrun
      · exact absurd hrun (by simp)
      rw [Option.some_inj] at hrun
      subst hrun
      exact ⟨by simp [scAddEdge], by ring⟩
  · intro hleaf hskip hlen
    rw [if_neg hleaf, if_pos hmiss0, if_pos hskip] at hrun
    split at hrun
    · exact absurd hrun (by simp)
    rw [Option.some_inj] at hrun
    subst hrun
    exact ⟨rfl, probAt_probAdd_self _ _ _ hlen⟩

/-- Concrete five-node BVH for exercising the SendCheck step: node 0 is
interior with children 1 and 4, node 1 interior with children 2 and 3,
nodes 2-4 are one-primitive leaves, and the third primitive is a
non-copyable instance. -/
def scWitBVH : DumpBVH :=
  { nodes :=
      [ { sa := 4, axis := 0, nPrimitives := 0, primitivesOffset := 0, secondChildOffset := 4 }
      , { sa := 2, axis := 0, nPrimitives := 0, primitivesOffset := 0, secondChildOffset := 3 }
      , { sa := 1, axis := 0, nPrimitives := 1, primitivesOffset := 0, secondChildOffset := 0 }
      , { sa := 1, axis := 0, nPrimitives := 1, primitivesOffset := 1, secondChildOffset := 0 }
      , { sa := 1, axis := 0, nPrimitives := 1, primitivesOffset := 2, secondChildOffset := 0 } ]
    prims := [.geom, .geom, .inst 0 false] }

/-- SendCheck state after the root step on `scWitBVH`: stack `[1, 4]`. -/
def scWitStart : SendCheckState :=
  { edges := [⟨0, 1, 1⟩]
    outgoing := [(0, 1), (0, 0), (0, 0), (0, 0), (0, 0)]
    incomingProb := [1, 1, 0, 0, 0]
    depthFirst := [0]
    stack := [1, 4] }

/-- SendCheck state after additionally processing interior node 1. -/
def scWitResult : SendCheckState :=
  { edges := [⟨0, 1, 1⟩, ⟨1, 2, 1/2⟩, ⟨1, 4, 1/2⟩]
    outgoing := [(0, 1), (1, 2), (0, 0), (0, 0), (0, 0)]
    incomingProb := [1, 1, 1/2, 0, 1/2]
    depthFirst := [0, 1]
    stack := [2, 3, 4] }

/-- Witness for `sendCheck_edge_probabilities`: processing interior node 1
of `scWitBVH` with next-miss entry 4 emits exactly the next-hit and
next-miss edges, and their weights sum to the node's incoming
probability 1. -/
theorem sendCheck_edge_probabilities_witness :
    scWitResult.edges = scWitStart.edges ++
        [⟨1, 2, 1 * (1/2 : ℚ)⟩, ⟨1, 4, 1 * (1 - 1/2 : ℚ)⟩] ∧
      (1 : ℚ) * (1/2) + 1 * (1 - 1/2) = 1 :=
  (sendCheck_edge_probabilities scWitBVH (fun _ => false) scWitStart scWitResult
      1 4 2 [4]
      { sa := 2, axis := 0, nPrimitives := 0, primitivesOffset := 0, secondChildOffset := 3 }
      1 (1/2) rfl rfl rfl rfl rfl rfl
      (by norm_num [sendCheckStep, scWitBVH, scWitStart, scWitResult, scAddEdge,
        probAt, probAdd])
      (by decide)).1 rfl

/-- C8 counterexample: the claim says `max_treelet_bytes` defaults to
1 GiB (`1024³ = 1073741824`), but the source default is the decimal
`1'000'000'000` (treeletdumpbvh.cpp:82). -/
theorem default_max_treelet_bytes_not_one_gib :
    paramMaxTreeletBytes {} ≠ 1024 * 1024 * 1024 := by
  decide

/-- C8 (amended): when the scene description omits the options,
`max_treelet_bytes` defaults to `1'000'000'000` bytes and
`copyable_threshold` defaults to `max_treelet_bytes / 2`; and a non-root
sub-BVH is marked copyable exactly when its estimated total bytes are
strictly less than `copyable_threshold`. -/
theorem treelet_budget_defaults :
    paramMaxTreeletBytes {} = 1000000000 ∧
      paramCopyableThreshold {} = 500000000 ∧
      (∀ ps : DumpParamSet, ps.copyablethreshold = none →
        paramCopyableThreshold ps = paramMaxTreeletBytes ps / 2) ∧
      (∀ (nodeSz triSz : ℕ) (nPrims : List ℕ) (threshold : ℤ),
        instanceCopyable nodeSz triSz nPrims threshold = true ↔
          (instanceTotalBytes nodeSz triSz nPrims : ℤ) < threshold) := by
  refine ⟨rfl, rfl, ?_, ?_⟩
  · intro ps h
    simp [paramCopyableThreshold, findOneInt, h]
  · intro nodeSz triSz nPrims threshold
    simp [instanceCopyable]

/-- Witness for `treelet_budget_defaults` at concrete parameters. -/
theorem treelet_budget_defaults_witness :
    paramCopyableThreshold ⟨some 100, none⟩ = paramMaxTreeletBytes ⟨some 100, none⟩ / 2 ∧
      (instanceCopyable 1 1 [3] 5 = true ↔ (instanceTotalBytes 1 1 [3] : ℤ) < 5) :=
  ⟨treelet_budget_defaults.2.2.1 ⟨some 100, none⟩ rfl,
   treelet_budget_defaults.2.2.2 1 1 [3] 5⟩

end PbrtCloud
namespace PbrtCloud

/-- Per-call loop lemma for C4: every frame processed by one `Trace` call
belongs to the treelet fixed at entry, and the loop exits only by
throwing, emptying the stack, or leaving a frame of another treelet on
top. -/
theorem traceInner_log_exit (ts : TScene) (g : Geom) (cur : ℕ) :
    ∀ (fuel : ℕ) (hasX : Bool) (cache : Space) (st st2 : TState)
      (log : List CFrame),
      traceInner ts g cur fuel hasX cache st = some (st2, log) →
      (∀ fr ∈ log, fr.treelet = cur) ∧
        (st2.err = true ∨ st2.stack = [] ∨
          ∃ f2 r2, st2.stack = f2 :: r2 ∧ f2.treelet ≠ cur) := by
  intro fuel
  induction fuel with
  | zero => intro hasX cache st st2 log h; exact absurd h (by simp [traceInner])
  | succ fuel ih =>
    intro hasX cache st st2 log h
    obtain ⟨stk, tM, hit, last, rx, err⟩ := st
    cases stk with
    | nil =>
      simp only [traceInner, Option.some_inj, Prod.mk.injEq] at h
      obtain ⟨h1, h2⟩ := h
      subst h1; subst h2
      exact ⟨by intro fr hfr; exact absurd hfr (List.not_mem_nil fr), Or.inr (Or.inl rfl)⟩
    | cons f rest =>
      simp only [traceInner] at h
      split at h
      · rename_i hne
        rw [Option.some_inj, Prod.mk.injEq] at h
        obtain ⟨h1, h2⟩ := h
        subst h1; subst h2
        exact ⟨by intro fr hfr; exact absurd hfr (List.not_mem_nil fr),
          Or.inr (Or.inr ⟨f, rest, rfl, hne⟩)⟩
      · rename_i hcur2
        have hcur : f.treelet = cur := not_not.mp hcur2
        split at h
        · -- bounds hit
          split at h
          · -- leaf
            split at h
            · -- traceLeaf error
              rw [Option.some_inj, Prod.mk.injEq] at h
              obtain ⟨h1, h2⟩ := h
              subst h1; subst h2
              refine ⟨?_, Or.inl rfl⟩
              intro fr hfr
              rw [List.mem_singleton] at hfr
              subst hfr; exact hcur
            · -- traceLeaf ok
              split at h
              · -- stack empty after pushes
                rw [Option.some_inj, Prod.mk.injEq] at h
                obtain ⟨h1, h2⟩ := h
                subst h1; subst h2
                refine ⟨?_, Or.inr (Or.inl rfl)⟩
                intro fr hfr
                rw [List.mem_singleton] at hfr
                subst hfr; exact hcur
              · split at h
                · exact absurd h (by simp)
                · rename_i st3 log3 heq
                  rw [Option.some_inj, Prod.mk.injEq] at h
                  obtain ⟨h1, h2⟩ := h
                  subst h1; subst h2
                  obtain ⟨hlog, hexit⟩ := ih _ _ _ _ _ heq
                  refine ⟨?_, hexit⟩
                  intro fr hfr
                  rcases List.mem_cons.mp hfr with hfr | hfr
                  · subst hfr; exact hcur
                  · exact hlog fr hfr
          · -- interior
            split at h
            · exact absurd h (by simp)
            · rename_i st3 log3 heq
              rw [Option.some_inj, Prod.mk.injEq] at h
              obtain ⟨h1, h2⟩ := h
              subst h1; subst h2
              obtain ⟨hlog, hexit⟩ := ih _ _ _ _ _ heq
              refine ⟨?_, hexit⟩
              intro fr hfr
              rcases List.mem_cons.mp hfr with hfr | hfr
              · subst hfr; exact hcur
              · exact hlog fr hfr
        · -- bounds miss
          split at h
          · rw [Option.some_inj, Prod.mk.injEq] at h
            obtain ⟨h1, h2⟩ := h
            subst h1; subst h2
            refine ⟨?_, Or.inr (Or.inl rfl)⟩
            intro fr hfr
            rw [List.mem_singleton] at hfr
            subst hfr; exact hcur
          · split at h
            · exact absurd h (by simp)
            · rename_i st3 log3 heq
              rw [Option.some_inj, Prod.mk.injEq] at h
              obtain ⟨h1, h2⟩ := h
              subst h1; subst h2
              obtain ⟨hlog, hexit⟩ := ih _ _ _ _ _ heq
              refine ⟨?_, hexit⟩
              intro fr hfr
              rcases List.mem_cons.mp hfr with hfr | hfr
              · subst hfr; exact hcur
              · exact hlog fr hfr

/-- C4: `CloudBVH::Trace` never processes a node belonging to a treelet
other than the one named by the top stack frame at entry: every frame it
pops and processes names that treelet, and when it returns with a
non-empty stack and no exception, the top frame names a different
treelet and is left on the stack for the next caller to resume. -/
theorem trace_stays_in_current_treelet (ts : TScene) (g : Geom)
    (fuel : ℕ) (st st2 : TState) (f0 : CFrame) (rest log : List CFrame)
    (hstack : st.stack = f0 :: rest)
    (hrun : traceCall ts g fuel st = some (st2, log)) :
    (∀ fr ∈ log, fr.treelet = f0.treelet) ∧
      (st2.err = true ∨ st2.stack = [] ∨
        ∃ f2 r2, st2.stack = f2 :: r2 ∧ f2.treelet ≠ f0.treelet) := by
  unfold traceCall at hrun
  rw [hstack] at hrun
  exact traceInner_log_exit ts g f0.treelet fuel false [] st st2 log hrun

end PbrtCloud

namespace PbrtCloud

/-- Witness for `trace_stays_in_current_treelet`: on `c4Scene`, a call
starting at the root of treelet 7 processes only that root, pushes the
two children, and returns with the treelet-8 child frame left on top. -/
theorem trace_stays_in_current_treelet_witness :
    traceCall c4Scene c4Geom 3
        ⟨[⟨7, 0, 0, false⟩], 5, false, none, none, false⟩ =
      some (⟨[⟨8, 0, 0, false⟩, ⟨7, 1, 0, false⟩], 5, false, none,
        none, false⟩, [⟨7, 0, 0, false⟩]) ∧
      ((∀ fr ∈ ([⟨7, 0, 0, false⟩] : List CFrame),
          fr.treelet = (⟨7, 0, 0, false⟩ : CFrame).treelet) ∧
        ((⟨[⟨8, 0, 0, false⟩, ⟨7, 1, 0, false⟩], 5, false, none,
            none, false⟩ : TState).err = true ∨
          (⟨[⟨8, 0, 0, false⟩, ⟨7, 1, 0, false⟩], 5, false, none,
            none, false⟩ : TState).stack = [] ∨
          ∃ f2 r2,
            (⟨[⟨8, 0, 0, false⟩, ⟨7, 1, 0, false⟩], 5, false, none,
              none, false⟩ : TState).stack = f2 :: r2 ∧
              f2.treelet ≠ (⟨7, 0, 0, false⟩ : CFrame).treelet)) :=
  ⟨by rfl,
    trace_stays_in_current_treelet c4Scene c4Geom 3
      ⟨[⟨7, 0, 0, false⟩], 5, false, none, none, false⟩
      ⟨[⟨8, 0, 0, false⟩, ⟨7, 1, 0, false⟩], 5, false, none, none, false⟩
      ⟨7, 0, 0, false⟩ [] [⟨7, 0, 0, false⟩] rfl (by rfl)⟩

end PbrtCloud
namespace PbrtCloud

/-- C10: `Trace` records an intersection only for placeholder materials.
(a) If the intersected primitive's material is not a placeholder, the
leaf scan throws, leaving the accumulator (hit flag, stored hit, `tMax`)
as it was before that primitive. (b) If it is a placeholder, the hit is
recorded (`tMax` shrunk, hit flag set, hit info stored) and the scan
continues. (c) The loop turns the throw into an escaping error with the
partial effects kept. (d) The lazy `LoadTreelet` binds every required
material key to a `PlaceholderMaterial`, so treelets loaded in lazy mode
satisfy the requirement. -/
theorem trace_placeholder_material_required (ts : TScene) (g : Geom) :
    (∀ sp t off count cur n rel tM hit last rx t2 hd,
      ts.prim t (off + rel) = .geom →
      g.primHit sp tM t (off + rel) = some (t2, hd) →
      hd.matPlaceholder = false →
      traceLeaf ts g sp t off count cur (n + 1) rel tM hit last rx =
        .error (tM, hit, last)) ∧
    (∀ sp t off count cur n rel tM hit last rx t2 hd,
      ts.prim t (off + rel) = .geom →
      g.primHit sp tM t (off + rel) = some (t2, hd) →
      hd.matPlaceholder = true →
      traceLeaf ts g sp t off count cur (n + 1) rel tM hit last rx =
        traceLeaf ts g sp t off count cur n (rel + 1) t2 true
          (some (hd, sp)) rx) ∧
    (∀ fuel cur hasX cache f rest tM hit last rx err tE hitE lastE,
      f.treelet = cur →
      g.boundsHit (traceSp hasX cache f.transformed rx) tM f.treelet
          f.node = true →
      (ts.node f.treelet f.node).leaf = true →
      traceLeaf ts g (traceSp hasX cache f.transformed rx) f.treelet
          (ts.node f.treelet f.node).primOff
          (ts.node f.treelet f.node).primCount f
          ((ts.node f.treelet f.node).primCount - f.primitive) f.primitive
          tM hit last rx = .error (tE, hitE, lastE) →
      traceInner ts g cur (fuel + 1) hasX cache
          ⟨f :: rest, tM, hit, last, rx, err⟩ =
        some (⟨rest, tE, hitE, lastE, rx, true⟩, [f])) ∧
    (∀ required mats k, k ∈ required →
      loadTreeletMaterials required mats k = some .placeholder) := by
  refine ⟨?_, ?_, ?_, ?_⟩
  · intro sp t off count cur n rel tM hit last rx t2 hd hprim hph hmat
    simp only [traceLeaf, hprim, hph, hmat]
    rw [if_neg (by simp)]
  · intro sp t off count cur n rel tM hit last rx t2 hd hprim hph hmat
    simp only [traceLeaf, hprim, hph, hmat]
    rw [if_pos trivial]
  · intro fuel cur hasX cache f rest tM hit last rx err tE hitE lastE
      hcur hb hleaf herr
    simp only [traceInner, hb, hleaf, herr, if_true]
    rw [if_neg (not_not_intro hcur)]
  · intro required mats k hk
    simp [loadTreeletMaterials, hk]

end PbrtCloud

namespace PbrtCloud

/-- Witness for `trace_placeholder_material_required` on `c10Scene`: the
non-placeholder hit at primitive 0 makes the scan throw with the
accumulator untouched and the loop escape with the error flag set; the
placeholder hit at primitive 1 is recorded; a required material key is
bound to a placeholder by the lazy load. -/
theorem trace_placeholder_material_required_witness :
    traceLeaf c10Scene c10Geom [] 0 0 1 ⟨0, 0, 0, false⟩ 1 0 5 false none
        none = .error (5, false, none) ∧
      traceLeaf c10Scene c10Geom [] 0 0 2 ⟨0, 0, 0, false⟩ 1 1 5 false none
          none =
        traceLeaf c10Scene c10Geom [] 0 0 2 ⟨0, 0, 0, false⟩ 0 2 3 true
          (some ({}, [])) none ∧
      traceInner c10Scene c10Geom 0 1 false []
          ⟨[⟨0, 0, 0, false⟩], 5, false, none, none, false⟩ =
        some (⟨[], 5, false, none, none, true⟩, [⟨0, 0, 0, false⟩]) ∧
      loadTreeletMaterials [4] (fun _ => none) 4 = some .placeholder :=
  ⟨(trace_placeholder_material_required c10Scene c10Geom).1 [] 0 0 1
      ⟨0, 0, 0, false⟩ 0 0 5 false none none 2
      { matPlaceholder := false, matKey := 9 } rfl rfl rfl,
    (trace_placeholder_material_required c10Scene c10Geom).2.1 [] 0 0 2
      ⟨0, 0, 0, false⟩ 0 1 5 false none none 3 {} rfl rfl rfl,
    (trace_placeholder_material_required c10Scene c10Geom).2.2.1 0 0 false
      [] ⟨0, 0, 0, false⟩ [] 5 false none none false 5 false none rfl rfl
      rfl (by rfl),
    (trace_placeholder_material_required c10Scene c10Geom).2.2.2 [4]
      (fun _ => none) 4 (by simp)⟩

end PbrtCloud
namespace PbrtCloud

theorem lastOr_nil (last : Option THit) : lastOr [] last = last := rfl

theorem lastOr_cons (x : THit) (l : List THit) (last : Option THit) :
    lastOr (x :: l) last = lastOr l (some x) := by
  cases l with
  | nil => rfl
  | cons y ys =>
    unfold lastOr
    rw [List.getLast?_cons_cons]
    cases h : (y :: ys).getLast? with
    | none => exact absurd h (by simp [List.getLast?_eq_none_iff])
    | some z => rfl

theorem lastOr_append (l1 l2 : List THit) (last : Option THit) :
    lastOr (l1 ++ l2) last = lastOr l2 (lastOr l1 last) := by
  induction l1 generalizing last with
  | nil => rfl
  | cons x xs ih => rw [List.cons_append, lastOr_cons, lastOr_cons, ih]

theorem accPlus_self (acc : IRes) : accPlus acc acc.tMax [] = acc := by
  cases acc with
  | mk tM hit last => simp [accPlus, lastOr]

theorem not_isEmpty_append (l1 l2 : List THit) :
    (!(l1 ++ l2).isEmpty) = (!l1.isEmpty || !l2.isEmpty) := by
  cases l1 <;> simp

theorem accPlus_append (acc : IRes) (tM1 tM2 : ℚ) (l1 l2 : List THit) :
    accPlus (accPlus acc tM1 l1) tM2 l2 = accPlus acc tM2 (l1 ++ l2) := by
  unfold accPlus
  simp only [IRes.mk.injEq]
  refine ⟨trivial, ?_, (lastOr_append l1 l2 acc.last).symm⟩
  rw [not_isEmpty_append, Bool.or_assoc]

theorem ARunN_comp {ts : TScene} {g : Geom} {n m : ℕ} {a b c : ACfg}
    {l1 l2 : List THit} (h1 : ARunN ts g n a b l1)
    (h2 : ARunN ts g m b c l2) : ARunN ts g (n + m) a c (l1 ++ l2) := by
  induction h1 with
  | refl => rw [List.nil_append, Nat.add_comm]; exact h2
  | step hs _ ih =>
    rw [List.append_assoc, Nat.add_right_comm]
    exact ARunN.step hs (ih h2)

theorem ARunN_single {ts : TScene} {g : Geom} {c c2 : ACfg} {l : List THit}
    (h : stepA ts g c = some (c2, l)) : ARunN ts g 1 c c2 l := by
  have := ARunN.step h (ARunN.refl c2)
  rwa [List.append_nil] at this

theorem aRunN_nil_start {ts : TScene} {g : Geom} {n : ℕ} {tM : ℚ} {c : ACfg}
    {l : List THit} (h : ARunN ts g n ⟨[], tM⟩ c l) :
    c = ⟨[], tM⟩ ∧ l = [] ∧ n = 0 := by
  cases h with
  | refl => exact ⟨rfl, rfl, rfl⟩
  | step hs _ => simp [stepA] at hs

theorem aLeaf_nil_log (ts : TScene) (g : Geom) (sp : Space)
    (t nidx off count : ℕ) :
    ∀ (n rel : ℕ) (tM : ℚ),
      (aLeaf ts g sp t nidx off count n rel tM).2.1 = [] →
      (aLeaf ts g sp t nidx off count n rel tM).1 = tM := by
  intro n
  induction n with
  | zero => intro rel tM _; rfl
  | succ n ih =>
    intro rel tM h
    simp only [aLeaf] at h ⊢
    split at h
    · split at h
      · exact ih _ _ h
      · simp at h
    · rfl

theorem stepA_nil_log {ts : TScene} {g : Geom} {c c2 : ACfg}
    (h : stepA ts g c = some (c2, [])) : c2.tMax = c.tMax := by
  unfold stepA at h
  split at h
  · simp at h
  · rename_i f rest heq
    rw [Option.some_inj] at h
    split at h
    · split at h
      · rw [Prod.mk.injEq] at h
        obtain ⟨h1, h2⟩ := h
        rw [← h1]
        exact aLeaf_nil_log ts g f.sp f.treelet f.node _ _ _ _ _ h2
      · rw [Prod.mk.injEq] at h
        rw [← h.1]
    · rw [Prod.mk.injEq] at h
      rw [← h.1]

theorem aRunN_nil_log {ts : TScene} {g : Geom} {n : ℕ} {c c2 : ACfg}
    (h : ARunN ts g n c c2 []) : c2.tMax = c.tMax := by
  generalize hl : ([] : List THit) = l at h
  induction h with
  | refl => rfl
  | step hs _ ih =>
    rcases List.append_eq_nil.mp hl.symm with ⟨h1, h2⟩
    subst h1
    rw [ih (by rw [h2]), stepA_nil_log hs]

end PbrtCloud
namespace PbrtCloud

/-- A recursive `Intersect` whose root bounds test fails returns
immediately with no hit and the original `tMax`. -/
theorem isectRoot_dead (ts : TScene) (g : Geom) :
    ∀ (fuel : ℕ) (sp : Space) (root : ℕ) (tM : ℚ) (r : IRes),
      isectRoot ts g fuel sp root tM = some r → root ≠ 0 →
      g.boundsHit sp tM root 0 = false → r = ⟨tM, false, none⟩ := by
  intro fuel sp root tM r h hroot hb
  match fuel with
  | 0 => exact absurd h (by simp [isectRoot])
  | fuel + 1 =>
    simp only [isectRoot] at h
    rw [if_neg hroot] at h
    match fuel with
    | 0 => exact absurd h (by simp [isectLoop])
    | fuel + 1 =>
      simp only [isectLoop] at h
      rw [hb] at h
      simp only [Bool.false_eq_true, if_false] at h
      match fuel with
      | 0 => exact absurd h (by simp [isectLoop])
      | fuel + 1 =>
        simp only [isectLoop, Option.some_inj] at h
        exact h.symm

/-- Dead leaf scan: once the leaf node's bounds test fails for the
current `tMax`, the remaining `Intersect` primitive loop has no effect —
geometric tests miss by bounds conservativeness, and external descents
are cut off at their root bounds. -/
theorem isectPrims_dead (ts : TScene) (g : Geom) (t nidx : ℕ)
    (hG : ∀ sp tM rel, g.boundsHit sp tM t nidx = false →
      rel < (ts.node t nidx).primCount →
      ts.prim t ((ts.node t nidx).primOff + rel) = .geom →
      g.primHit sp tM t ((ts.node t nidx).primOff + rel) = none)
    (hE : ∀ sp tM rel root xfm, g.boundsHit sp tM t nidx = false →
      rel < (ts.node t nidx).primCount →
      ts.prim t ((ts.node t nidx).primOff + rel) = .ext root xfm →
      g.boundsHit (spCompose xfm sp) tM root 0 = false)
    (hR : ∀ i root xfm, ts.prim t i = .ext root xfm → root ≠ 0) :
    ∀ (fuel n rel : ℕ) (sp : Space) (acc out : IRes),
      rel + n ≤ (ts.node t nidx).primCount →
      g.boundsHit sp acc.tMax t nidx = false →
      isectPrims ts g fuel sp t ((ts.node t nidx).primOff + rel) n acc =
        some out →
      out = acc := by
  intro fuel
  induction fuel with
  | zero => intro n rel sp acc out _ _ h; exact absurd h (by simp [isectPrims])
  | succ fuel ih =>
    intro n rel sp acc out hn hb h
    match n with
    | 0 =>
      simp only [isectPrims, Option.some_inj] at h
      exact h.symm
    | n + 1 =>
      have hrel : rel < (ts.node t nidx).primCount := by omega
      simp only [isectPrims] at h
      cases hp : ts.prim t ((ts.node t nidx).primOff + rel) with
      | geom =>
        simp only [hp, hG sp acc.tMax rel hb hrel hp] at h
        rw [show (ts.node t nidx).primOff + rel + 1 =
          (ts.node t nidx).primOff + (rel + 1) by omega] at h
        exact ih n (rel + 1) sp acc out (by omega) hb h
      | ext root xfm =>
        cases hr : isectRoot ts g fuel (spCompose xfm sp) root acc.tMax with
        | none => simp only [hp, hr] at h; exact absurd h (by simp)
        | some r =>
          simp only [hp, hr] at h
          have hdead : r = ⟨acc.tMax, false, none⟩ :=
            isectRoot_dead ts g fuel (spCompose xfm sp) root acc.tMax r hr
              (hR _ root xfm hp) (hE sp acc.tMax rel root xfm hb hrel hp)
          subst hdead
          rw [if_neg (by simp)] at h
          rw [show (ts.node t nidx).primOff + rel + 1 =
            (ts.node t nidx).primOff + (rel + 1) by omega] at h
          exact ih n (rel + 1) sp acc out (by omega) hb h

end PbrtCloud
namespace PbrtCloud

theorem lastOr_ne_nil (l : List THit) (x y : Option THit) (h : l ≠ []) :
    lastOr l x = lastOr l y := by
  unfold lastOr
  cases hl : l.getLast? with
  | none => exact absurd (List.getLast?_eq_none_iff.mp hl) h
  | some z => rfl

theorem accPlus_hit (acc : IRes) (t2 tM2 : ℚ) (x : THit) (L : List THit) :
    accPlus ⟨t2, true, some x⟩ tM2 L = accPlus acc tM2 (x :: L) := by
  unfold accPlus
  simp [lastOr_cons]

theorem accPlus_merge (acc : IRes) (tMa : ℚ) (loga : List THit)
    (hnil : loga = [] → tMa = acc.tMax) :
    (if (accPlus ⟨acc.tMax, false, none⟩ tMa loga).hit = true then
        (⟨(accPlus ⟨acc.tMax, false, none⟩ tMa loga).tMax, true,
          (accPlus ⟨acc.tMax, false, none⟩ tMa loga).last⟩ : IRes)
      else acc) = accPlus acc tMa loga := by
  cases loga with
  | nil =>
    rw [if_neg (by simp [accPlus])]
    rw [hnil rfl, accPlus_self]
  | cons z zs =>
    rw [if_pos (by simp [accPlus])]
    unfold accPlus
    simp only [IRes.mk.injEq, List.isEmpty_cons, Bool.not_false, Bool.or_true]
    exact ⟨trivial, trivial, lastOr_ne_nil _ _ _ (by simp)⟩

theorem childOrder_map {α β : Type} (h : α → β) (b : Bool) (l r : α) :
    childOrder b (h l) (h r) =
      (h (childOrder b l r).1, h (childOrder b l r).2) := by
  cases b <;> simp [childOrder]

theorem childOrder_prop {α : Type} (p : α → Prop) (b : Bool) (l r : α)
    (hl : p l) (hr : p r) :
    p (childOrder b l r).1 ∧ p (childOrder b l r).2 := by
  cases b with
  | false => exact ⟨by simpa [childOrder] using hl, by simpa [childOrder] using hr⟩
  | true => exact ⟨by simpa [childOrder] using hr, by simpa [childOrder] using hl⟩

theorem stepA_cons_miss {ts : TScene} {g : Geom} (f : AFrame)
    (rest : List AFrame) (tM : ℚ)
    (hb : g.boundsHit f.sp tM f.treelet f.node = false) :
    stepA ts g ⟨f :: rest, tM⟩ = some (⟨rest, tM⟩, []) := by
  simp [stepA, hb]

theorem stepA_cons_leaf {ts : TScene} {g : Geom} (f : AFrame)
    (rest : List AFrame) (tM : ℚ)
    (hb : g.boundsHit f.sp tM f.treelet f.node = true)
    (hleaf : (ts.node f.treelet f.node).leaf = true) :
    stepA ts g ⟨f :: rest, tM⟩ =
      some (⟨(aLeaf ts g f.sp f.treelet f.node
          (ts.node f.treelet f.node).primOff
          (ts.node f.treelet f.node).primCount
          ((ts.node f.treelet f.node).primCount - f.primitive) f.primitive
          tM).2.2 ++ rest,
        (aLeaf ts g f.sp f.treelet f.node
          (ts.node f.treelet f.node).primOff
          (ts.node f.treelet f.node).primCount
          ((ts.node f.treelet f.node).primCount - f.primitive) f.primitive
          tM).1⟩,
        (aLeaf ts g f.sp f.treelet f.node
          (ts.node f.treelet f.node).primOff
          (ts.node f.treelet f.node).primCount
          ((ts.node f.treelet f.node).primCount - f.primitive) f.primitive
          tM).2.1) := by
  simp [stepA, hb, hleaf]

theorem stepA_cons_node {ts : TScene} {g : Geom} (f : AFrame)
    (rest : List AFrame) (tM : ℚ)
    (hb : g.boundsHit f.sp tM f.treelet f.node = true)
    (hleaf : (ts.node f.treelet f.node).leaf = false) :
    stepA ts g ⟨f :: rest, tM⟩ =
      some (⟨(childOrder (g.axisNeg f.sp (ts.node f.treelet f.node).axis)
          (⟨(ts.node f.treelet f.node).childTL,
            (ts.node f.treelet f.node).childNL, 0, f.sp⟩ : AFrame)
          (⟨(ts.node f.treelet f.node).childTR,
            (ts.node f.treelet f.node).childNR, 0, f.sp⟩ : AFrame)).1 ::
        (childOrder (g.axisNeg f.sp (ts.node f.treelet f.node).axis)
          (⟨(ts.node f.treelet f.node).childTL,
            (ts.node f.treelet f.node).childNL, 0, f.sp⟩ : AFrame)
          (⟨(ts.node f.treelet f.node).childTR,
            (ts.node f.treelet f.node).childNR, 0, f.sp⟩ : AFrame)).2 ::
        rest, tM⟩, []) := by
  simp [stepA, hb, hleaf]

end PbrtCloud
namespace PbrtCloud

/-- Simulation of the recursive `Intersect` by the canonical single-step
machine: a successful `isectLoop`/`isectPrims`/`isectRoot` run is a
canonical run over the flattened stack, and its result is the starting
accumulator folded with the canonical hit log.  Conservative bounds
(`hG`, `hE`) are needed where `Intersect` keeps scanning a leaf whose
re-tested bounds a canonical continuation frame would reject; `hR` rules
out the octant redirect inside external instances. -/
theorem isect_sim (ts : TScene) (g : Geom)
    (hG : ∀ sp tM t nidx rel, (ts.node t nidx).leaf = true →
      g.boundsHit sp tM t nidx = false → rel < (ts.node t nidx).primCount →
      ts.prim t ((ts.node t nidx).primOff + rel) = .geom →
      g.primHit sp tM t ((ts.node t nidx).primOff + rel) = none)
    (hE : ∀ sp tM t nidx rel root xfm, (ts.node t nidx).leaf = true →
      g.boundsHit sp tM t nidx = false → rel < (ts.node t nidx).primCount →
      ts.prim t ((ts.node t nidx).primOff + rel) = .ext root xfm →
      g.boundsHit (spCompose xfm sp) tM root 0 = false)
    (hR : ∀ t i root xfm, ts.prim t i = .ext root xfm → root ≠ 0) :
    ∀ fuel : ℕ,
      (∀ (sp : Space) (frames : List (ℕ × ℕ)) (acc out : IRes),
        isectLoop ts g fuel sp frames acc = some out →
        ∀ rest : List AFrame, ∃ (n : ℕ) (tM2 : ℚ) (log : List THit),
          ARunN ts g n
            ⟨frames.map (fun p => (⟨p.1, p.2, 0, sp⟩ : AFrame)) ++ rest,
              acc.tMax⟩ ⟨rest, tM2⟩ log ∧ out = accPlus acc tM2 log) ∧
      (∀ (sp : Space) (t nidx rel : ℕ) (acc out : IRes),
        (ts.node t nidx).leaf = true →
        isectPrims ts g fuel sp t ((ts.node t nidx).primOff + rel)
          ((ts.node t nidx).primCount - rel) acc = some out →
        ∀ rest : List AFrame, ∃ (n : ℕ) (tM2 : ℚ) (log2 : List THit),
          ARunN ts g n
            ⟨(aLeaf ts g sp t nidx (ts.node t nidx).primOff
                (ts.node t nidx).primCount
                ((ts.node t nidx).primCount - rel) rel acc.tMax).2.2 ++ rest,
              (aLeaf ts g sp t nidx (ts.node t nidx).primOff
                (ts.node t nidx).primCount
                ((ts.node t nidx).primCount - rel) rel acc.tMax).1⟩
            ⟨rest, tM2⟩ log2 ∧
          out = accPlus acc tM2
            ((aLeaf ts g sp t nidx (ts.node t nidx).primOff
              (ts.node t nidx).primCount
              ((ts.node t nidx).primCount - rel) rel acc.tMax).2.1 ++ log2)) ∧
      (∀ (sp : Space) (root : ℕ) (t0 : ℚ) (out : IRes),
        isectRoot ts g fuel sp root t0 = some out →
        ∀ rest : List AFrame, ∃ (n : ℕ) (tM2 : ℚ) (log : List THit),
          ARunN ts g n
            ⟨⟨if root = 0 then g.octant sp else root, 0, 0, sp⟩ :: rest, t0⟩
            ⟨rest, tM2⟩ log ∧
          out = accPlus ⟨t0, false, none⟩ tM2 log) := by
  intro fuel
  induction fuel using Nat.strong_induction_on with
  | _ fuel IH =>
  match fuel with
  | 0 =>
    refine ⟨?_, ?_, ?_⟩
    · intro sp frames acc out h
      exact absurd h (by simp [isectLoop])
    · intro sp t nidx rel acc out hleaf h
      exact absurd h (by simp [isectPrims])
    · intro sp root t0 out h
      exact absurd h (by simp [isectRoot])
  | fuel + 1 =>
    obtain ⟨IHloop, IHprims, IHroot⟩ := IH fuel (Nat.lt_succ_self fuel)
    refine ⟨?_, ?_, ?_⟩
    · -- isectLoop at fuel + 1
      intro sp frames acc out h rest
      cases frames with
      | nil =>
        simp only [isectLoop, Option.some_inj] at h
        refine ⟨0, acc.tMax, [], ?_, ?_⟩
        · rw [List.map_nil, List.nil_append]
          exact ARunN.refl _
        · rw [← h, accPlus_self]
      | cons p fs =>
        obtain ⟨t, nidx⟩ := p
        simp only [isectLoop] at h
        cases hb : g.boundsHit sp acc.tMax t nidx with
        | false =>
          rw [if_neg (by rw [hb]; exact Bool.false_ne_true)] at h
          obtain ⟨n, tM2, log, hrun, hout⟩ := IHloop sp fs acc out h rest
          refine ⟨1 + n, tM2, [] ++ log, ?_, by simpa using hout⟩
          rw [List.map_cons, List.cons_append]
          exact ARunN_comp (ARunN_single (stepA_cons_miss _ _ _ hb)) hrun
        | true =>
          rw [if_pos hb] at h
          cases hleaf : (ts.node t nidx).leaf with
          | true =>
            rw [if_pos hleaf] at h
            cases hps : isectPrims ts g fuel sp t (ts.node t nidx).primOff
                (ts.node t nidx).primCount acc with
            | none => rw [hps] at h; exact absurd h (by simp)
            | some acc2 =>
              rw [hps] at h
              have hps0 : isectPrims ts g fuel sp t
                  ((ts.node t nidx).primOff + 0)
                  ((ts.node t nidx).primCount - 0) acc = some acc2 := by
                simpa using hps
              obtain ⟨nB, tMB, logB, hrunB, houtB⟩ := IHprims sp t nidx 0 acc
                acc2 hleaf hps0
                (fs.map (fun p => (⟨p.1, p.2, 0, sp⟩ : AFrame)) ++ rest)
              obtain ⟨nC, tM2, logC, hrunC, houtC⟩ := IHloop sp fs acc2 out h
                rest
              have htMB : acc2.tMax = tMB := by rw [houtB]; rfl
              rw [htMB] at hrunC
              refine ⟨(nB + nC) + 1, tM2,
                (aLeaf ts g sp t nidx (ts.node t nidx).primOff
                  (ts.node t nidx).primCount
                  ((ts.node t nidx).primCount - 0) 0 acc.tMax).2.1 ++
                  (logB ++ logC), ?_, ?_⟩
              · rw [List.map_cons, List.cons_append]
                exact ARunN.step (stepA_cons_leaf _ _ _ hb hleaf)
                  (ARunN_comp hrunB hrunC)
              · rw [houtC, houtB, accPlus_append, List.append_assoc]
          | false =>
            rw [if_neg (by rw [hleaf]; exact Bool.false_ne_true)] at h
            obtain ⟨n, tM2, log, hrun, hout⟩ := IHloop sp
              ((childOrder (g.axisNeg sp (ts.node t nidx).axis)
                ((ts.node t nidx).childTL, (ts.node t nidx).childNL)
                ((ts.node t nidx).childTR, (ts.node t nidx).childNR)).1 ::
                (childOrder (g.axisNeg sp (ts.node t nidx).axis)
                  ((ts.node t nidx).childTL, (ts.node t nidx).childNL)
                  ((ts.node t nidx).childTR, (ts.node t nidx).childNR)).2 ::
                fs) acc out h rest
            refine ⟨1 + n, tM2, [] ++ log, ?_, by simpa using hout⟩
            rw [List.map_cons, List.cons_append]
            refine ARunN_comp (ARunN_single (stepA_cons_node _ _ _ hb hleaf)) ?_
            cases haxis : g.axisNeg sp (ts.node t nidx).axis with
            | false =>
              rw [haxis] at hrun
              simpa [childOrder] using hrun
            | true =>
              rw [haxis] at hrun
              simpa [childOrder] using hrun
    · -- isectPrims at fuel + 1
      intro sp t nidx rel acc out hleaf h rest
      cases hcnt : (ts.node t nidx).primCount - rel with
      | zero =>
        rw [hcnt] at h
        simp only [isectPrims, Option.some_inj] at h
        refine ⟨0, acc.tMax, [], ?_, ?_⟩
        · simp only [aLeaf, List.nil_append]
          exact ARunN.refl _
        · simp only [aLeaf, List.nil_append]
          rw [← h, accPlus_self]
      | succ n0 =>
        rw [hcnt] at h
        simp only [isectPrims] at h
        have hrel : rel < (ts.node t nidx).primCount := by omega
        have hn0 : n0 = (ts.node t nidx).primCount - (rel + 1) := by omega
        have hidx : (ts.node t nidx).primOff + rel + 1 =
            (ts.node t nidx).primOff + (rel + 1) := by omega
        cases hp : ts.prim t ((ts.node t nidx).primOff + rel) with
        | geom =>
          cases hph : g.primHit sp acc.tMax t
              ((ts.node t nidx).primOff + rel) with
          | none =>
            simp only [hp, hph] at h
            rw [hidx, hn0] at h
            obtain ⟨n, tM2, log2, hrun, hout⟩ := IHprims sp t nidx (rel + 1)
              acc out hleaf h rest
            rw [← hn0] at hrun hout
            refine ⟨n, tM2, log2, ?_, ?_⟩
            · simp only [aLeaf, hp, hph]
              exact hrun
            · simp only [aLeaf, hp, hph]
              exact hout
          | some pr =>
            obtain ⟨t2, hd⟩ := pr
            simp only [hp, hph] at h
            rw [hidx, hn0] at h
            obtain ⟨n, tM2, log2, hrun, hout⟩ := IHprims sp t nidx (rel + 1)
              ⟨t2, true, some (hd, sp)⟩ out hleaf h rest
            rw [← hn0] at hrun hout
            refine ⟨n, tM2, log2, ?_, ?_⟩
            · simp only [aLeaf, hp, hph]
              exact hrun
            · simp only [aLeaf, hp, hph]
              rw [hout, accPlus_hit acc, List.cons_append]
        | ext root xfm =>
          cases hr : isectRoot ts g fuel (spCompose xfm sp) root acc.tMax with
          | none => simp only [hp, hr] at h; exact absurd h (by simp)
          | some r =>
            simp only [hp, hr] at h
            obtain ⟨nA, tMa, loga, hrunA, houtA⟩ := IHroot (spCompose xfm sp)
              root acc.tMax r hr
              ((if rel + 1 < (ts.node t nidx).primCount then
                [(⟨t, nidx, rel + 1, sp⟩ : AFrame)] else []) ++ rest)
            rw [if_neg (hR t _ root xfm hp)] at hrunA
            have hacc2 : (if r.hit = true then
                (⟨r.tMax, true, r.last⟩ : IRes) else acc) =
                accPlus acc tMa loga := by
              rw [houtA]
              exact accPlus_merge acc tMa loga (fun hnil => by
                subst hnil
                exact aRunN_nil_log hrunA)
            rw [hacc2] at h
            rw [hidx, hn0] at h
            by_cases hc : rel + 1 < (ts.node t nidx).primCount
            · rw [if_pos hc] at hrunA
              cases hb2 : g.boundsHit sp tMa t nidx with
              | true =>
                obtain ⟨nB, tM2, log2, hrunB, houtB⟩ := IHprims sp t nidx
                  (rel + 1) (accPlus acc tMa loga) out hleaf h rest
                have htMa : (accPlus acc tMa loga).tMax = tMa := rfl
                rw [htMa] at hrunB
                refine ⟨nA + (nB + 1), tM2,
                  loga ++ ((aLeaf ts g sp t nidx (ts.node t nidx).primOff
                    (ts.node t nidx).primCount
                    ((ts.node t nidx).primCount - (rel + 1)) (rel + 1)
                    tMa).2.1 ++ log2), ?_, ?_⟩
                · simp only [aLeaf, hp]
                  rw [if_pos hc, List.cons_append, List.singleton_append]
                  exact ARunN_comp hrunA
                    (ARunN.step (stepA_cons_leaf _ _ _ hb2 hleaf) hrunB)
                · simp only [aLeaf, hp]
                  rw [houtB, htMa, accPlus_append, List.nil_append]
              | false =>
                have hdead : out = accPlus acc tMa loga :=
                  isectPrims_dead ts g t nidx
                    (fun sp2 tM2 rel2 => hG sp2 tM2 t nidx rel2 hleaf)
                    (fun sp2 tM2 rel2 root2 xfm2 =>
                      hE sp2 tM2 t nidx rel2 root2 xfm2 hleaf)
                    (fun i root2 xfm2 => hR t i root2 xfm2)
                    fuel ((ts.node t nidx).primCount - (rel + 1)) (rel + 1)
                    sp (accPlus acc tMa loga) out (by omega) hb2 h
                refine ⟨nA + 1, tMa, loga ++ [], ?_, ?_⟩
                · simp only [aLeaf, hp]
                  rw [if_pos hc, List.cons_append, List.singleton_append]
                  exact ARunN_comp hrunA (ARunN_single (stepA_cons_miss _ _ _ hb2))
                · simp only [aLeaf, hp]
                  rw [hdead, List.nil_append, List.append_nil]
            · rw [if_neg hc] at hrunA
              have hn00 : (ts.node t nidx).primCount - (rel + 1) = 0 := by
                omega
              rw [hn00] at h
              match fuel, h with
              | fuel + 1, h =>
                simp only [isectPrims, Option.some_inj] at h
                refine ⟨nA, tMa, loga, ?_, ?_⟩
                · simp only [aLeaf, hp]
                  rw [if_neg hc, List.cons_append, List.nil_append]
                  exact hrunA
                · simp only [aLeaf, hp]
                  rw [List.nil_append, ← h]
    · -- isectRoot at fuel + 1
      intro sp root t0 out h rest
      simp only [isectRoot] at h
      obtain ⟨n, tM2, log, hrun, hout⟩ := IHloop sp
        [(if root = 0 then g.octant sp else root, 0)]
        ⟨t0, false, none⟩ out h rest
      refine ⟨n, tM2, log, ?_, hout⟩
      simpa using hrun

end PbrtCloud
namespace PbrtCloud

theorem traceSp_eq (hasX : Bool) (b : Bool) (rx : Option ℕ) :
    traceSp hasX (if hasX then xfmSpace rx else []) b rx =
      if b then xfmSpace rx else [] := by
  cases hasX <;> cases b <;> simp [traceSp]

theorem xfmShape_all_false (fs : List CFrame)
    (h : ∀ f ∈ fs, f.transformed = false) : XfmShape fs :=
  ⟨[], fs, rfl, by simp, h⟩

theorem xfmShape_cons_true (f : CFrame) (fs : List CFrame)
    (h : XfmShape fs) (hf : f.transformed = true) : XfmShape (f :: fs) := by
  obtain ⟨a, b, hab, ha, hb⟩ := h
  exact ⟨f :: a, b, by rw [hab, List.cons_append],
    fun f2 hf2 => by
      rcases List.mem_cons.mp hf2 with h2 | h2
      · rw [h2]; exact hf
      · exact ha f2 h2, hb⟩

theorem xfmShape_tail (f : CFrame) (fs : List CFrame)
    (h : XfmShape (f :: fs)) : XfmShape fs := by
  obtain ⟨a, b, hab, ha, hb⟩ := h
  cases a with
  | nil =>
    cases b with
    | nil => simp at hab
    | cons b0 bs =>
      rw [List.nil_append] at hab
      injection hab with h1 h2
      subst h2
      exact xfmShape_all_false fs (fun f2 hf2 => hb f2 (List.mem_cons_of_mem b0 hf2))
  | cons a0 as =>
    rw [List.cons_append] at hab
    injection hab with h1 h2
    exact ⟨as, b, h2, fun f2 hf2 => ha f2 (List.mem_cons_of_mem a0 hf2), hb⟩

theorem xfmShape_rest_false (f : CFrame) (fs : List CFrame)
    (h : XfmShape (f :: fs)) (hf : f.transformed = false) :
    ∀ fr ∈ fs, fr.transformed = false := by
  obtain ⟨a, b, hab, ha, hb⟩ := h
  cases a with
  | nil =>
    cases b with
    | nil => simp at hab
    | cons b0 bs =>
      rw [List.nil_append] at hab
      injection hab with h1 h2
      subst h2
      exact fun fr hfr => hb fr (List.mem_cons_of_mem b0 hfr)
  | cons a0 as =>
    rw [List.cons_append] at hab
    injection hab with h1 h2
    subst h1
    exact absurd (ha f (List.mem_cons_self f as)) (by rw [hf]; simp)

theorem map_absFrame_untrans (rx rx2 : Option ℕ) (fs : List CFrame)
    (h : ∀ f ∈ fs, f.transformed = false) :
    fs.map (absFrame rx) = fs.map (absFrame rx2) := by
  induction fs with
  | nil => rfl
  | cons f fs ih =>
    rw [List.map_cons, List.map_cons,
      ih (fun f2 hf2 => h f2 (List.mem_cons_of_mem f hf2))]
    have hf := h f (List.mem_cons_self f fs)
    unfold absFrame
    rw [hf]
    simp

/-- Leaf scan simulation for a transformed frame: the treelet holds no
external-instance primitives, so the scan is pure, never throws under the
placeholder hypothesis, pushes nothing, and leaves `rayTransform`
untouched. -/
theorem traceLeaf_noext (ts : TScene) (g : Geom) (sp : Space)
    (t off count : ℕ) (cur : CFrame) (nidx : ℕ)
    (hplc : ∀ sp2 tM t2 i t3 hd, g.primHit sp2 tM t2 i = some (t3, hd) →
      hd.matPlaceholder = true)
    (hne : ∀ i root xfm, ts.prim t i ≠ .ext root xfm) :
    ∀ (n rel : ℕ) (tM : ℚ) (hit : Bool) (last : Option THit)
      (rx : Option ℕ),
      traceLeaf ts g sp t off count cur n rel tM hit last rx =
        .ok ((aLeaf ts g sp t nidx off count n rel tM).1,
          hit || !(aLeaf ts g sp t nidx off count n rel tM).2.1.isEmpty,
          lastOr (aLeaf ts g sp t nidx off count n rel tM).2.1 last, rx,
          []) ∧
      (aLeaf ts g sp t nidx off count n rel tM).2.2 = [] := by
  intro n
  induction n with
  | zero =>
    intro rel tM hit last rx
    exact ⟨by simp [traceLeaf, aLeaf, lastOr], rfl⟩
  | succ n ih =>
    intro rel tM hit last rx
    cases hp : ts.prim t (off + rel) with
    | ext root xfm => exact absurd hp (hne _ root xfm)
    | geom =>
      cases hph : g.primHit sp tM t (off + rel) with
      | none =>
        constructor
        · simp only [traceLeaf, aLeaf, hp, hph]
          exact (ih (rel + 1) tM hit last rx).1
        · simp only [aLeaf, hp, hph]
          exact (ih (rel + 1) tM hit last rx).2
      | some pr =>
        obtain ⟨t2, hd⟩ := pr
        have hmat : hd.matPlaceholder = true := hplc _ _ _ _ _ _ hph
        constructor
        · simp only [traceLeaf, aLeaf, hp, hph]
          rw [if_pos hmat, (ih (rel + 1) t2 true (some (hd, sp)) rx).1]
          simp [lastOr_cons]
        · simp only [aLeaf, hp, hph]
          exact (ih (rel + 1) t2 true (some (hd, sp)) rx).2

/-- Leaf scan simulation for a world-space frame: the scan mirrors the
canonical scan, never throws under the placeholder hypothesis, and its
pushed frames abstract (under the possibly updated `rayTransform`) to the
canonical pushes; the frames below the head are untransformed. -/
theorem traceLeaf_world (ts : TScene) (g : Geom) (main : ℕ → Bool)
    (t off count : ℕ) (cur : CFrame) (nidx : ℕ)
    (hplc : ∀ sp2 tM t2 i t3 hd, g.primHit sp2 tM t2 i = some (t3, hd) →
      hd.matPlaceholder = true)
    (hER : ∀ t2 i root xfm, ts.prim t2 i = .ext root xfm →
      main root = false ∧ root ≠ 0)
    (hct : cur.transformed = false) (hcur : cur.treelet = t)
    (hcn : cur.node = nidx) :
    ∀ (n rel : ℕ) (tM : ℚ) (hit : Bool) (last : Option THit)
      (rx : Option ℕ),
      ∃ (rx2 : Option ℕ) (pushes : List CFrame),
        traceLeaf ts g [] t off count cur n rel tM hit last rx =
          .ok ((aLeaf ts g [] t nidx off count n rel tM).1,
            hit || !(aLeaf ts g [] t nidx off count n rel tM).2.1.isEmpty,
            lastOr (aLeaf ts g [] t nidx off count n rel tM).2.1 last, rx2,
            pushes) ∧
        pushes.map (absFrame rx2) =
          (aLeaf ts g [] t nidx off count n rel tM).2.2 ∧
        (∀ f ∈ pushes, f.transformed = true → main f.treelet = false) ∧
        (pushes = [] ∨ ∃ eF contC, pushes = eF :: contC ∧
          ∀ f ∈ contC, f.transformed = false) := by
  intro n
  induction n with
  | zero =>
    intro rel tM hit last rx
    refine ⟨rx, [], by simp [traceLeaf, aLeaf, lastOr], by simp [aLeaf], ?_, Or.inl rfl⟩
    intro f hf
    exact absurd hf (List.not_mem_nil f)
  | succ n ih =>
    intro rel tM hit last rx
    cases hp : ts.prim t (off + rel) with
    | geom =>
      cases hph : g.primHit [] tM t (off + rel) with
      | none =>
        obtain ⟨rx2, pushes, h1, h2, h3, h4⟩ := ih (rel + 1) tM hit last rx
        refine ⟨rx2, pushes, ?_, ?_, h3, h4⟩
        · simp only [traceLeaf, aLeaf, hp, hph]
          exact h1
        · simp only [aLeaf, hp, hph]
          exact h2
      | some pr =>
        obtain ⟨t2, hd⟩ := pr
        have hmat : hd.matPlaceholder = true := hplc _ _ _ _ _ _ hph
        obtain ⟨rx2, pushes, h1, h2, h3, h4⟩ :=
          ih (rel + 1) t2 true (some (hd, [])) rx
        refine ⟨rx2, pushes, ?_, ?_, h3, h4⟩
        · simp only [traceLeaf, aLeaf, hp, hph]
          rw [if_pos hmat, h1]
          simp [lastOr_cons]
        · simp only [aLeaf, hp, hph]
          exact h2
    | ext root xfm =>
      have hcontF : ∀ rx3 : Option ℕ,
          (if rel + 1 < count then [{ cur with primitive := rel + 1 }]
            else ([] : List CFrame)).map (absFrame rx3) =
          (if rel + 1 < count then [(⟨t, nidx, rel + 1, []⟩ : AFrame)]
            else []) := by
        intro rx3
        by_cases hc : rel + 1 < count
        · rw [if_pos hc, if_pos hc, List.map_cons, List.map_nil]
          unfold absFrame
          simp [hct, hcur, hcn]
        · rw [if_neg hc, if_neg hc, List.map_nil]
      have hcontT : ∀ f2 ∈ (if rel + 1 < count then
          [{ cur with primitive := rel + 1 }] else ([] : List CFrame)),
          f2.transformed = false := by
        intro f2 hf2
        by_cases hc : rel + 1 < count
        · rw [if_pos hc, List.mem_singleton] at hf2
          subst hf2
          simpa using hct
        · rw [if_neg hc] at hf2
          exact absurd hf2 (List.not_mem_nil f2)
      cases xfm with
      | none =>
        refine ⟨rx,
          { treelet := root, node := 0, primitive := 0,
            transformed := false } ::
            (if rel + 1 < count then [{ cur with primitive := rel + 1 }]
              else []), ?_, ?_, ?_, ?_⟩
        · simp only [traceLeaf, aLeaf, hp]
          simp [lastOr]
        · simp only [aLeaf, hp]
          rw [List.map_cons, hcontF rx]
          simp [absFrame, spCompose, xfmSpace]
        · intro f hf htr
          rcases List.mem_cons.mp hf with h2 | h2
          · subst h2; simp at htr
          · exact absurd (hcontT f h2) (by rw [htr]; simp)
        · exact Or.inr ⟨_, _, rfl, hcontT⟩
      | some k =>
        refine ⟨some k,
          { treelet := root, node := 0, primitive := 0,
            transformed := true } ::
            (if rel + 1 < count then [{ cur with primitive := rel + 1 }]
              else []), ?_, ?_, ?_, ?_⟩
        · simp only [traceLeaf, aLeaf, hp]
          simp [lastOr]
        · simp only [aLeaf, hp]
          rw [List.map_cons, hcontF (some k)]
          simp [absFrame, spCompose, xfmSpace]
        · intro f hf htr
          rcases List.mem_cons.mp hf with h2 | h2
          · subst h2
            exact (hER t (off + rel) root (some k) hp).1
          · exact absurd (hcontT f h2) (by rw [htr]; simp)
        · exact Or.inr ⟨_, _, rfl, hcontT⟩

end PbrtCloud
namespace PbrtCloud

/-- One `Trace` call simulates a prefix of the canonical run: starting
from a coherent ray state whose abstraction runs (in `m` canonical
steps) to an empty stack, `traceInner` with enough fuel returns without
error, having performed `k` canonical steps (`k ≥ 1` when the top frame
is current), preserving the invariant, folding the hits of the processed
prefix into the ray state, and stopping only on an empty stack or a
foreign top frame. -/
theorem traceInner_sim (ts : TScene) (g : Geom) (main : ℕ → Bool)
    (hplc : ∀ sp tM t i t2 hd, g.primHit sp tM t i = some (t2, hd) →
      hd.matPlaceholder = true)
    (hIN : ∀ t i root xfm, main t = false → ts.prim t i ≠ .ext root xfm)
    (hER : ∀ t i root xfm, ts.prim t i = .ext root xfm →
      main root = false ∧ root ≠ 0)
    (hIC : ∀ t n, main t = false → (ts.node t n).leaf = false →
      main (ts.node t n).childTL = false ∧
        main (ts.node t n).childTR = false) :
    ∀ (m fuel : ℕ) (st : TState) (hasX : Bool) (cur : ℕ) (cF : ACfg)
      (logF : List THit),
      m + 1 ≤ fuel → TraceINV main st → st.err = false →
      ARunN ts g m (absCfg st) cF logF → cF.stack = [] →
      ∃ (k : ℕ) (st2 : TState) (plog : List CFrame) (log2 logS : List THit),
        traceInner ts g cur fuel hasX
            (if hasX then xfmSpace st.rayXfm else []) st = some (st2, plog) ∧
        k ≤ m ∧ st2.err = false ∧ TraceINV main st2 ∧
        ARunN ts g k (absCfg st) (absCfg st2) log2 ∧
        ARunN ts g (m - k) (absCfg st2) cF logS ∧
        logF = log2 ++ logS ∧
        st2.hit = (st.hit || !log2.isEmpty) ∧
        st2.lastHit = lastOr log2 st.lastHit ∧
        (st2.stack = [] ∨ ∃ f2 r2, st2.stack = f2 :: r2 ∧ f2.treelet ≠ cur) ∧
        (∀ f0 r0, st.stack = f0 :: r0 → f0.treelet = cur → 1 ≤ k) := by
  intro m
  induction m using Nat.strong_induction_on with
  | _ m IHm =>
  intro fuel st hasX cur cF logF hfuel hINV herr hA hcF
  cases fuel with
  | zero => exact absurd hfuel (by omega)
  | succ fuel =>
  obtain ⟨stk, tM, hit, last, rx, err⟩ := st
  have herr2 : err = false := herr
  subst herr2
  cases stk with
  | nil =>
    have habs : absCfg ⟨[], tM, hit, last, rx, false⟩ = ⟨[], tM⟩ := rfl
    rw [habs] at hA
    obtain ⟨hcf2, hlog, hm⟩ := aRunN_nil_start hA
    subst hm
    subst hcf2
    subst hlog
    exact ⟨0, ⟨[], tM, hit, last, rx, false⟩, [], [], [], rfl,
      Nat.zero_le 0, rfl, hINV, ARunN.refl _, ARunN.refl _, rfl, by simp,
      rfl, Or.inl rfl, fun f0 r0 hx => absurd hx (by simp)⟩
  | cons f rest =>
    by_cases hfc : f.treelet = cur
    case neg =>
      refine ⟨0, ⟨f :: rest, tM, hit, last, rx, false⟩, [], [], logF, ?_,
        Nat.zero_le m, rfl, hINV, ARunN.refl _, hA, rfl, by simp, rfl,
        Or.inr ⟨f, rest, rfl, hfc⟩, ?_⟩
      · simp only [traceInner]
        rw [if_pos hfc]
      · intro f0 r0 hx hx2
        injection hx with hx1 _
        exact absurd (hx1 ▸ hx2) hfc
    case pos =>
      have habs : absCfg ⟨f :: rest, tM, hit, last, rx, false⟩ =
          ⟨absFrame rx f :: rest.map (absFrame rx), tM⟩ := rfl
      rw [habs] at hA
      cases hA with
      | refl => rw [← habs] at hcF; exact absurd hcF (by simp [absCfg])
      | step hstep hA' =>
      rename_i c2 l1 l2 m2
      have hrest_sub : TraceINV main ⟨rest, tM, hit, last, rx, false⟩ :=
        ⟨xfmShape_tail f rest hINV.1,
          fun f2 hf2 => hINV.2 f2 (List.mem_cons_of_mem f hf2)⟩
      cases hb : g.boundsHit (if f.transformed then xfmSpace rx else [])
          tM f.treelet f.node with
      | false =>
        rw [stepA_cons_miss _ _ _ hb, Option.some_inj, Prod.mk.injEq] at hstep
        obtain ⟨hc2, hl1⟩ := hstep
        subst hc2
        subst hl1
        simp only [traceInner]
        rw [if_neg (not_not_intro hfc), traceSp_eq]
        rw [if_neg (by rw [hb]; exact Bool.false_ne_true)]
        by_cases hre : rest = []
        · subst hre
          rw [if_pos rfl]
          simp only [List.map_nil] at hA'
          obtain ⟨hcf2, hl2, hm2⟩ := aRunN_nil_start hA'
          subst hcf2
          subst hl2
          subst hm2
          refine ⟨1, ⟨[], tM, hit, last, rx, false⟩, [f], [], [], rfl,
            le_refl 1, rfl, ⟨xfmShape_all_false [] (by simp), by simp⟩,
            ?_, ARunN.refl _, rfl, by simp, rfl, Or.inl rfl,
            fun _ _ _ _ => le_refl 1⟩
          rw [habs]
          exact ARunN_single (stepA_cons_miss _ _ _ hb)
        · rw [if_neg hre]
          obtain ⟨k2, st2, plog2, log2b, logSb, hrun2, hk2, herr3, hINV2,
            hpre2, hsuf2, hlog2, hhit2, hlast2, hexit2, hprog2⟩ :=
            IHm m2 (by omega) fuel ⟨rest, tM, hit, last, rx, false⟩
              f.transformed cur cF l2 (by omega) hrest_sub rfl hA' hcF
          simp only [] at hrun2
          rw [hrun2]
          refine ⟨k2 + 1, st2, f :: plog2, [] ++ log2b, logSb, rfl,
            by omega, herr3, hINV2, ?_, ?_, ?_, ?_, ?_, hexit2,
            fun _ _ _ _ => by omega⟩
          · rw [habs]
            exact ARunN.step (stepA_cons_miss _ _ _ hb) hpre2
          · rw [Nat.succ_sub_succ]
            exact hsuf2
          · rw [hlog2, List.nil_append, List.nil_append]
          · simpa using hhit2
          · simpa using hlast2
      | true =>
        cases hleaf : (ts.node f.treelet f.node).leaf with
        | false =>
          rw [stepA_cons_node (absFrame rx f) _ _ hb hleaf, Option.some_inj,
            Prod.mk.injEq] at hstep
          simp only [absFrame] at hstep
          obtain ⟨hc2, hl1⟩ := hstep
          subst hc2
          subst hl1
          simp only [traceInner]
          rw [if_neg (not_not_intro hfc), traceSp_eq, if_pos hb,
            if_neg (by rw [hleaf]; exact Bool.false_ne_true)]
          have hchildL : absFrame rx
              (⟨(ts.node f.treelet f.node).childTL,
                (ts.node f.treelet f.node).childNL, 0, f.transformed⟩ :
                CFrame) =
              ⟨(ts.node f.treelet f.node).childTL,
                (ts.node f.treelet f.node).childNL, 0,
                if f.transformed then xfmSpace rx else []⟩ := rfl
          have hchildR : absFrame rx
              (⟨(ts.node f.treelet f.node).childTR,
                (ts.node f.treelet f.node).childNR, 0, f.transformed⟩ :
                CFrame) =
              ⟨(ts.node f.treelet f.node).childTR,
                (ts.node f.treelet f.node).childNR, 0,
                if f.transformed then xfmSpace rx else []⟩ := rfl
          have hmapnf := childOrder_map (absFrame rx)
            (g.axisNeg (if f.transformed then xfmSpace rx else [])
              (ts.node f.treelet f.node).axis)
            (⟨(ts.node f.treelet f.node).childTL,
              (ts.node f.treelet f.node).childNL, 0, f.transformed⟩ : CFrame)
            (⟨(ts.node f.treelet f.node).childTR,
              (ts.node f.treelet f.node).childNR, 0, f.transformed⟩ : CFrame)
          rw [hchildL, hchildR] at hmapnf
          have habs2 : absCfg
              ⟨(childOrder (g.axisNeg
                  (if f.transformed then xfmSpace rx else [])
                  (ts.node f.treelet f.node).axis)
                (⟨(ts.node f.treelet f.node).childTL,
                  (ts.node f.treelet f.node).childNL, 0, f.transformed⟩ :
                  CFrame)
                (⟨(ts.node f.treelet f.node).childTR,
                  (ts.node f.treelet f.node).childNR, 0,
                  f.transformed⟩ : CFrame)).1 ::
                (childOrder (g.axisNeg
                    (if f.transformed then xfmSpace rx else [])
                    (ts.node f.treelet f.node).axis)
                  (⟨(ts.node f.treelet f.node).childTL,
                    (ts.node f.treelet f.node).childNL, 0, f.transformed⟩ :
                    CFrame)
                  (⟨(ts.node f.treelet f.node).childTR,
                    (ts.node f.treelet f.node).childNR, 0,
                    f.transformed⟩ : CFrame)).2 :: rest,
                tM, hit, last, rx, false⟩ =
              ⟨(childOrder (g.axisNeg
                  (if f.transformed then xfmSpace rx else [])
                  (ts.node f.treelet f.node).axis)
                (⟨(ts.node f.treelet f.node).childTL,
                  (ts.node f.treelet f.node).childNL, 0,
                  if f.transformed then xfmSpace rx else []⟩ : AFrame)
                (⟨(ts.node f.treelet f.node).childTR,
                  (ts.node f.treelet f.node).childNR, 0,
                  if f.transformed then xfmSpace rx else []⟩ : AFrame)).1 ::
                (childOrder (g.axisNeg
                    (if f.transformed then xfmSpace rx else [])
                    (ts.node f.treelet f.node).axis)
                  (⟨(ts.node f.treelet f.node).childTL,
                    (ts.node f.treelet f.node).childNL, 0,
                    if f.transformed then xfmSpace rx else []⟩ : AFrame)
                  (⟨(ts.node f.treelet f.node).childTR,
                    (ts.node f.treelet f.node).childNR, 0,
                    if f.transformed then xfmSpace rx else []⟩ : AFrame)).2 ::
                rest.map (absFrame rx), tM⟩ := by
            simp only [absCfg, List.map_cons]
            rw [hmapnf]
          have hINVc : TraceINV main
              ⟨(childOrder (g.axisNeg
                  (if f.transformed then xfmSpace rx else [])
                  (ts.node f.treelet f.node).axis)
                (⟨(ts.node f.treelet f.node).childTL,
                  (ts.node f.treelet f.node).childNL, 0, f.transformed⟩ :
                  CFrame)
                (⟨(ts.node f.treelet f.node).childTR,
                  (ts.node f.treelet f.node).childNR, 0,
                  f.transformed⟩ : CFrame)).1 ::
                (childOrder (g.axisNeg
                    (if f.transformed then xfmSpace rx else [])
                    (ts.node f.treelet f.node).axis)
                  (⟨(ts.node f.treelet f.node).childTL,
                    (ts.node f.treelet f.node).childNL, 0, f.transformed⟩ :
                    CFrame)
                  (⟨(ts.node f.treelet f.node).childTR,
                    (ts.node f.treelet f.node).childNR, 0,
                    f.transformed⟩ : CFrame)).2 :: rest,
                tM, hit, last, rx, false⟩ := by
            have htrc := childOrder_prop
              (fun c : CFrame => c.transformed = f.transformed)
              (g.axisNeg (if f.transformed then xfmSpace rx else [])
                (ts.node f.treelet f.node).axis)
              (⟨(ts.node f.treelet f.node).childTL,
                (ts.node f.treelet f.node).childNL, 0, f.transformed⟩ :
                CFrame)
              (⟨(ts.node f.treelet f.node).childTR,
                (ts.node f.treelet f.node).childNR, 0, f.transformed⟩ :
                CFrame) rfl rfl
            have hmainc := childOrder_prop
              (fun c : CFrame => c.transformed = true →
                main c.treelet = false)
              (g.axisNeg (if f.transformed then xfmSpace rx else [])
                (ts.node f.treelet f.node).axis)
              (⟨(ts.node f.treelet f.node).childTL,
                (ts.node f.treelet f.node).childNL, 0, f.transformed⟩ :
                CFrame)
              (⟨(ts.node f.treelet f.node).childTR,
                (ts.node f.treelet f.node).childNR, 0, f.transformed⟩ :
                CFrame)
              (fun hc => (hIC f.treelet f.node
                (hINV.2 f (List.mem_cons_self f rest) hc) hleaf).1)
              (fun hc => (hIC f.treelet f.node
                (hINV.2 f (List.mem_cons_self f rest) hc) hleaf).2)
            constructor
            · cases htr : f.transformed with
              | false =>
                rw [htr] at htrc
                refine xfmShape_all_false _ ?_
                intro f2 hf2
                rcases List.mem_cons.mp hf2 with h2 | h2
                · rw [h2]; exact htrc.1
                · rcases List.mem_cons.mp h2 with h3 | h3
                  · rw [h3]; exact htrc.2
                  · exact xfmShape_rest_false f rest hINV.1 htr f2 h3
              | true =>
                rw [htr] at htrc
                exact xfmShape_cons_true _ _
                  (xfmShape_cons_true _ _ (xfmShape_tail f rest hINV.1)
                    htrc.2) htrc.1
            · intro f2 hf2 htr2
              rcases List.mem_cons.mp hf2 with h2 | h2
              · rw [h2]; exact hmainc.1 (h2 ▸ htr2)
              · rcases List.mem_cons.mp h2 with h3 | h3
                · rw [h3]; exact hmainc.2 (h3 ▸ htr2)
                · exact hINV.2 f2 (List.mem_cons_of_mem f h3) htr2
          obtain ⟨k2, st2, plog2, log2b, logSb, hrun2, hk2, herr3, hINV2,
            hpre2, hsuf2, hlog2, hhit2, hlast2, hexit2, hprog2⟩ :=
            IHm m2 (by omega) fuel _ f.transformed cur cF l2 (by omega)
              hINVc rfl (by rw [habs2]; exact hA') hcF
          simp only [] at hrun2
          rw [hrun2]
          refine ⟨k2 + 1, st2, f :: plog2, [] ++ log2b, logSb, rfl,
            by omega, herr3, hINV2, ?_, ?_, ?_, ?_, ?_, hexit2,
            fun _ _ _ _ => by omega⟩
          · rw [habs]
            refine ARunN.step ?_ hpre2
            rw [habs2]
            exact stepA_cons_node _ _ _ hb hleaf
          · rw [Nat.succ_sub_succ]
            exact hsuf2
          · rw [hlog2, List.nil_append, List.nil_append]
          · simpa using hhit2
          · simpa using hlast2
        | true =>
          by_cases htr : f.transformed = true
          · have hmain : main f.treelet = false :=
              hINV.2 f (List.mem_cons_self f rest) htr
            obtain ⟨hLok, hLp⟩ := traceLeaf_noext ts g
              (if f.transformed then xfmSpace rx else []) f.treelet
              (ts.node f.treelet f.node).primOff
              (ts.node f.treelet f.node).primCount f f.node hplc
              (fun i root xfm => hIN f.treelet i root xfm hmain)
              ((ts.node f.treelet f.node).primCount - f.primitive)
              f.primitive tM hit last rx
            rw [stepA_cons_leaf (absFrame rx f) _ _ hb hleaf,
              Option.some_inj, Prod.mk.injEq] at hstep
            simp only [absFrame] at hstep
            obtain ⟨hc2, hl1⟩ := hstep
            subst hc2
            subst hl1
            simp only [traceInner]
            rw [if_neg (not_not_intro hfc), traceSp_eq, if_pos hb,
              if_pos hleaf]
            simp only [hLok, List.nil_append]
            by_cases hre : rest = []
            · subst hre
              rw [if_pos rfl]
              simp only [hLp, List.map_nil, List.append_nil] at hA'
              obtain ⟨hcf2, hl2, hm2⟩ := aRunN_nil_start hA'
              subst hcf2
              subst hl2
              subst hm2
              refine ⟨1, _, [f], (aLeaf ts g (if f.transformed then xfmSpace rx else []) f.treelet f.node (ts.node f.treelet f.node).primOff (ts.node f.treelet f.node).primCount ((ts.node f.treelet f.node).primCount - f.primitive) f.primitive tM).2.1, [], rfl, le_refl 1, rfl,
                ⟨xfmShape_all_false [] (by simp), by simp⟩, ?_,
                ARunN.refl _, rfl, rfl, rfl,
                Or.inl rfl, fun _ _ _ _ => le_refl 1⟩
              rw [habs]
              refine ARunN_single ?_
              rw [stepA_cons_leaf _ _ _ hb hleaf]
              simp only [absFrame]
              rw [hLp, List.map_nil, List.append_nil]
              rfl
            · rw [if_neg hre]
              obtain ⟨k2, st2, plog2, log2b, logSb, hrun2, hk2, herr3,
                hINV2, hpre2, hsuf2, hlog2, hhit2, hlast2, hexit2,
                hprog2⟩ :=
                IHm m2 (by omega) fuel
                  ⟨rest, (aLeaf ts g (if f.transformed then xfmSpace rx else []) f.treelet f.node (ts.node f.treelet f.node).primOff (ts.node f.treelet f.node).primCount ((ts.node f.treelet f.node).primCount - f.primitive) f.primitive tM).1, hit || !(aLeaf ts g (if f.transformed then xfmSpace rx else []) f.treelet f.node (ts.node f.treelet f.node).primOff (ts.node f.treelet f.node).primCount ((ts.node f.treelet f.node).primCount - f.primitive) f.primitive tM).2.1.isEmpty,
                    lastOr (aLeaf ts g (if f.transformed then xfmSpace rx else []) f.treelet f.node (ts.node f.treelet f.node).primOff (ts.node f.treelet f.node).primCount ((ts.node f.treelet f.node).primCount - f.primitive) f.primitive tM).2.1 last, rx, false⟩
                  f.transformed cur cF l2 (by omega)
                  ⟨xfmShape_tail f rest hINV.1,
                    fun f2 hf2 => hINV.2 f2 (List.mem_cons_of_mem f hf2)⟩
                  rfl
                  (by
                    simp only [hLp, List.nil_append] at hA'
                    exact hA') hcF
              try simp only [] at hrun2
              rw [hrun2]
              refine ⟨k2 + 1, st2, f :: plog2, (aLeaf ts g (if f.transformed then xfmSpace rx else []) f.treelet f.node (ts.node f.treelet f.node).primOff (ts.node f.treelet f.node).primCount ((ts.node f.treelet f.node).primCount - f.primitive) f.primitive tM).2.1 ++ log2b, logSb,
                rfl, by omega, herr3, hINV2, ?_, ?_, ?_, ?_, ?_, hexit2,
                fun _ _ _ _ => by omega⟩
              · rw [habs]
                refine ARunN.step ?_ hpre2
                rw [stepA_cons_leaf _ _ _ hb hleaf]
                simp only [absFrame]
                rw [hLp, List.nil_append]
                rfl
              · rw [Nat.succ_sub_succ]
                exact hsuf2
              · rw [hlog2, List.append_assoc]
              · rw [hhit2]
                simp only [not_isEmpty_append, Bool.or_assoc]
              · rw [hlast2, lastOr_append]
          · have htrf : f.transformed = false := by
              revert htr; cases f.transformed <;> simp
            have hSP : (if f.transformed then xfmSpace rx else []) =
                ([] : Space) := by rw [htrf]; simp
            have hrestf : ∀ f2 ∈ rest, f2.transformed = false :=
              xfmShape_rest_false f rest hINV.1 htrf
            obtain ⟨rx2, pushes, h1, h2, h3, h4⟩ := traceLeaf_world ts g
              main f.treelet (ts.node f.treelet f.node).primOff
              (ts.node f.treelet f.node).primCount f f.node hplc hER htrf
              rfl rfl ((ts.node f.treelet f.node).primCount - f.primitive)
              f.primitive tM hit last rx
            rw [stepA_cons_leaf (absFrame rx f) _ _ hb hleaf,
              Option.some_inj, Prod.mk.injEq] at hstep
            simp only [absFrame] at hstep
            rw [hSP] at hstep
            obtain ⟨hc2, hl1⟩ := hstep
            subst hc2
            subst hl1
            have hbSP := hb
            rw [hSP] at hbSP
            simp only [traceInner]
            rw [if_neg (not_not_intro hfc), traceSp_eq, hSP, if_pos hbSP,
              if_pos hleaf]
            simp only [h1]
            by_cases hemp : pushes ++ rest = []
            · rw [if_pos hemp]
              obtain ⟨hpe, hres⟩ := List.append_eq_nil.mp hemp
              have hA22 : (aLeaf ts g [] f.treelet f.node (ts.node f.treelet f.node).primOff (ts.node f.treelet f.node).primCount ((ts.node f.treelet f.node).primCount - f.primitive) f.primitive tM).2.2 = [] := by
                rw [← h2, hpe]
                rfl
              subst hres
              simp only [hA22, List.map_nil, List.append_nil] at hA'
              obtain ⟨hcf2, hl2, hm2⟩ := aRunN_nil_start hA'
              subst hcf2
              subst hl2
              subst hm2
              refine ⟨1, _, [f], (aLeaf ts g [] f.treelet f.node (ts.node f.treelet f.node).primOff (ts.node f.treelet f.node).primCount ((ts.node f.treelet f.node).primCount - f.primitive) f.primitive tM).2.1, [], rfl, le_refl 1, rfl,
                ⟨xfmShape_all_false [] (by simp), by simp⟩, ?_,
                ARunN.refl _, rfl, rfl, rfl,
                Or.inl rfl, fun _ _ _ _ => le_refl 1⟩
              rw [habs]
              refine ARunN_single ?_
              rw [stepA_cons_leaf _ _ _ hb hleaf]
              simp only [absFrame]
              rw [hSP, hA22, List.map_nil, List.append_nil]
              rfl
            · rw [if_neg hemp]
              have hINVp : TraceINV main
                  ⟨pushes ++ rest, (aLeaf ts g [] f.treelet f.node (ts.node f.treelet f.node).primOff (ts.node f.treelet f.node).primCount ((ts.node f.treelet f.node).primCount - f.primitive) f.primitive tM).1, hit || !(aLeaf ts g [] f.treelet f.node (ts.node f.treelet f.node).primOff (ts.node f.treelet f.node).primCount ((ts.node f.treelet f.node).primCount - f.primitive) f.primitive tM).2.1.isEmpty,
                    lastOr (aLeaf ts g [] f.treelet f.node (ts.node f.treelet f.node).primOff (ts.node f.treelet f.node).primCount ((ts.node f.treelet f.node).primCount - f.primitive) f.primitive tM).2.1 last, rx2, false⟩ := by
                constructor
                · rcases h4 with h4 | ⟨eF, contC, hpc, hcf⟩
                  · rw [h4, List.nil_append]
                    exact xfmShape_tail f rest hINV.1
                  · rw [hpc, List.cons_append]
                    cases heF : eF.transformed with
                    | true =>
                      refine xfmShape_cons_true _ _
                        (xfmShape_all_false _ ?_) heF
                      intro f2 hf2
                      rcases List.mem_append.mp hf2 with h5 | h5
                      · exact hcf f2 h5
                      · exact hrestf f2 h5
                    | false =>
                      refine xfmShape_all_false _ ?_
                      intro f2 hf2
                      rcases List.mem_cons.mp hf2 with h5 | h5
                      · rw [h5]; exact heF
                      · rcases List.mem_append.mp h5 with h6 | h6
                        · exact hcf f2 h6
                        · exact hrestf f2 h6
                · intro f2 hf2 htr2
                  rcases List.mem_append.mp hf2 with h5 | h5
                  · exact h3 f2 h5 htr2
                  · exact absurd (hrestf f2 h5) (by rw [htr2]; simp)
              have habs3 : absCfg
                  ⟨pushes ++ rest, (aLeaf ts g [] f.treelet f.node (ts.node f.treelet f.node).primOff (ts.node f.treelet f.node).primCount ((ts.node f.treelet f.node).primCount - f.primitive) f.primitive tM).1, hit || !(aLeaf ts g [] f.treelet f.node (ts.node f.treelet f.node).primOff (ts.node f.treelet f.node).primCount ((ts.node f.treelet f.node).primCount - f.primitive) f.primitive tM).2.1.isEmpty,
                    lastOr (aLeaf ts g [] f.treelet f.node (ts.node f.treelet f.node).primOff (ts.node f.treelet f.node).primCount ((ts.node f.treelet f.node).primCount - f.primitive) f.primitive tM).2.1 last, rx2, false⟩ =
                  ⟨(aLeaf ts g [] f.treelet f.node (ts.node f.treelet f.node).primOff (ts.node f.treelet f.node).primCount ((ts.node f.treelet f.node).primCount - f.primitive) f.primitive tM).2.2 ++ rest.map (absFrame rx), (aLeaf ts g [] f.treelet f.node (ts.node f.treelet f.node).primOff (ts.node f.treelet f.node).primCount ((ts.node f.treelet f.node).primCount - f.primitive) f.primitive tM).1⟩ := by
                simp only [absCfg, List.map_append]
                rw [h2, map_absFrame_untrans rx2 rx rest hrestf]
              obtain ⟨k2, st2, plog2, log2b, logSb, hrun2, hk2, herr3,
                hINV2, hpre2, hsuf2, hlog2, hhit2, hlast2, hexit2,
                hprog2⟩ :=
                IHm m2 (by omega) fuel
                  ⟨pushes ++ rest, (aLeaf ts g [] f.treelet f.node (ts.node f.treelet f.node).primOff (ts.node f.treelet f.node).primCount ((ts.node f.treelet f.node).primCount - f.primitive) f.primitive tM).1, hit || !(aLeaf ts g [] f.treelet f.node (ts.node f.treelet f.node).primOff (ts.node f.treelet f.node).primCount ((ts.node f.treelet f.node).primCount - f.primitive) f.primitive tM).2.1.isEmpty,
                    lastOr (aLeaf ts g [] f.treelet f.node (ts.node f.treelet f.node).primOff (ts.node f.treelet f.node).primCount ((ts.node f.treelet f.node).primCount - f.primitive) f.primitive tM).2.1 last, rx2, false⟩
                  f.transformed cur cF l2 (by omega)
                  hINVp rfl (by rw [habs3]; exact hA') hcF
              try simp only [] at hrun2
              have hSP2 : (if f.transformed then xfmSpace rx2 else []) =
                  ([] : Space) := by rw [htrf]; simp
              rw [hSP2] at hrun2
              rw [hrun2]
              refine ⟨k2 + 1, st2, f :: plog2, (aLeaf ts g [] f.treelet f.node (ts.node f.treelet f.node).primOff (ts.node f.treelet f.node).primCount ((ts.node f.treelet f.node).primCount - f.primitive) f.primitive tM).2.1 ++ log2b, logSb,
                rfl, by omega, herr3, hINV2, ?_, ?_, ?_, ?_, ?_, hexit2,
                fun _ _ _ _ => by omega⟩
              · rw [habs3] at hpre2
                rw [habs]
                refine ARunN.step ?_ hpre2
                rw [stepA_cons_leaf _ _ _ hb hleaf]
                simp only [absFrame]
                rw [hSP]
              · rw [Nat.succ_sub_succ]
                exact hsuf2
              · rw [hlog2, List.append_assoc]
              · rw [hhit2]
                simp only [not_isEmpty_append, Bool.or_assoc]
              · rw [hlast2, lastOr_append]
end PbrtCloud
namespace PbrtCloud

/-- Driving `Trace` to completion simulates the whole canonical run: if
the abstraction of a coherent ray state reaches the empty stack in `m`
canonical steps, then with enough fuel the scheduler loop of repeated
`Trace` calls terminates without error on an empty stack, with the final
`tMax` and the canonical hit log folded into the ray state. -/
theorem traceDrive_sim (ts : TScene) (g : Geom) (main : ℕ → Bool)
    (hplc : ∀ sp tM t i t2 hd, g.primHit sp tM t i = some (t2, hd) →
      hd.matPlaceholder = true)
    (hIN : ∀ t i root xfm, main t = false → ts.prim t i ≠ .ext root xfm)
    (hER : ∀ t i root xfm, ts.prim t i = .ext root xfm →
      main root = false ∧ root ≠ 0)
    (hIC : ∀ t n, main t = false → (ts.node t n).leaf = false →
      main (ts.node t n).childTL = false ∧
        main (ts.node t n).childTR = false) :
    ∀ (m : ℕ) (st : TState) (fuel : ℕ) (cF : ACfg) (logF : List THit),
      m + 2 ≤ fuel → TraceINV main st → st.err = false →
      ARunN ts g m (absCfg st) cF logF → cF.stack = [] →
      ∃ st2 : TState, traceDrive ts g fuel st = some st2 ∧
        st2.err = false ∧ st2.stack = [] ∧ st2.tMax = cF.tMax ∧
        st2.hit = (st.hit || !logF.isEmpty) ∧
        st2.lastHit = lastOr logF st.lastHit := by
  intro m
  induction m using Nat.strong_induction_on with
  | _ m IHm =>
  intro st fuel cF logF hfuel hINV herr hA hcF
  cases fuel with
  | zero => exact absurd hfuel (by omega)
  | succ fuel =>
  by_cases hst : st.stack = []
  · have habs : absCfg st = ⟨[], st.tMax⟩ := by simp [absCfg, hst]
    rw [habs] at hA
    obtain ⟨hcf2, hlog, hm⟩ := aRunN_nil_start hA
    subst hlog
    refine ⟨st, ?_, herr, hst, by rw [hcf2], by simp, rfl⟩
    simp only [traceDrive]
    rw [if_pos hst]
  · obtain ⟨f0, rest0, hst0⟩ : ∃ f0 r0, st.stack = f0 :: r0 := by
      cases hsq : st.stack with
      | nil => exact absurd hsq hst
      | cons a b => exact ⟨a, b, rfl⟩
    have hcall : traceCall ts g fuel st =
        traceInner ts g f0.treelet fuel false [] st := by
      simp only [traceCall, hst0]
    obtain ⟨k, st2, plog, log2, logS, hrun, hk, herr2, hINV2, hpre, hsuf,
      hlog, hhit, hlast, hexit, hprog⟩ :=
      traceInner_sim ts g main hplc hIN hER hIC m fuel st false f0.treelet
        cF logF (by omega) hINV herr hA hcF
    have hrun2 : traceInner ts g f0.treelet fuel false [] st =
        some (st2, plog) := hrun
    have hk1 : 1 ≤ k := hprog f0 rest0 hst0 rfl
    obtain ⟨st3, hdrive, herr3, hstk3, htM3, hhit3, hlast3⟩ :=
      IHm (m - k) (by omega) st2 fuel cF logS (by omega) hINV2 herr2 hsuf
        hcF
    refine ⟨st3, ?_, herr3, hstk3, htM3, ?_, ?_⟩
    · simp only [traceDrive]
      rw [if_neg hst, hcall]
      simp only [hrun2]
      rw [if_neg (by rw [herr2]; simp)]
      exact hdrive
    · rw [hhit3, hhit, hlog, not_isEmpty_append, Bool.or_assoc]
    · rw [hlast3, hlast, hlog, lastOr_append]

/-- C1: driving the partial traversal to completion — starting from a
ray state whose stack holds the single root frame and repeatedly calling
`CloudBVH::Trace` until the to-visit stack is empty — produces exactly
the outcome (hit flag, recorded hit interaction with its space, final
ray `tMax`) of a single closest-hit `CloudBVH::Intersect` from the same
start treelet, however many treelet-boundary suspensions occur.
Hypotheses: the geometric oracle is shared; every hit material is a
placeholder (`hplc`, the lazy-load regime C10 establishes); node bounds
are conservative for the primitives and external roots inside them
(`hG`, `hE`, true of real geometry); external instances live in
instance treelets that contain no further external instancing and have
non-zero roots (`hIN`, `hER`, `hIC` over a marking `main` of top-level
treelets), matching pbrt's ban on nested object instances; and when the
root frame names treelet 0 the world-ray octant computation also yields
0 (`hstart`), which holds in the source because `StartTrace` seeds the
frame with `ComputeIdx(ray.d)` — the very value `Intersect` redirects
root 0 to — so the redirect lands on the treelet the frame names, both
in the default non-directional configuration (always 0) and for the
all-negative octant with directional treelets enabled. -/
theorem trace_drive_refines_intersect (ts : TScene) (g : Geom)
    (main : ℕ → Bool) (startT : ℕ) (t0 : ℚ) (fuel : ℕ) (out : IRes)
    (hplc : ∀ sp tM t i t2 hd, g.primHit sp tM t i = some (t2, hd) →
      hd.matPlaceholder = true)
    (hG : ∀ sp tM t nidx rel, (ts.node t nidx).leaf = true →
      g.boundsHit sp tM t nidx = false → rel < (ts.node t nidx).primCount →
      ts.prim t ((ts.node t nidx).primOff + rel) = .geom →
      g.primHit sp tM t ((ts.node t nidx).primOff + rel) = none)
    (hE : ∀ sp tM t nidx rel root xfm, (ts.node t nidx).leaf = true →
      g.boundsHit sp tM t nidx = false → rel < (ts.node t nidx).primCount →
      ts.prim t ((ts.node t nidx).primOff + rel) = .ext root xfm →
      g.boundsHit (spCompose xfm sp) tM root 0 = false)
    (hIN : ∀ t i root xfm, main t = false → ts.prim t i ≠ .ext root xfm)
    (hER : ∀ t i root xfm, ts.prim t i = .ext root xfm →
      main root = false ∧ root ≠ 0)
    (hIC : ∀ t n, main t = false → (ts.node t n).leaf = false →
      main (ts.node t n).childTL = false ∧
        main (ts.node t n).childTR = false)
    (hstart : startT = 0 → g.octant [] = startT)
    (hI : isectRoot ts g fuel [] startT t0 = some out) :
    ∃ (fuel2 : ℕ) (st2 : TState),
      traceDrive ts g fuel2
          ⟨[⟨startT, 0, 0, false⟩], t0, false, none, none, false⟩ =
        some st2 ∧
      st2.err = false ∧ st2.stack = [] ∧ st2.tMax = out.tMax ∧
      st2.hit = out.hit ∧ st2.lastHit = out.last := by
  obtain ⟨n, tM2, log, hrun, hout⟩ :=
    (isect_sim ts g
      (fun sp tM t nidx rel h1 h2 h3 h4 => hG sp tM t nidx rel h1 h2 h3 h4)
      (fun sp tM t nidx rel root xfm h1 h2 h3 h4 =>
        hE sp tM t nidx rel root xfm h1 h2 h3 h4)
      (fun t i root xfm hp => (hER t i root xfm hp).2) fuel).2.2
      [] startT t0 out hI []
  have hred : (if startT = 0 then g.octant [] else startT) = startT := by
    by_cases h0 : startT = 0
    · rw [if_pos h0]
      exact hstart h0
    · rw [if_neg h0]
  rw [hred] at hrun
  have habs : absCfg
      ⟨[⟨startT, 0, 0, false⟩], t0, false, none, none, false⟩ =
      ⟨[⟨startT, 0, 0, []⟩], t0⟩ := rfl
  obtain ⟨st2, hdrive, herr2, hstk2, htM2, hhit2, hlast2⟩ :=
    traceDrive_sim ts g main hplc hIN hER hIC n
      ⟨[⟨startT, 0, 0, false⟩], t0, false, none, none, false⟩ (n + 2)
      ⟨[], tM2⟩ log (le_refl _)
      ⟨xfmShape_all_false _ (by simp),
        by
          intro f hf htr
          rw [List.mem_singleton] at hf
          subst hf
          simp at htr⟩
      rfl (by rw [habs]; exact hrun) rfl
  refine ⟨n + 2, st2, hdrive, herr2, hstk2, ?_, ?_, ?_⟩
  · rw [htM2, hout]
    rfl
  · rw [hhit2, hout]
    simp [accPlus]
  · rw [hlast2, hout]
    rfl

end PbrtCloud

namespace PbrtCloud

/-- Witness for `trace_drive_refines_intersect` on `c1Scene`, starting
from treelet 0 — the frame `StartTrace` seeds in the default
non-directional configuration: `Intersect`'s root-0 redirect lands on
the octant treelet 0, the same treelet the frame names, records the
placeholder hit and shrinks `tMax` to 1, and the driven `Trace` run
from the single root frame reaches the same outcome. -/
theorem trace_drive_refines_intersect_witness :
    isectRoot c1Scene c1Geom 5 [] 0 7 = some ⟨1, true, some ({}, [])⟩ ∧
      ∃ (fuel2 : ℕ) (st2 : TState),
        traceDrive c1Scene c1Geom fuel2
            ⟨[⟨0, 0, 0, false⟩], 7, false, none, none, false⟩ =
          some st2 ∧
        st2.err = false ∧ st2.stack = [] ∧
        st2.tMax = (⟨1, true, some ({}, [])⟩ : IRes).tMax ∧
        st2.hit = (⟨1, true, some ({}, [])⟩ : IRes).hit ∧
        st2.lastHit = (⟨1, true, some ({}, [])⟩ : IRes).last :=
  ⟨by rfl,
    trace_drive_refines_intersect c1Scene c1Geom c1Main 0 7 5
      ⟨1, true, some ({}, [])⟩
      (by
        intro sp tM t i t2 hd h
        simp only [c1Geom] at h
        rw [Option.some_inj, Prod.mk.injEq] at h
        rw [← h.2])
      (by
        intro sp tM t nidx rel h1 hb hr hp
        exact absurd hb (by simp [c1Geom]))
      (by
        intro sp tM t nidx rel root xfm h1 hb hr hp
        exact absurd hb (by simp [c1Geom]))
      (by
        intro t i root xfm hm h
        simp [c1Scene] at h)
      (by
        intro t i root xfm h
        simp [c1Scene] at h)
      (by
        intro t n hm hl
        simp [c1Scene] at hl)
      (fun _ => rfl)
      (by rfl)⟩

end PbrtCloud
